import Mathlib

/-!
Verification of the content-ingestion pipeline of the `tldr` news aggregator.

The development is a shallow embedding of the fetcher backend
(`backend/app/fetcher/runner.py`, `backend/app/fetcher/rss_fetcher.py`,
`backend/app/models/source.py`, `backend/app/models/article.py`) in Lean.

Python strings are modelled as lists of Unicode scalar values (`List Char`).
The parts of Python's standard library the pipeline calls
(`urllib.parse.urlparse/urlunparse/parse_qs/urlencode`, percent-encoding,
`str.strip`, `str.lower`) are embedded as executable Lean functions following
the CPython implementation; `str.lower` is modelled on ASCII letters (the
only letters the pipeline's own string constants contain), and percent
decoding decodes maximal runs of `%XX` escapes as UTF-8 byte sequences,
emitting U+FFFD for invalid sequences (CPython's `errors='replace'`).
-/

set_option maxRecDepth 16384

namespace Tldr

/-- Python strings, as sequences of Unicode scalar values. -/
abbrev Str := List Char

/-! ### Python string primitives -/

/-- The characters `str.strip()` removes (ASCII whitespace; Python also strips
some further Unicode space characters, which never occur in this pipeline). -/
def isPyWhitespace (c : Char) : Bool :=
  c = ' ' || c = '\t' || c = '\n' || c = '\x0d' || c = Char.ofNat 11 || c = Char.ofNat 12

/-- `s.strip()`. -/
def pyStrip (s : Str) : Str :=
  ((s.dropWhile isPyWhitespace).reverse.dropWhile isPyWhitespace).reverse

/-- `c.lower()` for a single character (ASCII). -/
def pyLowerChar (c : Char) : Char :=
  if 'A' ≤ c ∧ c ≤ 'Z' then Char.ofNat (c.toNat + 32) else c

/-- `s.lower()` (ASCII letters). -/
def pyLower (s : Str) : Str := s.map pyLowerChar

/-! ### UTF-8, hex digits and percent-encoding

Models the byte-level behaviour of `urllib.parse.quote_plus` / `unquote`:
a string is encoded to UTF-8 bytes; unsafe bytes become `%XX` escapes;
decoding turns maximal runs of `%XX` escapes back into bytes and decodes
them as UTF-8 with `errors='replace'`. -/

/-- Hexadecimal digit test (`string.hexdigits`). -/
def isHexDigitChar (c : Char) : Bool :=
  ('0' ≤ c && c ≤ '9') || ('a' ≤ c && c ≤ 'f') || ('A' ≤ c && c ≤ 'F')

/-- Value of a hexadecimal digit. -/
def hexVal (c : Char) : Nat :=
  if '0' ≤ c ∧ c ≤ '9' then c.toNat - 48
  else if 'a' ≤ c ∧ c ≤ 'f' then c.toNat - 87
  else c.toNat - 55

/-- Upper-case hexadecimal digit for `n < 16` (CPython's `quote` emits upper case). -/
def hexDigitUpper (n : Nat) : Char :=
  if n < 10 then Char.ofNat (48 + n) else Char.ofNat (55 + n)

/-- UTF-8 encoding of a Unicode scalar value, as a list of byte values. -/
def utf8EncodeChar (n : Nat) : List Nat :=
  if n < 0x80 then [n]
  else if n < 0x800 then [0xC0 + n / 64, 0x80 + n % 64]
  else if n < 0x10000 then [0xE0 + n / 4096, 0x80 + n / 64 % 64, 0x80 + n % 64]
  else [0xF0 + n / 0x40000, 0x80 + n / 4096 % 64, 0x80 + n / 64 % 64, 0x80 + n % 64]

/-- U+FFFD, the replacement character used by `errors='replace'`. -/
def replacementChar : Char := Char.ofNat 0xFFFD

/-- Build a character from a scalar value, replacing invalid values by U+FFFD. -/
def mkCharReplace (n : Nat) : Char :=
  if n.isValidChar then Char.ofNat n else replacementChar

/-- UTF-8 continuation byte test. -/
def isContByte (b : Nat) : Bool := 0x80 ≤ b && b ≤ 0xBF

/-- Worker for `utf8DecodeReplace`, with fuel to keep the recursion
structural (each step consumes at least one byte, so fuel = length suffices). -/
def utf8DecodeAux : Nat → List Nat → Str
  | 0, _ => []
  | _ + 1, [] => []
  | fuel + 1, b :: rest =>
    if b < 0x80 then mkCharReplace b :: utf8DecodeAux fuel rest
    else if 0xC2 ≤ b ∧ b ≤ 0xDF then
      match rest with
      | [] => [replacementChar]
      | b1 :: rest' =>
        if isContByte b1 then
          mkCharReplace ((b - 0xC0) * 64 + (b1 - 0x80)) :: utf8DecodeAux fuel rest'
        else replacementChar :: utf8DecodeAux fuel (b1 :: rest')
    else if 0xE0 ≤ b ∧ b ≤ 0xEF then
      match rest with
      | [] => [replacementChar]
      | [b1] => [replacementChar]
      | b1 :: b2 :: rest' =>
        if isContByte b1 ∧ isContByte b2 then
          mkCharReplace ((b - 0xE0) * 4096 + (b1 - 0x80) * 64 + (b2 - 0x80)) ::
            utf8DecodeAux fuel rest'
        else replacementChar :: utf8DecodeAux fuel (b1 :: b2 :: rest')
    else if 0xF0 ≤ b ∧ b ≤ 0xF4 then
      match rest with
      | [] => [replacementChar]
      | [b1] => [replacementChar]
      | [b1, b2] => [replacementChar]
      | b1 :: b2 :: b3 :: rest' =>
        if isContByte b1 ∧ isContByte b2 ∧ isContByte b3 then
          mkCharReplace
              ((b - 0xF0) * 0x40000 + (b1 - 0x80) * 4096 + (b2 - 0x80) * 64 + (b3 - 0x80)) ::
            utf8DecodeAux fuel rest'
        else replacementChar :: utf8DecodeAux fuel (b1 :: b2 :: b3 :: rest')
    else replacementChar :: utf8DecodeAux fuel rest

/-- UTF-8 decoding of a byte list with replacement of invalid sequences
(CPython decodes the bytes of a percent-escape run with `errors='replace'`;
overlong forms, which a strict decoder would also reject, are accepted here —
they never arise from encoding and only affect malformed inputs). -/
def utf8DecodeReplace (bs : List Nat) : Str := utf8DecodeAux bs.length bs

/-- The bytes `quote` never escapes: ASCII alphanumerics and `_.-~`
(CPython's `_ALWAYS_SAFE`; the denylisted extra `safe` argument is `''` at
both call sites in the pipeline). -/
def alwaysSafeByte (b : Nat) : Bool :=
  (48 ≤ b && b ≤ 57) || (65 ≤ b && b ≤ 90) || (97 ≤ b && b ≤ 122) ||
    b = 95 || b = 46 || b = 45 || b = 126

/-- Quote one byte: safe bytes stand for themselves, the rest become `%XX`. -/
def quoteByte (b : Nat) : Str :=
  if alwaysSafeByte b then [Char.ofNat b]
  else ['%', hexDigitUpper (b / 16), hexDigitUpper (b % 16)]

/-- `urllib.parse.quote_plus(s, safe='')`: spaces become `+`, every other
character is UTF-8 encoded and its unsafe bytes are percent-escaped. -/
def quotePlus (s : Str) : Str :=
  s.flatMap fun c =>
    if c = ' ' then ['+'] else (utf8EncodeChar c.toNat).flatMap quoteByte

/-- Collect the maximal leading run of valid `%XX` escapes, returning the
decoded byte values and the remainder of the string. -/
def pctRun : Str → List Nat × Str
  | [] => ([], [])
  | [c] => ([], [c])
  | [c, c1] => ([], [c, c1])
  | c :: c1 :: c2 :: rest =>
    if c = '%' ∧ isHexDigitChar c1 ∧ isHexDigitChar c2 then
      let p := pctRun rest
      ((hexVal c1 * 16 + hexVal c2) :: p.1, p.2)
    else ([], c :: c1 :: c2 :: rest)

/-- Worker for `unquote`, with explicit fuel so that the definition is
structural (the fuel never runs out when it starts at the string length). -/
def unquoteAux : Nat → Str → Str
  | 0, s => s
  | _ + 1, [] => []
  | fuel + 1, c :: rest =>
    if c = '%' then
      let p := pctRun (c :: rest)
      if p.1 = [] then c :: unquoteAux fuel rest
      else utf8DecodeReplace p.1 ++ unquoteAux fuel p.2
    else c :: unquoteAux fuel rest

/-- `urllib.parse.unquote(s)` (with the default `utf-8` / `'replace'`):
maximal runs of `%XX` escapes are decoded as UTF-8 byte sequences; a `%` not
followed by two hex digits is left literal. -/
def unquote (s : Str) : Str := unquoteAux s.length s

/-- `s.replace('+', ' ')`, applied by `parse_qsl` before unquoting. -/
def replacePlusSpace (s : Str) : Str :=
  s.map fun c => if c = '+' then ' ' else c

/-! ### `urllib.parse.urlsplit` / `urlparse` and their inverses

Embedded from CPython's `urllib/parse.py` (current 3.x: WHATWG input
stripping, first-character scheme check, mismatched-bracket `ValueError`).
The additional `_check_bracketed_host` and non-ASCII NFKC netloc checks are
not modelled (they concern non-ASCII or bracketed-IPv6 hosts only). -/

/-- Split a string at the first occurrence of `sep` (Python `s.split(sep, 1)`),
or `none` when `sep` does not occur. -/
def splitOnce (sep : Char) : Str → Option (Str × Str)
  | [] => none
  | c :: rest =>
    if c = sep then some ([], rest)
    else
      match splitOnce sep rest with
      | none => none
      | some (a, b) => some (c :: a, b)

/-- Python `s.split(sep)` for a one-character separator. -/
def splitChar (sep : Char) : Str → List Str
  | [] => [[]]
  | c :: rest =>
    if c = sep then [] :: splitChar sep rest
    else (c :: (splitChar sep rest).headD []) :: (splitChar sep rest).tail

/-- `scheme_chars` of `urllib.parse`: ASCII alphanumerics and `+-.`. -/
def isSchemeChar (c : Char) : Bool :=
  c.isAlphanum || c = '+' || c = '-' || c = '.'

/-- WHATWG C0-control-or-space class, lstripped from URL input. -/
def isC0ControlOrSpace (c : Char) : Bool := c.toNat ≤ 32

/-- `_UNSAFE_URL_BYTES_TO_REMOVE` = tab, carriage return, newline. -/
def isUnsafeUrlByte (c : Char) : Bool := c = '\t' || c = '\r' || c = '\n'

/-- Input cleaning done at the top of `urlsplit`. -/
def cleanUrlInput (s : Str) : Str :=
  (s.dropWhile isC0ControlOrSpace).filter fun c => !isUnsafeUrlByte c

/-- The scheme extraction of `urlsplit`: a leading run of scheme characters
starting with an ASCII letter, terminated by `:`; returns the lower-cased
scheme and the remainder, or `none` when the URL carries no scheme. -/
def splitSchemeOff (s : Str) : Option (Str × Str) :=
  match s.span isSchemeChar with
  | (pre, rest) =>
    match rest with
    | [] => none
    | d :: tl =>
      if d = ':' ∧ pre ≠ [] ∧ (pre.headD ' ').isAlpha then some (pyLower pre, tl)
      else none

/-- Characters terminating the netloc in `_splitnetloc`. -/
def isNetlocDelim (c : Char) : Bool := c = '/' || c = '?' || c = '#'

/-- Result record of `urlsplit` (named tuple `SplitResult`). -/
structure SplitResult where
  scheme : Str
  netloc : Str
  url : Str
  query : Str
  fragment : Str
  deriving Repr, DecidableEq

/-- `urllib.parse.urlsplit(url)`; `none` models the `ValueError` raised for
mismatched square brackets in the netloc. -/
def urlsplit (url0 : Str) : Option SplitResult :=
  let url1 := cleanUrlInput url0
  let sr := match splitSchemeOff url1 with
    | some (sc, rest) => (sc, rest)
    | none => (([] : Str), url1)
  let scheme := sr.1
  let url2 := sr.2
  let hasNetloc := url2.take 2 = ['/', '/']
  let netloc := if hasNetloc then (url2.drop 2).takeWhile (fun c => !isNetlocDelim c) else []
  let url3 := if hasNetloc then (url2.drop 2).dropWhile (fun c => !isNetlocDelim c) else url2
  if ('[' ∈ netloc ∧ ']' ∉ netloc) ∨ (']' ∈ netloc ∧ '[' ∉ netloc) then none
  else
    let fr := match splitOnce '#' url3 with
      | some (a, b) => (a, b)
      | none => (url3, ([] : Str))
    let qr := match splitOnce '?' fr.1 with
      | some (a, b) => (a, b)
      | none => (fr.1, ([] : Str))
    some ⟨scheme, netloc, qr.1, qr.2, fr.2⟩

/-- `_splitparams`: split `;params` off the last path segment. (`urlparse`
only calls it when `';'` occurs in the path; on other inputs this definition
returns the path unchanged with empty params, which coincides.) -/
def splitparams (url : Str) : Str × Str :=
  if '/' ∈ url then
    let after := (url.reverse.takeWhile fun c => c ≠ '/').reverse
    let before := url.take (url.length - after.length)
    match splitOnce ';' after with
    | none => (url, [])
    | some (a, b) => (before ++ a, b)
  else
    match splitOnce ';' url with
    | none => (url, [])
    | some (a, b) => (a, b)

/-- Result record of `urlparse` (named tuple `ParseResult`). -/
structure ParseResult where
  scheme : Str
  netloc : Str
  path : Str
  params : Str
  query : Str
  fragment : Str
  deriving Repr, DecidableEq

/-- `urllib.parse.urlparse(url)`; `none` models a raised `ValueError`. -/
def urlparse (url : Str) : Option ParseResult :=
  match urlsplit url with
  | none => none
  | some s =>
    let pp := splitparams s.url
    some ⟨s.scheme, s.netloc, pp.1, pp.2, s.query, s.fragment⟩

/-- `urllib.parse.uses_netloc` (CPython 3.11). -/
def usesNetloc : List Str :=
  ["ftp".data, "http".data, "gopher".data, "nntp".data, "telnet".data,
   "imap".data, "wais".data, "file".data, "mms".data, "https".data, "shttp".data,
   "snews".data, "prospero".data, "rtsp".data, "rtsps".data, "rtspu".data,
   "rsync".data, "svn".data, "svn+ssh".data, "sftp".data, "nfs".data, "git".data,
   "git+ssh".data, "ws".data, "wss".data]
-- The Python list also contains `''`, but `urlunsplit` tests it only under
-- `scheme and ...`, so the empty scheme never reaches the membership test.

/-- `urllib.parse.urlunsplit` (CPython 3.11: `//` is prepended when a netloc
is present, or when the scheme is known to use one and the path does not
already start with `//`). -/
def urlunsplit (scheme netloc url query fragment : Str) : Str :=
  let u1 :=
    if netloc ≠ [] ∨ (scheme ≠ [] ∧ scheme ∈ usesNetloc ∧ url.take 2 ≠ ['/', '/']) then
      '/' :: '/' :: (netloc ++ (if url ≠ [] ∧ url.take 1 ≠ ['/'] then '/' :: url else url))
    else url
  let u2 := if scheme ≠ [] then scheme ++ ':' :: u1 else u1
  let u3 := if query ≠ [] then u2 ++ '?' :: query else u2
  if fragment ≠ [] then u3 ++ '#' :: fragment else u3

/-- `urllib.parse.urlunparse`. -/
def urlunparse (p : ParseResult) : Str :=
  urlunsplit p.scheme p.netloc
    (if p.params ≠ [] then p.path ++ ';' :: p.params else p.path) p.query p.fragment

/-! ### `parse_qs` / `urlencode` -/

/-- Handling of one `name=value` chunk in `parse_qsl` (with the default
`keep_blank_values=False`, `strict_parsing=False`, separator `'&'`):
empty chunks, chunks without `=`, and chunks with an empty value are skipped;
names and values have `+` turned into spaces and are percent-decoded. -/
def parseQsChunk (nv : Str) : Option (Str × Str) :=
  if nv = [] then none
  else
    match splitOnce '=' nv with
    | none => none
    | some (n, v) =>
      if v = [] then none
      else some (unquote (replacePlusSpace n), unquote (replacePlusSpace v))

/-- `urllib.parse.parse_qsl(qs)` with default arguments. -/
def parseQsl (qs : Str) : List (Str × Str) :=
  (if qs = [] then [] else splitChar '&' qs).filterMap parseQsChunk

/-- Insert one pair into the insertion-ordered dict that `parse_qs` builds. -/
def addPairToDict (d : List (Str × List Str)) (k : Str) (v : Str) :
    List (Str × List Str) :=
  if d.any (fun kv => kv.1 = k) then
    d.map fun kv => if kv.1 = k then (kv.1, kv.2 ++ [v]) else kv
  else d ++ [(k, [v])]

/-- `urllib.parse.parse_qs(qs)`: group `parse_qsl` pairs by name, keeping
first-occurrence order (Python dicts preserve insertion order). -/
def parse_qs (qs : Str) : List (Str × List Str) :=
  (parseQsl qs).foldl (fun d kv => addPairToDict d kv.1 kv.2) []

/-- `urllib.parse.urlencode(d, doseq=True)` for a str→list-of-str mapping. -/
def urlencodeSeq (d : List (Str × List Str)) : Str :=
  List.intercalate ['&']
    (d.flatMap fun kv => kv.2.map fun v => quotePlus kv.1 ++ '=' :: quotePlus v)

/-! ### `FetcherRunner.normalize_url` -/

/-- The tracking-parameter denylist of `FetcherRunner.normalize_url`
(`runner.py` lines 88–91). -/
def trackingParams : List Str :=
  ["utm_source".data, "utm_medium".data, "utm_campaign".data, "utm_content".data,
   "utm_term".data, "fbclid".data, "gclid".data, "ref".data, "referrer".data,
   "_ga".data, "mc_cid".data, "mc_eid".data]

/-- The dict comprehension keeping non-tracking query parameters
(case-insensitive key match). -/
def filteredParams (d : List (Str × List Str)) : List (Str × List Str) :=
  d.filter fun kv => !trackingParams.contains (pyLower kv.1)

/-- `FetcherRunner.normalize_url` (`runner.py` lines 71–114): falsy input is
returned as is; a `ValueError` from `urlparse` is caught and the original
string returned; otherwise tracking parameters are dropped from the parsed
query, the netloc is lower-cased, the fragment dropped, and the URL
reassembled. -/
def normalize_url (url : Str) : Str :=
  if url = [] then url
  else
    match urlparse url with
    | none => url
    | some p =>
      let query_params := parse_qs p.query
      let fp := filteredParams query_params
      let new_query := if fp ≠ [] then urlencodeSeq fp else []
      urlunparse ⟨p.scheme, pyLower p.netloc, p.path, p.params, new_query, []⟩

/-! ### Article data, validator and storage preparation -/

/-- Decimal rendering of a number, for the f-string error messages. -/
def natStr (n : Nat) : Str := (Nat.repr n).data

/-- The article-data dictionary flowing from the feed parser to the runner.
`title`/`url` are read with `.get(k, '')` (absent ↦ `[]`); `content` and
`summary` are read with `.get(k, '') or ''` (absent or `None` ↦ `[]`). -/
structure ArticleData where
  title : Str := []
  url : Str := []
  author : Option Str := none
  published_at : Option Int := none
  summary : Option Str := none
  content : Option Str := none
  deriving Repr, DecidableEq

/-- `article_data.get(k, '') or ''` for a nullable string field. -/
def optStr (o : Option Str) : Str := o.getD []

/-- `FetcherRunner.max_title_length`. -/
def max_title_length : Nat := 512

/-- `FetcherRunner.max_content_length`. -/
def max_content_length : Nat := 50000

/-- `FetcherRunner.max_summary_length`. -/
def max_summary_length : Nat := 5000

/-- `FetcherRunner.validate_article_data` (`runner.py` lines 116–155). -/
def validate_article_data (a : ArticleData) : Bool × Option Str :=
  if pyStrip a.title = [] then (false, some "Article title is required".data)
  else if pyStrip a.url = [] then (false, some "Article URL is required".data)
  else
    match urlparse a.url with
    | none => (false, some ("Invalid URL format: ".data ++ a.url))
    | some parsed =>
      if parsed.scheme = [] ∨ parsed.netloc = [] then
        (false, some ("Invalid URL format: ".data ++ a.url))
      else if a.title.length > max_title_length then
        (false, some ("Title too long (".data ++ natStr a.title.length ++
          " > ".data ++ natStr max_title_length ++ ")".data))
      else if (optStr a.content).length > max_content_length then
        (false, some ("Content too long (".data ++ natStr (optStr a.content).length ++
          " > ".data ++ natStr max_content_length ++ ")".data))
      else if (optStr a.summary).length > max_summary_length then
        (false, some ("Summary too long (".data ++ natStr (optStr a.summary).length ++
          " > ".data ++ natStr max_summary_length ++ ")".data))
      else (true, none)

/-- A persisted Article row (`models/article.py`; the autoincrement id and
server-side `created_at` are not modelled). `Article.create_from_dict` copies
the prepared dictionary field for field, so preparation is modelled as
producing the row directly. -/
structure Article where
  source_id : Nat
  title : Str
  url : Str
  author : Option Str
  published_at : Option Int
  summary : Option Str
  content : Option Str
  deriving Repr, DecidableEq

/-- `FetcherRunner.prepare_article_for_storage` (`runner.py` lines 212–248):
normalize the URL, strip the title, truncate oversized fields to
`max - 3` characters plus `'...'`, and null out empty summary/content. -/
def prepare_article_for_storage (a : ArticleData) (source_id : Nat) : Article :=
  let normalized_url := normalize_url a.url
  let title0 := pyStrip a.title
  let title :=
    if title0.length > max_title_length then
      title0.take (max_title_length - 3) ++ "...".data
    else title0
  let content0 := optStr a.content
  let content :=
    if content0.length > max_content_length then
      content0.take (max_content_length - 3) ++ "...".data
    else content0
  let summary0 := optStr a.summary
  let summary :=
    if summary0.length > max_summary_length then
      summary0.take (max_summary_length - 3) ++ "...".data
    else summary0
  { source_id := source_id, title := title, url := normalized_url,
    author := a.author, published_at := a.published_at,
    summary := if summary = [] then none else some summary,
    content := if content = [] then none else some content }

/-! ### Dedup & storage engine -/

/-- Result of the per-article `session.commit()`; an `integrityError` models
a raised `sqlalchemy.exc.IntegrityError` carrying `str(e)`. -/
inductive CommitOutcome where
  | ok
  | integrityError (msg : Str)
  deriving Repr, DecidableEq

/-- The commit behaviour of the persistence layer, as an oracle keyed by the
row being inserted (this captures concurrent-race outcomes while keeping the
engine a function). -/
def DbEnv := Article → CommitOutcome

/-- Terminal state of one entry in the dedup/storage state machine. -/
inductive Outcome where
  | stored
  | duplicate
  | error
  deriving Repr, DecidableEq

/-- The stored/duplicates/errors counters of a batch. -/
structure Counts where
  stored : Nat
  duplicates : Nat
  errors : Nat
  deriving Repr, DecidableEq

/-- Python's `needle in haystack` substring test. -/
def strContains (needle : Str) : Str → Bool
  | [] => needle.isEmpty
  | c :: rest => needle.isPrefixOf (c :: rest) || strContains needle rest

/-- The `IntegrityError` message test of `store_articles_batch`
(`runner.py` line 302). -/
def isUniquenessViolationMsg (msg : Str) : Bool :=
  strContains "UNIQUE constraint failed".data msg ||
    strContains "duplicate key".data (pyLower msg)

/-- `FetcherRunner.check_duplicate_by_url`: first stored article with the
given URL. -/
def check_duplicate_by_url (store : List Article) (url : Str) : Option Article :=
  store.find? fun art => art.url = url

/-- One iteration of the loop in `FetcherRunner.store_articles_batch`
(`runner.py` lines 269–316): validate, prepare, look up the normalized URL,
insert with the `IntegrityError` fallback. Returns the updated store and the
entry's terminal outcome. -/
def processEntry (env : DbEnv) (store : List Article) (a : ArticleData)
    (source_id : Nat) : List Article × Outcome :=
  if (validate_article_data a).1 then
    let prepared := prepare_article_for_storage a source_id
    match check_duplicate_by_url store prepared.url with
    | some _ => (store, Outcome.duplicate)
    | none =>
      match env prepared with
      | CommitOutcome.ok => (store ++ [prepared], Outcome.stored)
      | CommitOutcome.integrityError msg =>
        if isUniquenessViolationMsg msg then (store, Outcome.duplicate)
        else (store, Outcome.error)
  else (store, Outcome.error)

/-- Bump the counter matching an outcome. -/
def bump (c : Counts) : Outcome → Counts
  | Outcome.stored => { c with stored := c.stored + 1 }
  | Outcome.duplicate => { c with duplicates := c.duplicates + 1 }
  | Outcome.error => { c with errors := c.errors + 1 }

/-- `FetcherRunner.store_articles_batch` (`runner.py` lines 250–319): fold
`processEntry` over the batch, counting outcomes (each article is committed
individually, so the store is threaded through the fold). -/
def store_articles_batch (env : DbEnv) (store : List Article)
    (articles_data : List ArticleData) (source_id : Nat) : List Article × Counts :=
  articles_data.foldl
    (fun acc a =>
      let r := processEntry env acc.1 a source_id
      (r.1, bump acc.2 r.2))
    (store, ⟨0, 0, 0⟩)

/-- The per-entry outcome trace of a batch (observer on the same recursion,
used to state that batch boundaries do not affect individual outcomes). -/
def batchOutcomes (env : DbEnv) (store : List Article) :
    List ArticleData → Nat → List Outcome
  | [], _ => []
  | a :: rest, source_id =>
    let r := processEntry env store a source_id
    r.2 :: batchOutcomes env r.1 rest source_id

/-- The batch slices `articles[i:i+batch_size]` taken by the loop
`for i in range(0, len(articles), batch_size)` (fuel keeps the recursion
structural; fuel = length suffices whenever `batch_size ≥ 1`). -/
def chunksAux (bs : Nat) : Nat → List ArticleData → List (List ArticleData)
  | _, [] => []
  | 0, _ :: _ => []
  | f + 1, a :: l => (a :: l).take bs :: chunksAux bs f ((a :: l).drop bs)

/-- The list of batches of size `bs`. -/
def chunks (bs : Nat) (l : List ArticleData) : List (List ArticleData) :=
  chunksAux bs l.length l

/-- `FetcherRunner.process_articles_from_source` (`runner.py` lines 321–364):
early return on an empty list, otherwise process the batches in order,
summing their counters. `batch_size` is the runner's `self.batch_size`
attribute (100 in `__init__`). -/
def process_articles_from_source (env : DbEnv) (store : List Article)
    (articles : List ArticleData) (source_id : Nat) (batch_size : Nat) :
    List Article × Counts :=
  if articles = [] then (store, ⟨0, 0, 0⟩)
  else
    (chunks batch_size articles).foldl
      (fun acc batch =>
        let r := store_articles_batch env acc.1 batch source_id
        (r.1, ⟨acc.2.stored + r.2.stored, acc.2.duplicates + r.2.duplicates,
               acc.2.errors + r.2.errors⟩))
      (store, ⟨0, 0, 0⟩)

/-! ### Source health tracker (`models/source.py`) -/

/-- The mutable health fields of a Source row. -/
structure SourceRec where
  is_active : Bool
  fetch_error_count : Nat
  last_error_message : Option Str
  last_error_at : Option Int
  last_fetched_at : Option Int
  deriving Repr, DecidableEq

/-- `Source.update_fetch_success` (`source.py` lines 46–52); `now` stands for
`datetime.now(timezone.utc)`. -/
def update_fetch_success (now : Int) (s : SourceRec) : SourceRec :=
  { s with last_fetched_at := some now, fetch_error_count := 0,
           last_error_message := none, last_error_at := none }

/-- `Source.update_fetch_error` (`source.py` lines 54–64): increment the
counter, record the error, and force `is_active` off once the counter
reaches `max_errors`. -/
def update_fetch_error (now : Int) (error_message : Str) (max_errors : Nat)
    (s : SourceRec) : SourceRec :=
  let c := s.fetch_error_count + 1
  { s with fetch_error_count := c,
           last_error_message := some error_message,
           last_error_at := some now,
           is_active := if c ≥ max_errors then false else s.is_active }

/-! ### RSS fetcher (`rss_fetcher.py`) -/

/-- A feedparser entry as consumed by `RSSFetcher.parse_entry`. `Option`
fields model `hasattr`/truthiness; `authors` elements are the items'
`.get('name', '')` results (`none` = an item on which the lookup raises);
`published_parsed` is `none` when the attribute is absent or falsy, `some
none` when present but `datetime(*entry.published_parsed[:6])` raises, and
`some (some t)` on success; `content` elements are the items'
`.get('value')` results (`none` = a non-dict item or no value). -/
structure FeedEntry where
  title : Option Str := none
  link : Option Str := none
  author : Option Str := none
  authors : List (Option Str) := []
  published_parsed : Option (Option Int) := none
  published : Option Str := none
  summary : Option Str := none
  description : Option Str := none
  content : List (Option Str) := []
  deriving Repr, DecidableEq

/-- `RSSFetcher.parse_entry` (`rss_fetcher.py` lines 84–163). `joinUrl`
stands for `urllib.parse.urljoin` and `parseDate` for
`email.utils.parsedate_to_datetime` (+ UTC defaulting), both abstracted;
`none` models an exception escaping to the caller (the `urlparse` call on
the entry link is the only raising operation). -/
def parse_entry (joinUrl : Str → Str → Str) (parseDate : Str → Option Int)
    (entry : FeedEntry) (feed_url : Str) : Option ArticleData :=
  let title0 := pyStrip (entry.title.getD [])
  let title := if title0 = [] then "Untitled".data else title0
  let url0 := pyStrip (entry.link.getD [])
  let urlStep : Option Str :=
    if url0 = [] then some url0
    else
      match urlparse url0 with
      | none => none
      | some p => some (if p.netloc = [] then joinUrl feed_url url0 else url0)
  urlStep.map fun url =>
    let authorFromList : Option Str :=
      if entry.authors ≠ [] then
        match entry.authors.headD none with
        | some nm => some (pyStrip nm)
        | none => none
      else none
    let author : Option Str :=
      match entry.author with
      | some a => if a ≠ [] then some (pyStrip a) else authorFromList
      | none => authorFromList
    let published_at : Option Int :=
      match entry.published_parsed with
      | some r => r
      | none =>
        match entry.published with
        | some s => parseDate s
        | none => none
    let summary : Option Str :=
      match entry.summary with
      | some s => some (pyStrip s)
      | none =>
        match entry.description with
        | some d => some (pyStrip d)
        | none => none
    let contentJoined : Option Str :=
      if entry.content ≠ [] then
        let items := (entry.content.filterMap id).filter fun v => v ≠ []
        if items ≠ [] then some (List.intercalate ['\n'] items) else none
      else none
    let content : Option Str :=
      match contentJoined with
      | some c => some c
      | none =>
        match summary with
        | some s => if s ≠ [] then some s else none
        | none => none
    { title := title, url := url, author := author,
      published_at := published_at, summary := summary, content := content }

/-- The entry loop of `RSSFetcher.fetch_articles` (`rss_fetcher.py` lines
184–197): per-entry exceptions are logged and skipped, and entries whose
extracted URL is empty are dropped with a warning. (The HTTP fetch and feed
decode of `fetch_feed` are upstream of this list.) -/
def fetch_articles_entries (joinUrl : Str → Str → Str)
    (parseDate : Str → Option Int) (entries : List FeedEntry) (feed_url : Str) :
    List ArticleData :=
  entries.filterMap fun entry =>
    match parse_entry joinUrl parseDate entry feed_url with
    | none => none
    | some a => if a.url = [] then none else some a

/-! ### Fetch orchestrator (`FetcherRunner.run_fetch_cycle`) -/

/-- One active source as seen by the cycle: its id, its health record, and
the outcome of `fetch_articles_from_source` for it (`Except.error msg`
models a raised exception with `str(e) = msg`). -/
structure SourceItem where
  id : Nat
  srec : SourceRec
  fetched : Except Str (List ArticleData)
  deriving Repr

/-- The aggregate counters logged at the end of a cycle. -/
structure CycleStats where
  articles_fetched : Nat
  articles_stored : Nat
  duplicates : Nat
  errors : Nat
  sources_processed : Nat
  sources_failed : Nat
  deriving Repr, DecidableEq

/-- The per-source loop of `run_fetch_cycle` (`runner.py` lines 470–509):
on a fetch exception the source's health failure is recorded (with the
exception's message) and iteration continues; on success the articles are
processed/stored and a health success is recorded. Counters are summed over
the iterations. Returns the final store, the updated health records (in
source order) and the aggregate stats. -/
def run_cycle_sources (env : DbEnv) (now : Int) (max_errors batch_size : Nat) :
    List Article → List SourceItem → List Article × List SourceRec × CycleStats
  | store, [] => (store, [], ⟨0, 0, 0, 0, 0, 0⟩)
  | store, src :: rest =>
    match src.fetched with
    | Except.error msg =>
      let srec' := update_fetch_error now msg max_errors src.srec
      let r := run_cycle_sources env now max_errors batch_size store rest
      (r.1, srec' :: r.2.1,
        { r.2.2 with sources_processed := r.2.2.sources_processed + 1,
                     sources_failed := r.2.2.sources_failed + 1 })
    | Except.ok articles =>
      let pr := process_articles_from_source env store articles src.id batch_size
      let srec' := update_fetch_success now src.srec
      let r := run_cycle_sources env now max_errors batch_size pr.1 rest
      (r.1, srec' :: r.2.1,
        { articles_fetched := r.2.2.articles_fetched + articles.length,
          articles_stored := r.2.2.articles_stored + pr.2.stored,
          duplicates := r.2.2.duplicates + pr.2.duplicates,
          errors := r.2.2.errors + pr.2.errors,
          sources_processed := r.2.2.sources_processed + 1,
          sources_failed := r.2.2.sources_failed })

/-- `FetcherRunner.run_fetch_cycle` (`runner.py` lines 437–529) given the
loaded active sources: with no active sources it logs and returns (leaving
the store untouched); otherwise it runs the per-source loop. -/
def run_fetch_cycle (env : DbEnv) (now : Int) (max_errors batch_size : Nat)
    (store : List Article) (sources : List SourceItem) :
    List Article × List SourceRec × CycleStats :=
  match sources with
  | [] => (store, [], ⟨0, 0, 0, 0, 0, 0⟩)
  | _ :: _ => run_cycle_sources env now max_errors batch_size store sources

/-! ## Engine fold lemmas (shared by C1 and C2) -/

/-- `processEntry` with its `let` binding unfolded (definitional). -/
theorem processEntry_eq (env : DbEnv) (store : List Article) (a : ArticleData)
    (sid : Nat) :
    processEntry env store a sid =
      if (validate_article_data a).1 then
        match check_duplicate_by_url store (prepare_article_for_storage a sid).url with
        | some _ => (store, Outcome.duplicate)
        | none =>
          match env (prepare_article_for_storage a sid) with
          | CommitOutcome.ok =>
              (store ++ [prepare_article_for_storage a sid], Outcome.stored)
          | CommitOutcome.integrityError msg =>
              if isUniquenessViolationMsg msg then (store, Outcome.duplicate)
              else (store, Outcome.error)
      else (store, Outcome.error) := rfl

/-- Componentwise sum of counters. -/
def addCounts (c d : Counts) : Counts :=
  ⟨c.stored + d.stored, c.duplicates + d.duplicates, c.errors + d.errors⟩

theorem addCounts_def (c d : Counts) :
    (⟨c.stored + d.stored, c.duplicates + d.duplicates, c.errors + d.errors⟩ : Counts) =
      addCounts c d := rfl

theorem addCounts_zero_right (c : Counts) : addCounts c ⟨0, 0, 0⟩ = c := by
  cases c; simp [addCounts]

theorem addCounts_zero_left (c : Counts) : addCounts ⟨0, 0, 0⟩ c = c := by
  cases c; simp [addCounts]

theorem addCounts_assoc (c d e : Counts) :
    addCounts (addCounts c d) e = addCounts c (addCounts d e) := by
  cases c; cases d; cases e; simp [addCounts, Nat.add_assoc]

theorem bump_eq_addCounts (c : Counts) (o : Outcome) :
    bump c o = addCounts c (bump ⟨0, 0, 0⟩ o) := by
  cases o <;> cases c <;> simp [bump, addCounts]

/-- The batch fold started from arbitrary counters equals the fold started
from zero with the counters added afterwards. -/
theorem store_batch_fold_shift (env : DbEnv) (sid : Nat) :
    ∀ (l : List ArticleData) (store : List Article) (c0 : Counts),
      l.foldl (fun acc a =>
          let r := processEntry env acc.1 a sid
          (r.1, bump acc.2 r.2)) (store, c0) =
        ((store_articles_batch env store l sid).1,
          addCounts c0 (store_articles_batch env store l sid).2) := by
  intro l
  induction l with
  | nil => intro store c0; simp [store_articles_batch, addCounts_zero_right]
  | cons a l ih =>
    intro store c0
    simp only [store_articles_batch, List.foldl_cons]
    rw [ih, ih]
    dsimp only
    rw [bump_eq_addCounts c0, addCounts_assoc]

theorem store_articles_batch_cons (env : DbEnv) (store : List Article)
    (a : ArticleData) (l : List ArticleData) (sid : Nat) :
    store_articles_batch env store (a :: l) sid =
      ((store_articles_batch env (processEntry env store a sid).1 l sid).1,
        addCounts (bump ⟨0, 0, 0⟩ (processEntry env store a sid).2)
          (store_articles_batch env (processEntry env store a sid).1 l sid).2) := by
  show List.foldl _ _ (a :: l) = _
  rw [List.foldl_cons]
  exact store_batch_fold_shift env sid l (processEntry env store a sid).1
    (bump ⟨0, 0, 0⟩ (processEntry env store a sid).2)

theorem store_articles_batch_append (env : DbEnv) (store : List Article)
    (l1 l2 : List ArticleData) (sid : Nat) :
    store_articles_batch env store (l1 ++ l2) sid =
      ((store_articles_batch env (store_articles_batch env store l1 sid).1 l2 sid).1,
        addCounts (store_articles_batch env store l1 sid).2
          (store_articles_batch env (store_articles_batch env store l1 sid).1 l2 sid).2) := by
  show List.foldl _ _ (l1 ++ l2) = _
  rw [List.foldl_append]
  exact store_batch_fold_shift env sid l2 (store_articles_batch env store l1 sid).1
    (store_articles_batch env store l1 sid).2

/-! ## Claim C1 — dedup by URL -/

/-- A persisted article at the canonical URL `http://a/x`. -/
def c1StoredArticle : Article :=
  { source_id := 1, title := "T".data, url := "http://a/x".data, author := none,
    published_at := none, summary := none, content := none }

/-- An entry with the same (already normalized) URL but an empty title. -/
def c1InvalidEntry : ArticleData := { title := [], url := "http://a/x".data }

/-- C1 counterexample: an entry whose normalized URL matches a persisted
article's URL is *not* always classified DUPLICATE — validation runs first,
so an invalid entry (here: empty title) with an already-stored URL yields
ERROR (the stored set is still unchanged). -/
theorem C1_counterexample :
    (prepare_article_for_storage c1InvalidEntry 1).url = c1StoredArticle.url ∧
    processEntry (fun _ => CommitOutcome.ok) [c1StoredArticle] c1InvalidEntry 1 =
      ([c1StoredArticle], Outcome.error) := ⟨rfl, rfl⟩

/-- C1 amended: for every entry that passes validation, (1) if its
normalized URL matches a persisted article's URL the engine yields DUPLICATE
and leaves the stored set unchanged; (2) an insert attempt failing with a
uniqueness-constraint violation (an `IntegrityError` whose message matches
the recognized patterns) is counted DUPLICATE, not ERROR, again leaving the
store unchanged; and (3) batch processing preserves distinctness of stored
URLs — no second record is ever created for the same normalized URL. -/
theorem C1_amended :
    (∀ (env : DbEnv) (store : List Article) (a : ArticleData) (sid : Nat),
      (validate_article_data a).1 = true →
      (∃ b ∈ store, b.url = (prepare_article_for_storage a sid).url) →
      processEntry env store a sid = (store, Outcome.duplicate)) ∧
    (∀ (env : DbEnv) (store : List Article) (a : ArticleData) (sid : Nat) (msg : Str),
      (validate_article_data a).1 = true →
      check_duplicate_by_url store (prepare_article_for_storage a sid).url = none →
      env (prepare_article_for_storage a sid) = CommitOutcome.integrityError msg →
      isUniquenessViolationMsg msg = true →
      processEntry env store a sid = (store, Outcome.duplicate)) ∧
    (∀ (env : DbEnv) (store : List Article) (batch : List ArticleData) (sid : Nat),
      (store.map (fun b => b.url)).Nodup →
      ((store_articles_batch env store batch sid).1.map (fun b => b.url)).Nodup) := by
  refine ⟨?_, ?_, ?_⟩
  · intro env store a sid hval hex
    have hsome : (check_duplicate_by_url store
        (prepare_article_for_storage a sid).url).isSome := by
      unfold check_duplicate_by_url
      rw [List.find?_isSome]
      obtain ⟨b, hb, hurl⟩ := hex
      exact ⟨b, hb, by simp [hurl]⟩
    obtain ⟨art, hart⟩ := Option.isSome_iff_exists.mp hsome
    rw [processEntry_eq, hval, hart]
    simp
  · intro env store a sid msg hval hnone henv hmsg
    rw [processEntry_eq, hval, hnone, henv]
    simp [hmsg]
  · intro env store batch sid h
    induction batch generalizing store with
    | nil => exact h
    | cons a l ih =>
      rw [store_articles_batch_cons]
      apply ih
      rw [processEntry_eq]
      by_cases hval : (validate_article_data a).1 = true
      · rw [hval]
        simp only [if_true]
        cases hdup : check_duplicate_by_url store (prepare_article_for_storage a sid).url with
        | some art => exact h
        | none =>
          cases henv : env (prepare_article_for_storage a sid) with
          | ok =>
            simp only []
            rw [List.map_append, List.nodup_append]
            refine ⟨h, by simp, ?_⟩
            intro u hu hmem
            simp only [List.map_cons, List.map_nil, List.mem_cons, List.not_mem_nil,
              or_false] at hmem
            subst hmem
            obtain ⟨b, hb, hbu⟩ := List.mem_map.mp hu
            have := List.find?_eq_none.mp hdup b hb
            simp [hbu] at this
          | integrityError msg =>
            by_cases hm : isUniquenessViolationMsg msg = true
            · simp [hm, h]
            · simp only [Bool.not_eq_true] at hm
              simp [hm, h]
      · simp only [Bool.not_eq_true] at hval
        rw [hval]
        simpa using h

/-- Closed instantiation of `C1_amended`. -/
theorem C1_amended_witness :
    processEntry (fun _ => CommitOutcome.ok) [c1StoredArticle]
        { title := "T2".data, url := "http://a/x#frag".data } 1 =
      ([c1StoredArticle], Outcome.duplicate) ∧
    processEntry (fun _ => CommitOutcome.integrityError
        "(sqlite3.IntegrityError) UNIQUE constraint failed: articles.url".data) []
        { title := "T2".data, url := "http://a/y".data } 1 =
      ([], Outcome.duplicate) ∧
    (((store_articles_batch (fun _ => CommitOutcome.ok) [c1StoredArticle]
        [{ title := "T2".data, url := "http://a/x#frag".data }] 1).1.map
          (fun b => b.url)).Nodup) := by
  refine ⟨?_, ?_, ?_⟩
  · exact C1_amended.1 (fun _ => CommitOutcome.ok) [c1StoredArticle]
      { title := "T2".data, url := "http://a/x#frag".data } 1 (by decide)
      ⟨c1StoredArticle, by decide, by decide⟩
  · exact C1_amended.2.1 (fun _ => CommitOutcome.integrityError
        "(sqlite3.IntegrityError) UNIQUE constraint failed: articles.url".data) []
      { title := "T2".data, url := "http://a/y".data } 1
      "(sqlite3.IntegrityError) UNIQUE constraint failed: articles.url".data
      (by decide) (by decide) rfl (by decide)
  · exact C1_amended.2.2 (fun _ => CommitOutcome.ok) [c1StoredArticle]
      [{ title := "T2".data, url := "http://a/x#frag".data }] 1 (by decide)

/-! ## Claim C2 — batch splitting -/

theorem chunksAux_fuel (bs : Nat) (hbs : 1 ≤ bs) :
    ∀ (f g : Nat) (l : List ArticleData), l.length ≤ f → l.length ≤ g →
      chunksAux bs f l = chunksAux bs g l := by
  intro f
  induction f with
  | zero =>
    intro g l hf hg
    cases l with
    | nil => cases g <;> rfl
    | cons a t => simp at hf
  | succ f ih =>
    intro g l hf hg
    cases l with
    | nil => cases g <;> rfl
    | cons a t =>
      cases g with
      | zero => simp at hg
      | succ g =>
        show (a :: t).take bs :: chunksAux bs f ((a :: t).drop bs) =
          (a :: t).take bs :: chunksAux bs g ((a :: t).drop bs)
        congr 1
        apply ih
        · simp only [List.length_drop, List.length_cons]
          simp only [List.length_cons] at hf
          omega
        · simp only [List.length_drop, List.length_cons]
          simp only [List.length_cons] at hg
          omega

theorem chunks_cons (bs : Nat) (hbs : 1 ≤ bs) (l : List ArticleData) (hl : l ≠ []) :
    chunks bs l = l.take bs :: chunks bs (l.drop bs) := by
  cases l with
  | nil => exact absurd rfl hl
  | cons a t =>
    show chunksAux bs (t.length + 1) (a :: t) = _
    show (a :: t).take bs :: chunksAux bs t.length ((a :: t).drop bs) = _
    congr 1
    apply chunksAux_fuel bs hbs
    · simp only [List.length_drop, List.length_cons]; omega
    · simp only [List.length_drop]; omega

/-- The chunked fold of `process_articles_from_source`, from arbitrary
counters, equals one flat batch with the counters added. -/
theorem chunk_fold_eq_batch (env : DbEnv) (sid bs : Nat) (hbs : 1 ≤ bs) :
    ∀ (n : Nat) (l : List ArticleData), l.length ≤ n →
      ∀ (store : List Article) (c0 : Counts),
      (chunks bs l).foldl (fun acc batch =>
          let r := store_articles_batch env acc.1 batch sid
          (r.1, ⟨acc.2.stored + r.2.stored, acc.2.duplicates + r.2.duplicates,
                 acc.2.errors + r.2.errors⟩)) (store, c0) =
        ((store_articles_batch env store l sid).1,
         addCounts c0 (store_articles_batch env store l sid).2) := by
  intro n
  induction n with
  | zero =>
    intro l hl store c0
    have : l = [] := List.length_eq_zero.mp (Nat.le_zero.mp hl)
    subst this
    simp [chunks, chunksAux, store_articles_batch, addCounts_zero_right]
  | succ n ih =>
    intro l hl store c0
    rcases eq_or_ne l [] with rfl | hne
    · simp [chunks, chunksAux, store_articles_batch, addCounts_zero_right]
    · rw [chunks_cons bs hbs l hne]
      rw [List.foldl_cons]
      have hlen : (l.drop bs).length ≤ n := by
        simp only [List.length_drop]
        have : 1 ≤ l.length := by
          cases l with
          | nil => exact absurd rfl hne
          | cons a t => simp
        omega
      rw [ih (l.drop bs) hlen]
      conv_rhs => rw [← List.take_append_drop bs l]
      rw [store_articles_batch_append]
      rw [addCounts_def, addCounts_assoc]

/-- C2: (1) for every batch size ≥ 1, processing a list in fixed-size
batches yields the same final store and the same aggregate counters as one
flat batch; (2) the per-entry outcome trace of a concatenation is the
concatenation of the traces, i.e. batch boundaries never change any
individual entry's outcome. -/
theorem C2_batch_split :
    (∀ (env : DbEnv) (store : List Article) (articles : List ArticleData)
        (sid bs : Nat), 1 ≤ bs →
      process_articles_from_source env store articles sid bs =
        store_articles_batch env store articles sid) ∧
    (∀ (env : DbEnv) (store : List Article) (l1 l2 : List ArticleData) (sid : Nat),
      batchOutcomes env store (l1 ++ l2) sid =
        batchOutcomes env store l1 sid ++
          batchOutcomes env (store_articles_batch env store l1 sid).1 l2 sid) := by
  constructor
  · intro env store articles sid bs hbs
    unfold process_articles_from_source
    by_cases h : articles = []
    · subst h; simp [store_articles_batch]
    · rw [if_neg h]
      rw [chunk_fold_eq_batch env sid bs hbs articles.length articles le_rfl store
        ⟨0, 0, 0⟩]
      rw [addCounts_zero_left]
  · intro env store l1 l2 sid
    induction l1 generalizing store with
    | nil => simp [batchOutcomes, store_articles_batch]
    | cons a l ih =>
      simp only [List.cons_append, batchOutcomes]
      rw [List.append_eq, ih]
      have h1 : (store_articles_batch env store (a :: l) sid).1 =
          (store_articles_batch env (processEntry env store a sid).1 l sid).1 := by
        rw [store_articles_batch_cons]
      rw [h1]

/-- Closed instantiation of `C2_batch_split` (250 entries at batch size 100
versus a single batch, in miniature: 5 entries at batch size 2). -/
theorem C2_batch_split_witness :
    process_articles_from_source (fun _ => CommitOutcome.ok) []
        [{ title := "A".data, url := "http://a/1".data },
         { title := "B".data, url := "http://a/2".data },
         { title := "C".data, url := "http://a/1".data },
         { title := "D".data, url := "bad".data },
         { title := "E".data, url := "http://a/3".data }] 1 2 =
      store_articles_batch (fun _ => CommitOutcome.ok) []
        [{ title := "A".data, url := "http://a/1".data },
         { title := "B".data, url := "http://a/2".data },
         { title := "C".data, url := "http://a/1".data },
         { title := "D".data, url := "bad".data },
         { title := "E".data, url := "http://a/3".data }] 1 :=
  C2_batch_split.1 (fun _ => CommitOutcome.ok) []
    [{ title := "A".data, url := "http://a/1".data },
     { title := "B".data, url := "http://a/2".data },
     { title := "C".data, url := "http://a/1".data },
     { title := "D".data, url := "bad".data },
     { title := "E".data, url := "http://a/3".data }] 1 2 (by decide)

/-! ## Claim C3 — source health tracker -/

/-- A sequence of `update_fetch_error` calls (timestamps and messages may
vary from call to call) against a fixed threshold. -/
def applyFailures (max_errors : Nat) (fs : List (Int × Str)) (s : SourceRec) :
    SourceRec :=
  fs.foldl (fun acc f => update_fetch_error f.1 f.2 max_errors acc) s

theorem update_fetch_error_count (now : Int) (msg : Str) (max_errors : Nat)
    (s : SourceRec) :
    (update_fetch_error now msg max_errors s).fetch_error_count =
      s.fetch_error_count + 1 := rfl

theorem update_fetch_error_active (now : Int) (msg : Str) (max_errors : Nat)
    (s : SourceRec) :
    (update_fetch_error now msg max_errors s).is_active =
      if s.fetch_error_count + 1 ≥ max_errors then false else s.is_active := rfl

theorem applyFailures_count (max_errors : Nat) (fs : List (Int × Str)) (s : SourceRec) :
    (applyFailures max_errors fs s).fetch_error_count =
      s.fetch_error_count + fs.length := by
  induction fs generalizing s with
  | nil => simp [applyFailures]
  | cons f fs ih =>
    simp only [applyFailures, List.foldl_cons, List.length_cons] at *
    rw [ih]
    simp [update_fetch_error]
    omega

theorem applyFailures_append (max_errors : Nat) (fs gs : List (Int × Str))
    (s : SourceRec) :
    applyFailures max_errors (fs ++ gs) s =
      applyFailures max_errors gs (applyFailures max_errors fs s) := by
  simp [applyFailures, List.foldl_append]

/-- C3 counterexample: the claim quantifies over *every* threshold, but with
threshold 0 applying `recordFailure` zero times leaves the source active,
and with threshold 1 a single failure right after a `recordSuccess` does
disable the source. -/
theorem C3_counterexample :
    (applyFailures 0 [] ⟨true, 5, none, none, none⟩).is_active = true ∧
    (update_fetch_error 3 "boom".data 1
        (update_fetch_success 2 ⟨true, 5, none, none, none⟩)).is_active = false := by
  constructor
  · rfl
  · rfl

/-- C3 amended: for every source, (1) with a threshold of at least one,
`recordFailure` applied `threshold` times consecutively forces `is_active`
to false; (2) `recordSuccess` resets `fetch_error_count` to 0, clears the
last-error fields and sets `last_fetched_at`; (3) with a threshold of at
least two, after one intervening `recordSuccess` a single subsequent
`recordFailure` does not disable the source. -/
theorem C3_amended (s : SourceRec) (threshold : Nat) (fs : List (Int × Str))
    (now now2 : Int) (msg : Str) :
    (1 ≤ threshold → fs.length = threshold →
      (applyFailures threshold fs s).is_active = false) ∧
    ((update_fetch_success now s).fetch_error_count = 0 ∧
      (update_fetch_success now s).last_error_message = none ∧
      (update_fetch_success now s).last_error_at = none ∧
      (update_fetch_success now s).last_fetched_at = some now) ∧
    (2 ≤ threshold →
      (update_fetch_error now2 msg threshold
        (update_fetch_success now s)).is_active = s.is_active) := by
  refine ⟨?_, ⟨rfl, rfl, rfl, rfl⟩, ?_⟩
  · intro h1 hlen
    rcases List.eq_nil_or_concat fs with rfl | ⟨init, last, rfl⟩
    · simp at hlen; omega
    · rw [List.concat_eq_append] at hlen ⊢
      rw [applyFailures_append]
      have hc := applyFailures_count threshold init s
      simp only [List.length_append, List.length_cons, List.length_nil] at hlen
      show (update_fetch_error last.1 last.2 threshold
        (applyFailures threshold init s)).is_active = false
      rw [update_fetch_error_active, if_pos (by omega)]
  · intro h2
    rw [update_fetch_error_active]
    have hz : (update_fetch_success now s).fetch_error_count = 0 := rfl
    rw [hz, if_neg (by omega)]
    rfl

/-- Closed instantiation of `C3_amended`. -/
theorem C3_amended_witness :
    (applyFailures 2 [(0, []), (1, [])] ⟨true, 0, none, none, none⟩).is_active = false ∧
    (update_fetch_error 3 [] 2
      (update_fetch_success 2 ⟨true, 1, none, none, none⟩)).is_active = true := by
  refine ⟨(C3_amended ⟨true, 0, none, none, none⟩ 2 [(0, []), (1, [])] 0 3 []).1
    (by decide) (by decide), ?_⟩
  have h := (C3_amended ⟨true, 1, none, none, none⟩ 2 [] 2 3 []).2.2 (by decide)
  exact h

/-! ## Claim C4 — oversized titles -/

/-- An entry whose title is 600 characters long, every other field valid. -/
def longTitleEntry : ArticleData :=
  { title := List.replicate 600 'a', url := "http://example.com/x".data }

/-- C4 counterexample: the pipeline does *not* store an entry with a
600-character title — `validate_article_data` runs before the truncating
preparation step and rejects it (`Title too long`), so the batch records one
ERROR and the store stays empty. -/
theorem C4_counterexample :
    longTitleEntry.title.length = 600 ∧
    store_articles_batch (fun _ => CommitOutcome.ok) [] [longTitleEntry] 1 =
      ([], ⟨0, 0, 1⟩) := by
  constructor
  · rfl
  · rfl

/-- Projection of the prepared title (the `let` chain unfolds by computation). -/
theorem prepare_title (a : ArticleData) (source_id : Nat) :
    (prepare_article_for_storage a source_id).title =
      if (pyStrip a.title).length > max_title_length then
        (pyStrip a.title).take (max_title_length - 3) ++ "...".data
      else pyStrip a.title := rfl

/-- C4 amended: an entry whose title exceeds 512 characters is rejected by
the validator as an ERROR and never stored (the store is unchanged); the
truncation of `prepare_article_for_storage` — which such entries never
reach — would cut a stripped title longer than 512 characters to exactly
512 characters ending in the `'...'` ellipsis marker. -/
theorem C4_amended (env : DbEnv) (store : List Article) (a : ArticleData)
    (source_id : Nat) :
    (512 < a.title.length →
      processEntry env store a source_id = (store, Outcome.error)) ∧
    (512 < (pyStrip a.title).length →
      (prepare_article_for_storage a source_id).title.length = 512 ∧
      (prepare_article_for_storage a source_id).title.drop 509 = "...".data) := by
  constructor
  · intro hlen
    have hval : (validate_article_data a).1 = false := by
      unfold validate_article_data
      split
      · rfl
      · split
        · rfl
        · split
          · rfl
          · split
            · rfl
            · split
              · rfl
              · rename_i hgt
                exact absurd hlen (by simpa [max_title_length] using hgt)
    unfold processEntry
    rw [hval]
    simp
  · intro hlen
    have hgt : (pyStrip a.title).length > max_title_length := hlen
    have h509 : (List.take (max_title_length - 3) (pyStrip a.title)).length = 509 := by
      simp only [List.length_take, max_title_length]
      omega
    constructor
    · rw [prepare_title, if_pos hgt]
      simp only [List.length_append, h509]
      rfl
    · rw [prepare_title, if_pos hgt]
      calc (List.take (max_title_length - 3) (pyStrip a.title) ++ "...".data).drop 509
          = (List.take (max_title_length - 3) (pyStrip a.title) ++ "...".data).drop
              (List.take (max_title_length - 3) (pyStrip a.title)).length := by rw [h509]
        _ = "...".data := List.drop_left _ _

/-- Closed instantiation of `C4_amended`. -/
theorem C4_amended_witness :
    processEntry (fun _ => CommitOutcome.ok) [] longTitleEntry 1 = ([], Outcome.error) ∧
    (prepare_article_for_storage longTitleEntry 1).title.length = 512 := by
  refine ⟨(C4_amended (fun _ => CommitOutcome.ok) [] longTitleEntry 1).1 (by decide), ?_⟩
  exact ((C4_amended (fun _ => CommitOutcome.ok) [] longTitleEntry 1).2 (by decide)).1

/-! ## Claim C5 — validator rule order -/

/-- The six rules of spec §4.3, in order. (Spec-side comparison type.) -/
inductive ValidationRule where
  | titleRequired
  | urlRequired
  | invalidUrlFormat
  | titleTooLong
  | contentTooLong
  | summaryTooLong
  deriving Repr, DecidableEq

/-- Spec §4.3 rule 3: the URL parses with both a scheme and a host.
(Spec-side comparison definition.) -/
def specUrlWellFormed (u : Str) : Bool :=
  match urlparse u with
  | some p => decide (p.scheme ≠ []) && decide (p.netloc ≠ [])
  | none => false

/-- The validator of spec §4.3 as an ordered first-failure scan: rules are
checked in the fixed order title-non-empty, url-non-empty, url-well-formed,
title ≤ 512, content ≤ 50000, summary ≤ 5000, and the first failing rule
wins. (Spec-side comparison definition.) -/
def specFirstFailingRule (a : ArticleData) : Option ValidationRule :=
  if pyStrip a.title = [] then some ValidationRule.titleRequired
  else if pyStrip a.url = [] then some ValidationRule.urlRequired
  else if ¬ specUrlWellFormed a.url then some ValidationRule.invalidUrlFormat
  else if 512 < a.title.length then some ValidationRule.titleTooLong
  else if 50000 < (optStr a.content).length then some ValidationRule.contentTooLong
  else if 5000 < (optStr a.summary).length then some ValidationRule.summaryTooLong
  else none

/-- The error message the code produces for each failing rule. -/
def ruleMessage (a : ArticleData) : ValidationRule → Str
  | ValidationRule.titleRequired => "Article title is required".data
  | ValidationRule.urlRequired => "Article URL is required".data
  | ValidationRule.invalidUrlFormat => "Invalid URL format: ".data ++ a.url
  | ValidationRule.titleTooLong =>
      "Title too long (".data ++ natStr a.title.length ++ " > ".data ++
        natStr max_title_length ++ ")".data
  | ValidationRule.contentTooLong =>
      "Content too long (".data ++ natStr (optStr a.content).length ++ " > ".data ++
        natStr max_content_length ++ ")".data
  | ValidationRule.summaryTooLong =>
      "Summary too long (".data ++ natStr (optStr a.summary).length ++ " > ".data ++
        natStr max_summary_length ++ ")".data

/-- C5: the article validator is a pure function equal to the ordered
first-failure scan of the six spec rules — an entry failing some rule is
reported invalid with the first failing rule's reason, and an entry passing
all six is reported valid with no reason. -/
theorem C5_validator_first_failure (a : ArticleData) :
    validate_article_data a =
      match specFirstFailingRule a with
      | none => (true, none)
      | some r => (false, some (ruleMessage a r)) := by
  unfold validate_article_data specFirstFailingRule
  by_cases h1 : pyStrip a.title = []
  · simp [h1, ruleMessage]
  · rw [if_neg h1, if_neg h1]
    by_cases h2 : pyStrip a.url = []
    · simp [h2, ruleMessage]
    · rw [if_neg h2, if_neg h2]
      cases hp : urlparse a.url with
      | none =>
        have hwf : specUrlWellFormed a.url = false := by
          unfold specUrlWellFormed; rw [hp]
        simp [hwf, ruleMessage]
      | some p =>
        dsimp only
        by_cases h3 : p.scheme = [] ∨ p.netloc = []
        · have hwf : specUrlWellFormed a.url = false := by
            unfold specUrlWellFormed; rw [hp]
            rcases h3 with h | h <;> simp [h]
          rw [if_pos h3]
          simp [hwf, ruleMessage]
        · have h3' := h3
          push_neg at h3'
          have hwf : specUrlWellFormed a.url = true := by
            unfold specUrlWellFormed; rw [hp]
            simp [h3'.1, h3'.2]
          rw [if_neg h3, if_neg (show ¬ (¬ specUrlWellFormed a.url = true) by simp [hwf])]
          by_cases h4 : a.title.length > max_title_length
          · rw [if_pos h4, if_pos (show 512 < a.title.length from h4)]
            simp [ruleMessage]
          · rw [if_neg h4, if_neg (show ¬ 512 < a.title.length from h4)]
            by_cases h5 : (optStr a.content).length > max_content_length
            · rw [if_pos h5, if_pos (show 50000 < (optStr a.content).length from h5)]
              simp [ruleMessage]
            · rw [if_neg h5, if_neg (show ¬ 50000 < (optStr a.content).length from h5)]
              by_cases h6 : (optStr a.summary).length > max_summary_length
              · rw [if_pos h6, if_pos (show 5000 < (optStr a.summary).length from h6)]
                simp [ruleMessage]
              · rw [if_neg h6,
                  if_neg (show ¬ 5000 < (optStr a.summary).length from h6)]

/-! ## Claim C8 — fetch-cycle error isolation -/

/-- C8: (1) with no active sources the cycle returns with the store
untouched and zero statistics (not an error — the model is total);
(2) a source whose fetch raises is recorded as a health failure carrying the
exception's message and counted in `sources_failed`, the store is left
exactly as the remaining sources alone would leave it, and iteration
continues with the remaining sources unchanged; (3) every source in the
list is processed — `sources_processed` always equals the number of
sources, so no failure aborts the run. -/
theorem C8_source_isolation :
    (∀ (env : DbEnv) (now : Int) (maxE bs : Nat) (store : List Article),
      run_fetch_cycle env now maxE bs store [] = (store, [], ⟨0, 0, 0, 0, 0, 0⟩)) ∧
    (∀ (env : DbEnv) (now : Int) (maxE bs : Nat) (store : List Article)
        (sid : Nat) (sr : SourceRec) (msg : Str) (rest : List SourceItem),
      run_fetch_cycle env now maxE bs store (⟨sid, sr, Except.error msg⟩ :: rest) =
        ((run_cycle_sources env now maxE bs store rest).1,
          update_fetch_error now msg maxE sr ::
            (run_cycle_sources env now maxE bs store rest).2.1,
          { (run_cycle_sources env now maxE bs store rest).2.2 with
              sources_processed :=
                (run_cycle_sources env now maxE bs store rest).2.2.sources_processed + 1,
              sources_failed :=
                (run_cycle_sources env now maxE bs store rest).2.2.sources_failed + 1 }) ∧
      (update_fetch_error now msg maxE sr).last_error_message = some msg) ∧
    (∀ (env : DbEnv) (now : Int) (maxE bs : Nat) (store : List Article)
        (sources : List SourceItem),
      (run_cycle_sources env now maxE bs store sources).2.2.sources_processed =
        sources.length) := by
  refine ⟨fun _ _ _ _ _ => rfl, fun _ _ _ _ _ _ _ _ _ => ⟨rfl, rfl⟩, ?_⟩
  intro env now maxE bs store sources
  induction sources generalizing store with
  | nil => rfl
  | cons s rest ih =>
    cases s with
    | mk sid sr f =>
      cases f with
      | error msg => simp [run_cycle_sources, ih]
      | ok arts => simp [run_cycle_sources, ih]

/-! ## Claim C9 — entries without a link -/

/-- A feed entry with a title but no link. -/
def noLinkEntry : FeedEntry := { title := some "A headline".data }

/-- C9: (1) every entry returned by the feed parser has a non-empty URL
(URL-less entries are dropped before returning); (2) a feed whose single
entry lacks a link yields zero entries; (3) running the cycle on a source
whose fetch produced that (empty) entry list stores nothing, counts zero
stored/duplicate/error, and still records a health success
(`update_fetch_success`). -/
theorem C9_linkless_dropped :
    (∀ (ju : Str → Str → Str) (pd : Str → Option Int) (entries : List FeedEntry)
        (fu : Str) (a : ArticleData),
      a ∈ fetch_articles_entries ju pd entries fu → a.url ≠ []) ∧
    (∀ (ju : Str → Str → Str) (pd : Str → Option Int) (fu : Str),
      fetch_articles_entries ju pd [noLinkEntry] fu = []) ∧
    (∀ (ju : Str → Str → Str) (pd : Str → Option Int) (fu : Str) (env : DbEnv)
        (now : Int) (maxE bs : Nat) (store : List Article) (sr : SourceRec),
      run_fetch_cycle env now maxE bs store
          [⟨5, sr, Except.ok (fetch_articles_entries ju pd [noLinkEntry] fu)⟩] =
        (store, [update_fetch_success now sr], ⟨0, 0, 0, 0, 1, 0⟩)) := by
  refine ⟨?_, ?_, ?_⟩
  · intro ju pd entries fu a ha
    unfold fetch_articles_entries at ha
    obtain ⟨e, _, hfe⟩ := List.mem_filterMap.mp ha
    split at hfe
    · exact absurd hfe (by simp)
    · rename_i a' hpe
      by_cases hu : a'.url = []
      · rw [if_pos hu] at hfe; exact absurd hfe (by simp)
      · rw [if_neg hu] at hfe
        simp only [Option.some.injEq] at hfe
        subst hfe; exact hu
  · intro ju pd fu; rfl
  · intro ju pd fu env now maxE bs store sr; rfl

/-- Closed instantiation of `C9_linkless_dropped` (its first conjunct has a
membership hypothesis). -/
theorem C9_linkless_dropped_witness :
    ({ title := "A headline".data, url := "http://f/p".data,
       author := none, published_at := none, summary := none,
       content := none } : ArticleData).url ≠ [] :=
  C9_linkless_dropped.1 (fun _ u => u) (fun _ => none)
    [{ title := some "A headline".data, link := some "http://f/p".data }]
    "http://f/".data _ (by decide)

/-! ## Claim C10 — parser titles never trip the title rule -/

theorem head?_dropWhile_false (p : Char → Bool) :
    ∀ (l : Str) (a : Char), (l.dropWhile p).head? = some a → p a = false := by
  intro l
  induction l with
  | nil => intro a h; simp at h
  | cons b t ih =>
    intro a h
    rw [List.dropWhile_cons] at h
    by_cases hb : p b = true
    · rw [if_pos hb] at h; exact ih a h
    · rw [if_neg hb] at h
      simp only [List.head?_cons, Option.some.injEq] at h
      subst h
      simpa using hb

theorem dropWhile_eq_self_of_head (p : Char → Bool) (l : Str)
    (h : ∀ a, l.head? = some a → p a = false) : l.dropWhile p = l := by
  cases l with
  | nil => rfl
  | cons b t => rw [List.dropWhile_cons, if_neg (by simp [h b rfl])]

theorem pyStrip_getLast (s : Str) (a : Char)
    (h : (pyStrip s).getLast? = some a) : isPyWhitespace a = false := by
  unfold pyStrip at h
  rw [List.getLast?_reverse] at h
  exact head?_dropWhile_false _ _ _ h

theorem getLast?_dropWhile_eq (p : Char → Bool) :
    ∀ (l : Str), l.dropWhile p ≠ [] → (l.dropWhile p).getLast? = l.getLast? := by
  intro l
  induction l with
  | nil => intro h; rfl
  | cons b t ih =>
    intro h
    rw [List.dropWhile_cons] at h ⊢
    by_cases hb : p b = true
    · rw [if_pos hb] at h ⊢
      rw [ih h]
      have ht : t ≠ [] := by
        intro hc; subst hc; simp [List.dropWhile] at h
      cases t with
      | nil => exact absurd rfl ht
      | cons c u => rw [List.getLast?_cons_cons]
    · rw [if_neg hb]

theorem pyStrip_head (s : Str) (a : Char)
    (h : (pyStrip s).head? = some a) : isPyWhitespace a = false := by
  unfold pyStrip at h
  rw [List.head?_reverse] at h
  have hna : (s.dropWhile isPyWhitespace).reverse.dropWhile isPyWhitespace ≠ [] := by
    intro hc
    rw [hc] at h
    simp at h
  rw [getLast?_dropWhile_eq _ _ hna, List.getLast?_reverse] at h
  exact head?_dropWhile_false _ _ _ h

theorem pyStrip_idem (s : Str) : pyStrip (pyStrip s) = pyStrip s := by
  have h1 : (pyStrip s).dropWhile isPyWhitespace = pyStrip s :=
    dropWhile_eq_self_of_head _ _ (fun a ha => pyStrip_head s a ha)
  have h2 : (pyStrip s).reverse.dropWhile isPyWhitespace = (pyStrip s).reverse := by
    apply dropWhile_eq_self_of_head
    intro a ha
    rw [List.head?_reverse] at ha
    exact pyStrip_getLast s a ha
  show (((pyStrip s).dropWhile isPyWhitespace).reverse.dropWhile
    isPyWhitespace).reverse = pyStrip s
  rw [h1, h2, List.reverse_reverse]

/-- The title produced by `parse_entry` is the stripped entry title with the
`"Untitled"` fallback. -/
theorem parse_entry_title (ju : Str → Str → Str) (pd : Str → Option Int)
    (entry : FeedEntry) (fu : Str) (a : ArticleData)
    (h : parse_entry ju pd entry fu = some a) :
    a.title = if pyStrip (entry.title.getD []) = [] then "Untitled".data
              else pyStrip (entry.title.getD []) := by
  unfold parse_entry at h
  simp only [Option.map_eq_some'] at h
  obtain ⟨url, _, ha⟩ := h
  subst ha
  rfl

theorem append_ne_of_take {p rest t : Str} (h : ¬ p = t.take p.length) :
    ¬ (p ++ rest = t) := by
  intro heq
  apply h
  rw [← heq, List.take_left]

/-- C10: every article produced by the feed parser has a non-empty title
after stripping (the parser falls back to `"Untitled"`), so the validator's
"title required" branch can never fire on parser output. -/
theorem C10_title_fallback (ju : Str → Str → Str) (pd : Str → Option Int)
    (entry : FeedEntry) (fu : Str) (a : ArticleData)
    (h : parse_entry ju pd entry fu = some a) :
    pyStrip a.title ≠ [] ∧
    validate_article_data a ≠ (false, some "Article title is required".data) := by
  have ht := parse_entry_title ju pd entry fu a h
  have hne : pyStrip a.title ≠ [] := by
    rw [ht]
    by_cases hc : pyStrip (entry.title.getD []) = []
    · rw [if_pos hc]; decide
    · rw [if_neg hc, pyStrip_idem]; exact hc
  refine ⟨hne, ?_⟩
  unfold validate_article_data
  rw [if_neg hne]
  split
  · decide
  · split
    · simp only [ne_eq, Prod.mk.injEq, Option.some.injEq, true_and,
        List.append_assoc]
      exact append_ne_of_take (by decide)
    · split
      · simp only [ne_eq, Prod.mk.injEq, Option.some.injEq, true_and,
          List.append_assoc]
        exact append_ne_of_take (by decide)
      · split
        · simp only [ne_eq, Prod.mk.injEq, Option.some.injEq, true_and,
            List.append_assoc]
          exact append_ne_of_take (by decide)
        · split
          · simp only [ne_eq, Prod.mk.injEq, Option.some.injEq, true_and,
              List.append_assoc]
            exact append_ne_of_take (by decide)
          · split
            · simp only [ne_eq, Prod.mk.injEq, Option.some.injEq, true_and,
                List.append_assoc]
              exact append_ne_of_take (by decide)
            · simp

/-- Closed instantiation of `C10_title_fallback`. -/
theorem C10_title_fallback_witness :
    pyStrip ("Untitled".data) ≠ [] :=
  (C10_title_fallback (fun _ u => u) (fun _ => none) {} "http://f/".data
    { title := "Untitled".data, url := [], author := none, published_at := none,
      summary := none, content := none } rfl).1

/-! ## Claim C7 — normalization identifies tracking-equivalent URLs -/

/-- The claim's reading of the denylist: *any* `utm_`-prefixed key plus the
seven named keys, case-insensitively. (Spec-side comparison definition —
the claim says "utm_*".) -/
def specTrackingKey (k : Str) : Bool :=
  "utm_".data.isPrefixOf (pyLower k) ||
    decide (pyLower k ∈ ["fbclid".data, "gclid".data, "ref".data, "referrer".data,
      "_ga".data, "mc_cid".data, "mc_eid".data])

/-- "Two URLs differing only in tracking query parameters (read as `utm_*`
plus the named keys), in the letter-casing of the host, or in the
fragment": both parse, and all components agree up to host casing,
fragment, and removal of those tracking keys from the parsed query. -/
def specDifferOnlyInTracking (u1 u2 : Str) : Bool :=
  match urlparse u1, urlparse u2 with
  | some p1, some p2 =>
      decide (p1.scheme = p2.scheme) && decide (pyLower p1.netloc = pyLower p2.netloc) &&
      decide (p1.path = p2.path) && decide (p1.params = p2.params) &&
      decide ((parse_qs p1.query).filter (fun kv => !specTrackingKey kv.1) =
        (parse_qs p2.query).filter (fun kv => !specTrackingKey kv.1))
  | _, _ => false

/-- C7 counterexample: `utm_id` is a `utm_*` tracking parameter per the
claim's denylist, but the code's fixed set contains only the five named
`utm_` keys, so two URLs differing only in a `utm_id` parameter normalize
to different results. -/
theorem C7_counterexample :
    specDifferOnlyInTracking "http://a/?utm_id=5".data "http://a/".data = true ∧
    normalize_url "http://a/?utm_id=5".data ≠ normalize_url "http://a/".data := by
  constructor
  · decide
  · decide

/-- The same relation with the code's actual denylist (the five named
`utm_` keys plus fbclid, gclid, ref, referrer, _ga, mc_cid, mc_eid,
case-insensitively): components agree up to host casing, fragment, and
removal of exactly those keys from the parsed query. -/
def differOnlyInCodeTracking (u1 u2 : Str) : Prop :=
  match urlparse u1, urlparse u2 with
  | some p1, some p2 =>
      p1.scheme = p2.scheme ∧ pyLower p1.netloc = pyLower p2.netloc ∧
      p1.path = p2.path ∧ p1.params = p2.params ∧
      filteredParams (parse_qs p1.query) = filteredParams (parse_qs p2.query)
  | _, _ => False

instance differOnlyInCodeTrackingDec (u1 u2 : Str) :
    Decidable (differOnlyInCodeTracking u1 u2) := by
  unfold differOnlyInCodeTracking
  cases urlparse u1 <;> cases urlparse u2 <;> dsimp only <;> infer_instance

/-- `normalize_url` through a successful parse (unfolding helper). -/
theorem normalize_url_of_parse (u : Str) (p : ParseResult)
    (hp : urlparse u = some p) :
    normalize_url u =
      if u = [] then u
      else
        urlunparse ⟨p.scheme, pyLower p.netloc, p.path, p.params,
          (if filteredParams (parse_qs p.query) ≠ [] then
            urlencodeSeq (filteredParams (parse_qs p.query)) else []),
          []⟩ := by
  unfold normalize_url
  by_cases h : u = []
  · simp [h]
  · rw [if_neg h, if_neg h, hp]

/-- `urlparse []` yields the all-empty result. -/
theorem urlparse_nil : urlparse [] = some ⟨[], [], [], [], [], []⟩ := rfl

/-- C7 amended: for every pair of URLs that differ only in tracking
parameters from the code's fixed denylist, in host letter-casing, or in
the fragment, normalization produces an identical result; and on any parse
failure the input is returned unchanged (normalization is a total
function, so it never raises). -/
theorem C7_amended :
    (∀ u1 u2, differOnlyInCodeTracking u1 u2 →
      normalize_url u1 = normalize_url u2) ∧
    (∀ u, urlparse u = none → normalize_url u = u) := by
  constructor
  · intro u1 u2 h
    unfold differOnlyInCodeTracking at h
    cases hp1 : urlparse u1 with
    | none => rw [hp1] at h; cases hp2 : urlparse u2 <;> rw [hp2] at h <;> exact absurd h (by simp)
    | some p1 =>
      cases hp2 : urlparse u2 with
      | none => rw [hp1, hp2] at h; exact absurd h (by simp)
      | some p2 =>
        rw [hp1, hp2] at h
        obtain ⟨hsch, hnet, hpath, hparams, hq⟩ := h
        rw [normalize_url_of_parse u1 p1 hp1, normalize_url_of_parse u2 p2 hp2]
        have hbody : urlunparse ⟨p1.scheme, pyLower p1.netloc, p1.path, p1.params,
            (if filteredParams (parse_qs p1.query) ≠ [] then
              urlencodeSeq (filteredParams (parse_qs p1.query)) else []), []⟩ =
          urlunparse ⟨p2.scheme, pyLower p2.netloc, p2.path, p2.params,
            (if filteredParams (parse_qs p2.query) ≠ [] then
              urlencodeSeq (filteredParams (parse_qs p2.query)) else []), []⟩ := by
          rw [hsch, hnet, hpath, hparams, hq]
        by_cases h1 : u1 = []
        · subst h1
          rw [urlparse_nil] at hp1
          have hp1' : p1 = ⟨[], [], [], [], [], []⟩ := by
            injection hp1 with h'; exact h'.symm
          subst hp1'
          by_cases h2 : u2 = []
          · simp [h2]
          · rw [if_pos rfl, if_neg h2, ← hbody]
            rfl
        · rw [if_neg h1]
          by_cases h2 : u2 = []
          · subst h2
            rw [urlparse_nil] at hp2
            have hp2' : p2 = ⟨[], [], [], [], [], []⟩ := by
              injection hp2 with h'; exact h'.symm
            subst hp2'
            rw [if_pos rfl, hbody]
            rfl
          · rw [if_neg h2, hbody]
  · intro u hnone
    unfold normalize_url
    by_cases h : u = []
    · simp [h]
    · rw [if_neg h, hnone]

/-- Closed instantiation of `C7_amended`: host casing, a `gclid`/`utm_source`
pair and a fragment are all normalized away; a bracket parse failure returns
the input unchanged. -/
theorem C7_amended_witness :
    normalize_url "HTTP://EX.com/a?b=1&utm_source=x&gclid=2#frag".data =
      normalize_url "http://ex.COM/a?b=1".data ∧
    normalize_url "http://[abc/x".data = "http://[abc/x".data := by
  constructor
  · exact C7_amended.1 "HTTP://EX.com/a?b=1&utm_source=x&gclid=2#frag".data
      "http://ex.COM/a?b=1".data (by decide)
  · exact C7_amended.2 "http://[abc/x".data (by decide)

/-! ## Claim C6 — idempotence of normalization

CPython 3.11+ `urlunsplit` prepends `//` only when a netloc is present or
the scheme is known to use one. As a consequence `normalize_url` is *not*
idempotent on degenerate URLs that parse to an empty netloc with a path
beginning `//`: the re-parse of the output re-interprets part of the path
as a netloc and lower-cases it. Outside that family idempotence holds; the
proof below establishes it. -/

/-- C6 counterexample: `normalize_url '////Y' = '//Y'`, but normalizing
again gives `'//y'` — the output's re-parse turns `Y` into a netloc and
lower-cases it. -/
theorem C6_counterexample :
    normalize_url "////Y".data = "//Y".data ∧
    normalize_url (normalize_url "////Y".data) ≠ normalize_url "////Y".data := by
  constructor
  · decide
  · decide

/-! ### Fuel irrelevance -/

theorem utf8DecodeAux_fuel :
    ∀ (f g : Nat) (bs : List Nat), bs.length ≤ f → bs.length ≤ g →
      utf8DecodeAux f bs = utf8DecodeAux g bs := by
  intro f
  induction f with
  | zero =>
    intro g bs hf hg
    cases bs with
    | nil => cases g <;> rfl
    | cons b rest => simp at hf
  | succ f ih =>
    intro g bs hf hg
    cases bs with
    | nil => cases g <;> rfl
    | cons b rest =>
      cases g with
      | zero => simp at hg
      | succ g =>
        simp only [List.length_cons] at hf hg
        show utf8DecodeAux (f + 1) (b :: rest) = utf8DecodeAux (g + 1) (b :: rest)
        simp only [utf8DecodeAux]
        split
        · rw [ih g rest (by omega) (by omega)]
        · split
          · cases rest with
            | nil => rfl
            | cons b1 rest' =>
              dsimp only
              simp only [List.length_cons] at hf hg
              split
              · rw [ih g rest' (by omega) (by omega)]
              · rw [ih g (b1 :: rest') (by simp only [List.length_cons]; omega)
                  (by simp only [List.length_cons]; omega)]
          · split
            · cases rest with
              | nil => rfl
              | cons b1 rest1 =>
                cases rest1 with
                | nil => rfl
                | cons b2 rest' =>
                  dsimp only
                  simp only [List.length_cons] at hf hg
                  split
                  · rw [ih g rest' (by omega) (by omega)]
                  · rw [ih g (b1 :: b2 :: rest')
                      (by simp only [List.length_cons]; omega)
                      (by simp only [List.length_cons]; omega)]
            · split
              · cases rest with
                | nil => rfl
                | cons b1 rest1 =>
                  cases rest1 with
                  | nil => rfl
                  | cons b2 rest2 =>
                    cases rest2 with
                    | nil => rfl
                    | cons b3 rest' =>
                      dsimp only
                      simp only [List.length_cons] at hf hg
                      split
                      · rw [ih g rest' (by omega) (by omega)]
                      · rw [ih g (b1 :: b2 :: b3 :: rest')
                          (by simp only [List.length_cons]; omega)
                          (by simp only [List.length_cons]; omega)]
              · rw [ih g rest (by omega) (by omega)]

theorem pctRun_length : ∀ (s : Str),
    (pctRun s).2.length + 3 * (pctRun s).1.length = s.length
  | [] => by simp [pctRun]
  | [c] => by simp [pctRun]
  | [c, c1] => by simp [pctRun]
  | c :: c1 :: c2 :: rest => by
    by_cases h : c = '%' ∧ isHexDigitChar c1 ∧ isHexDigitChar c2
    · have ih := pctRun_length rest
      simp only [pctRun, if_pos h, List.length_cons]
      omega
    · simp [pctRun, if_neg h]

theorem unquoteAux_fuel :
    ∀ (f g : Nat) (s : Str), s.length ≤ f → s.length ≤ g →
      unquoteAux f s = unquoteAux g s := by
  intro f
  induction f with
  | zero =>
    intro g s hf hg
    cases s with
    | nil => cases g <;> rfl
    | cons c rest => simp at hf
  | succ f ih =>
    intro g s hf hg
    cases s with
    | nil => cases g <;> rfl
    | cons c rest =>
      cases g with
      | zero => simp at hg
      | succ g =>
        simp only [List.length_cons] at hf hg
        show unquoteAux (f + 1) (c :: rest) = unquoteAux (g + 1) (c :: rest)
        simp only [unquoteAux]
        split
        · have hlen := pctRun_length (c :: rest)
          split
          · rw [ih g rest (by omega) (by omega)]
          · rename_i hbs
            have hr : (pctRun (c :: rest)).2.length ≤ rest.length := by
              simp only [List.length_cons] at hlen
              have h1 : 1 ≤ (pctRun (c :: rest)).1.length :=
                List.length_pos.mpr hbs
              omega
            rw [ih g (pctRun (c :: rest)).2 (by omega) (by omega)]
        · rw [ih g rest (by omega) (by omega)]

/-! ### UTF-8 round trip -/

theorem mkCharReplace_toNat (c : Char) : mkCharReplace c.toNat = c := by
  have hv : c.toNat.isValidChar := c.valid
  rw [mkCharReplace, if_pos hv]
  exact Char.ofNat_toNat c

theorem utf8DecodeAux_step1 (fuel : Nat) (b : Nat) (rest : List Nat)
    (h : b < 0x80) :
    utf8DecodeAux (fuel + 1) (b :: rest) =
      mkCharReplace b :: utf8DecodeAux fuel rest := by
  rw [utf8DecodeAux.eq_def]
  dsimp only
  rw [if_pos h]

theorem utf8DecodeAux_step2 (fuel : Nat) (b b1 : Nat) (rest : List Nat)
    (h1 : ¬ b < 0x80) (h2 : 0xC2 ≤ b ∧ b ≤ 0xDF) (hc : isContByte b1 = true) :
    utf8DecodeAux (fuel + 1) (b :: b1 :: rest) =
      mkCharReplace ((b - 0xC0) * 64 + (b1 - 0x80)) :: utf8DecodeAux fuel rest := by
  rw [utf8DecodeAux.eq_def]
  dsimp only
  rw [if_neg h1, if_pos h2]
  rw [if_pos hc]

theorem utf8DecodeAux_step3 (fuel : Nat) (b b1 b2 : Nat) (rest : List Nat)
    (h1 : ¬ b < 0x80) (h1' : ¬ (0xC2 ≤ b ∧ b ≤ 0xDF)) (h2 : 0xE0 ≤ b ∧ b ≤ 0xEF)
    (hc : isContByte b1 = true ∧ isContByte b2 = true) :
    utf8DecodeAux (fuel + 1) (b :: b1 :: b2 :: rest) =
      mkCharReplace ((b - 0xE0) * 4096 + (b1 - 0x80) * 64 + (b2 - 0x80)) ::
        utf8DecodeAux fuel rest := by
  rw [utf8DecodeAux.eq_def]
  dsimp only
  rw [if_neg h1, if_neg h1', if_pos h2]
  rw [if_pos hc]

theorem utf8DecodeAux_step4 (fuel : Nat) (b b1 b2 b3 : Nat) (rest : List Nat)
    (h1 : ¬ b < 0x80) (h1' : ¬ (0xC2 ≤ b ∧ b ≤ 0xDF)) (h1'' : ¬ (0xE0 ≤ b ∧ b ≤ 0xEF))
    (h2 : 0xF0 ≤ b ∧ b ≤ 0xF4)
    (hc : isContByte b1 = true ∧ isContByte b2 = true ∧ isContByte b3 = true) :
    utf8DecodeAux (fuel + 1) (b :: b1 :: b2 :: b3 :: rest) =
      mkCharReplace ((b - 0xF0) * 0x40000 + (b1 - 0x80) * 4096 + (b2 - 0x80) * 64 +
          (b3 - 0x80)) :: utf8DecodeAux fuel rest := by
  rw [utf8DecodeAux.eq_def]
  dsimp only
  rw [if_neg h1, if_neg h1', if_neg h1'', if_pos h2]
  rw [if_pos hc]

theorem utf8DecodeReplace_encode_cons (c : Char) (bs : List Nat) :
    utf8DecodeReplace (utf8EncodeChar c.toNat ++ bs) = c :: utf8DecodeReplace bs := by
  have hv : c.toNat < 0xd800 ∨ (0xdfff < c.toNat ∧ c.toNat < 0x110000) := c.valid
  have hcont : ∀ m : Nat, isContByte (0x80 + m % 64) = true := by
    intro m
    simp only [isContByte, Bool.and_eq_true, decide_eq_true_eq]
    omega
  by_cases h1 : c.toNat < 0x80
  · rw [utf8EncodeChar, if_pos h1]
    show utf8DecodeAux (c.toNat :: bs).length (c.toNat :: bs) = _
    rw [List.length_cons, utf8DecodeAux_step1 _ _ _ h1, mkCharReplace_toNat]
    rfl
  · by_cases h2 : c.toNat < 0x800
    · rw [utf8EncodeChar, if_neg h1, if_pos h2]
      show utf8DecodeAux
        ((0xC0 + c.toNat / 64) :: (0x80 + c.toNat % 64) :: bs).length
        ((0xC0 + c.toNat / 64) :: (0x80 + c.toNat % 64) :: bs) = _
      rw [List.length_cons, List.length_cons,
        utf8DecodeAux_step2 _ _ _ _ (by omega) (by omega) (hcont _)]
      rw [show (0xC0 + c.toNat / 64 - 0xC0) * 64 + (0x80 + c.toNat % 64 - 0x80) =
        c.toNat by omega]
      rw [mkCharReplace_toNat,
        utf8DecodeAux_fuel (bs.length + 1) bs.length bs (by omega) le_rfl]
      rfl
    · by_cases h3 : c.toNat < 0x10000
      · rw [utf8EncodeChar, if_neg h1, if_neg h2, if_pos h3]
        show utf8DecodeAux
          ((0xE0 + c.toNat / 4096) :: (0x80 + c.toNat / 64 % 64) ::
            (0x80 + c.toNat % 64) :: bs).length
          ((0xE0 + c.toNat / 4096) :: (0x80 + c.toNat / 64 % 64) ::
            (0x80 + c.toNat % 64) :: bs) = _
        rw [List.length_cons, List.length_cons, List.length_cons,
          utf8DecodeAux_step3 _ _ _ _ _ (by omega) (by omega) (by omega)
            ⟨hcont _, hcont _⟩]
        rw [show (0xE0 + c.toNat / 4096 - 0xE0) * 4096 +
          (0x80 + c.toNat / 64 % 64 - 0x80) * 64 + (0x80 + c.toNat % 64 - 0x80) =
          c.toNat by omega]
        rw [mkCharReplace_toNat,
          utf8DecodeAux_fuel (bs.length + 1 + 1) bs.length bs (by omega) le_rfl]
        rfl
      · rw [utf8EncodeChar, if_neg h1, if_neg h2, if_neg h3]
        show utf8DecodeAux
          ((0xF0 + c.toNat / 0x40000) :: (0x80 + c.toNat / 4096 % 64) ::
            (0x80 + c.toNat / 64 % 64) :: (0x80 + c.toNat % 64) :: bs).length
          ((0xF0 + c.toNat / 0x40000) :: (0x80 + c.toNat / 4096 % 64) ::
            (0x80 + c.toNat / 64 % 64) :: (0x80 + c.toNat % 64) :: bs) = _
        rw [List.length_cons, List.length_cons, List.length_cons, List.length_cons,
          utf8DecodeAux_step4 _ _ _ _ _ _ (by omega) (by omega) (by omega) (by omega)
            ⟨hcont _, hcont _, hcont _⟩]
        rw [show (0xF0 + c.toNat / 0x40000 - 0xF0) * 0x40000 +
          (0x80 + c.toNat / 4096 % 64 - 0x80) * 4096 +
          (0x80 + c.toNat / 64 % 64 - 0x80) * 64 + (0x80 + c.toNat % 64 - 0x80) =
          c.toNat by omega]
        rw [mkCharReplace_toNat,
          utf8DecodeAux_fuel (bs.length + 1 + 1 + 1) bs.length bs (by omega) le_rfl]
        rfl

/-- The UTF-8 bytes of a string decode back to itself. -/
theorem utf8DecodeReplace_encodeAll (cs : Str) :
    utf8DecodeReplace (cs.flatMap fun c => utf8EncodeChar c.toNat) = cs := by
  induction cs with
  | nil => rfl
  | cons c cs ih =>
    rw [List.flatMap_cons, utf8DecodeReplace_encode_cons, ih]

/-! ### Round trip of `quote_plus` / `unquote` -/

/-- The three-character escape `%XX` of one byte. -/
def escSeq (b : Nat) : Str := ['%', hexDigitUpper (b / 16), hexDigitUpper (b % 16)]

/-- Escapes of a whole byte list. -/
def escFlat (bs : List Nat) : Str := bs.flatMap escSeq

/-- UTF-8 bytes of a whole string. -/
def bytesOf (s : Str) : List Nat := s.flatMap fun c => utf8EncodeChar c.toNat

/-- Characters whose `quote_plus` image consists only of escapes. -/
def escChar (c : Char) : Bool := !(c = ' ' || alwaysSafeByte c.toNat)

/-- What one character contributes to `replacePlusSpace (quotePlus s)`. -/
def pieceD (c : Char) : Str :=
  if c = ' ' then [' ']
  else if alwaysSafeByte c.toNat then [c]
  else escFlat (utf8EncodeChar c.toNat)

theorem escFlat_cons (b : Nat) (bs : List Nat) :
    escFlat (b :: bs) = escSeq b ++ escFlat bs :=
  List.flatMap_cons ..

theorem escFlat_append (a b : List Nat) :
    escFlat (a ++ b) = escFlat a ++ escFlat b :=
  List.flatMap_append ..

theorem bytesOf_cons (c : Char) (s : Str) :
    bytesOf (c :: s) = utf8EncodeChar c.toNat ++ bytesOf s :=
  List.flatMap_cons ..

theorem hexDigitUpper_spec (m : Nat) (h : m < 16) :
    isHexDigitChar (hexDigitUpper m) = true ∧ hexVal (hexDigitUpper m) = m := by
  interval_cases m <;> exact ⟨by decide, by decide⟩

theorem hexDigitUpper_safe (m : Nat) (h : m < 16) :
    alwaysSafeByte (hexDigitUpper m).toNat = true := by
  interval_cases m <;> decide

theorem alwaysSafeByte_lt (b : Nat) (h : alwaysSafeByte b = true) : b < 0x80 := by
  simp only [alwaysSafeByte, Bool.or_eq_true, Bool.and_eq_true, decide_eq_true_eq] at h
  omega

theorem utf8EncodeChar_ne_nil (n : Nat) : utf8EncodeChar n ≠ [] := by
  unfold utf8EncodeChar
  split
  · simp
  · split
    · simp
    · split <;> simp

theorem utf8EncodeChar_lt256 (n : Nat) (h : n < 0x110000) :
    ∀ b ∈ utf8EncodeChar n, b < 256 := by
  unfold utf8EncodeChar
  split
  · intro b hb; simp only [List.mem_singleton] at hb; omega
  · split
    · intro b hb
      simp only [List.mem_cons, List.mem_singleton, List.not_mem_nil, or_false] at hb
      rcases hb with hb | hb <;> omega
    · split
      · intro b hb
        simp only [List.mem_cons, List.mem_singleton, List.not_mem_nil, or_false] at hb
        rcases hb with hb | hb | hb <;> omega
      · intro b hb
        simp only [List.mem_cons, List.mem_singleton, List.not_mem_nil, or_false] at hb
        rcases hb with hb | hb | hb | hb <;> omega

theorem utf8EncodeChar_notSafe (n : Nat) (hn : 0x80 ≤ n) :
    ∀ b ∈ utf8EncodeChar n, alwaysSafeByte b = false := by
  have key : ∀ b, 0x80 ≤ b → alwaysSafeByte b = false := by
    intro b hb
    simp only [alwaysSafeByte, Bool.or_eq_false_iff, Bool.and_eq_false_iff,
      decide_eq_false_iff_not]
    omega
  unfold utf8EncodeChar
  split
  · omega
  · split
    · intro b hb
      simp only [List.mem_cons, List.mem_singleton, List.not_mem_nil, or_false] at hb
      rcases hb with hb | hb <;> exact key b (by omega)
    · split
      · intro b hb
        simp only [List.mem_cons, List.mem_singleton, List.not_mem_nil, or_false] at hb
        rcases hb with hb | hb | hb <;> exact key b (by omega)
      · intro b hb
        simp only [List.mem_cons, List.mem_singleton, List.not_mem_nil, or_false] at hb
        rcases hb with hb | hb | hb | hb <;> exact key b (by omega)

theorem quoteByte_notSafe (b : Nat) (h : alwaysSafeByte b = false) :
    quoteByte b = escSeq b := by
  rw [quoteByte, if_neg (by simp [h])]
  rfl

theorem pctRun_escSeq (b : Nat) (hb : b < 256) (t : Str) :
    pctRun (escSeq b ++ t) = (b :: (pctRun t).1, (pctRun t).2) := by
  have h1 := hexDigitUpper_spec (b / 16) (by omega)
  have h2 := hexDigitUpper_spec (b % 16) (by omega)
  show pctRun ('%' :: hexDigitUpper (b / 16) :: hexDigitUpper (b % 16) :: t) = _
  rw [pctRun.eq_def]
  dsimp only
  rw [if_pos ⟨rfl, h1.1, h2.1⟩, h1.2, h2.2]
  have : b / 16 * 16 + b % 16 = b := by omega
  rw [this]

theorem pctRun_escFlat (bs : List Nat) (h : ∀ b ∈ bs, b < 256) (t : Str) :
    pctRun (escFlat bs ++ t) = (bs ++ (pctRun t).1, (pctRun t).2) := by
  induction bs with
  | nil => simp [escFlat]
  | cons b bs ih =>
    rw [escFlat_cons, List.append_assoc,
      pctRun_escSeq b (h b (List.mem_cons_self b bs)) _,
      ih (fun x hx => h x (List.mem_cons_of_mem b hx))]
    simp

theorem pctRun_no_pct (t : Str) (h : t.head? ≠ some '%') : pctRun t = ([], t) := by
  match t, h with
  | [], _ => rfl
  | [c], _ => rfl
  | [c, c1], _ => rfl
  | c :: c1 :: c2 :: rest, h =>
    rw [pctRun.eq_def]
    dsimp only
    rw [if_neg fun hcond => h (by rw [List.head?_cons, hcond.1])]

theorem replacePlusSpace_append (a b : Str) :
    replacePlusSpace (a ++ b) = replacePlusSpace a ++ replacePlusSpace b :=
  List.map_append _ a b

theorem replacePlusSpace_noop (l : Str) (h : ∀ c ∈ l, c ≠ '+') :
    replacePlusSpace l = l := by
  induction l with
  | nil => rfl
  | cons c t ih =>
    show (if c = '+' then ' ' else c) :: replacePlusSpace t = c :: t
    rw [if_neg (h c (List.mem_cons_self c t)),
      ih fun x hx => h x (List.mem_cons_of_mem c hx)]

theorem quotePlus_cons (c : Char) (s : Str) :
    quotePlus (c :: s) =
      (if c = ' ' then ['+'] else (utf8EncodeChar c.toNat).flatMap quoteByte) ++
        quotePlus s :=
  List.flatMap_cons ..

theorem quotePlus_append (a b : Str) :
    quotePlus (a ++ b) = quotePlus a ++ quotePlus b :=
  List.flatMap_append ..

/-- `replacePlusSpace (quotePlus s)` — what `parse_qsl` sees for one
encoded key or value. -/
def rpsQuote (s : Str) : Str := replacePlusSpace (quotePlus s)

theorem escFlat_no_plus (bs : List Nat) (h : ∀ b ∈ bs, b < 256) :
    ∀ c ∈ escFlat bs, c ≠ '+' := by
  induction bs with
  | nil => intro c hc; simp [escFlat] at hc
  | cons b bs ih =>
    intro c hc
    rw [escFlat_cons, List.mem_append] at hc
    rcases hc with hc | hc
    · have hb := h b (List.mem_cons_self b bs)
      simp only [escSeq, List.mem_cons, List.mem_singleton, List.not_mem_nil,
        or_false] at hc
      rcases hc with hc | hc | hc
      · subst hc; decide
      · subst hc
        intro he
        have := (hexDigitUpper_spec (b / 16) (by omega)).1
        rw [he] at this
        exact absurd this (by decide)
      · subst hc
        intro he
        have := (hexDigitUpper_spec (b % 16) (by omega)).1
        rw [he] at this
        exact absurd this (by decide)
    · exact ih (fun x hx => h x (List.mem_cons_of_mem b hx)) c hc

theorem char_toNat_lt (c : Char) : c.toNat < 0x110000 := by
  show c.val.toNat < 0x110000
  rcases c.valid with h | h
  · omega
  · omega

theorem rpsQuote_cons (c : Char) (s : Str) :
    rpsQuote (c :: s) = pieceD c ++ rpsQuote s := by
  rw [rpsQuote, quotePlus_cons, replacePlusSpace_append]
  rw [show replacePlusSpace (quotePlus s) = rpsQuote s from rfl]
  congr 1
  by_cases hsp : c = ' '
  · rw [if_pos hsp, pieceD, if_pos hsp]
    rfl
  · rw [if_neg hsp, pieceD, if_neg hsp]
    by_cases hsafe : alwaysSafeByte c.toNat = true
    · rw [if_pos hsafe]
      have hlt := alwaysSafeByte_lt _ hsafe
      rw [show utf8EncodeChar c.toNat = [c.toNat] by rw [utf8EncodeChar, if_pos hlt]]
      rw [show ([c.toNat].flatMap quoteByte : Str) = quoteByte c.toNat ++ [] from
        List.flatMap_cons .., List.append_nil]
      rw [quoteByte, if_pos hsafe, Char.ofNat_toNat]
      apply replacePlusSpace_noop
      intro x hx
      rw [List.mem_singleton] at hx
      subst hx
      intro he
      rw [he] at hsafe
      exact absurd hsafe (by decide)
    · rw [if_neg hsafe]
      have hesc : (utf8EncodeChar c.toNat).flatMap quoteByte =
          escFlat (utf8EncodeChar c.toNat) := by
        by_cases hlt : c.toNat < 0x80
        · rw [show utf8EncodeChar c.toNat = [c.toNat] by
            rw [utf8EncodeChar, if_pos hlt]]
          rw [show ([c.toNat].flatMap quoteByte : Str) = quoteByte c.toNat ++ [] from
            List.flatMap_cons .., List.append_nil]
          rw [show escFlat [c.toNat] = escSeq c.toNat ++ escFlat [] from
            List.flatMap_cons .., show escFlat [] = [] from rfl, List.append_nil]
          rw [quoteByte_notSafe _ (by simpa using hsafe)]
        · rw [escFlat]
          apply List.flatMap_congr
          intro b hb
          exact quoteByte_notSafe b
            (utf8EncodeChar_notSafe c.toNat (by omega) b hb)
      rw [hesc]
      exact replacePlusSpace_noop _
        (escFlat_no_plus _ (utf8EncodeChar_lt256 c.toNat (char_toNat_lt c)))

theorem rpsQuote_append (a b : Str) :
    rpsQuote (a ++ b) = rpsQuote a ++ rpsQuote b := by
  rw [rpsQuote, quotePlus_append, replacePlusSpace_append]
  rfl

theorem rpsQuote_run (u : Str) (h : ∀ c ∈ u, escChar c = true) :
    rpsQuote u = escFlat (bytesOf u) := by
  induction u with
  | nil => rfl
  | cons c s ih =>
    have hc := h c (List.mem_cons_self c s)
    simp only [escChar, Bool.not_eq_true', Bool.or_eq_false_iff,
      decide_eq_false_iff_not] at hc
    rw [rpsQuote_cons, pieceD, if_neg hc.1, if_neg (by simp [hc.2]),
      ih fun x hx => h x (List.mem_cons_of_mem c hx)]
    rw [bytesOf_cons, escFlat_append]

theorem bytesOf_lt256 (u : Str) : ∀ b ∈ bytesOf u, b < 256 := by
  intro b hb
  rw [bytesOf, List.mem_flatMap] at hb
  rcases hb with ⟨c, _, hbc⟩
  exact utf8EncodeChar_lt256 c.toNat (char_toNat_lt c) b hbc

theorem bytesOf_ne_nil (u : Str) (h : u ≠ []) : bytesOf u ≠ [] := by
  match u with
  | c :: s =>
    rw [bytesOf, List.flatMap_cons]
    intro hv
    rcases List.append_eq_nil.mp hv with ⟨h1, _⟩
    exact utf8EncodeChar_ne_nil c.toNat h1

theorem unquoteAux_nil (fuel : Nat) : unquoteAux fuel [] = [] := by
  cases fuel <;> rfl

theorem unquoteAux_not_pct (fuel : Nat) (c : Char) (rest : Str) (h : ¬ c = '%') :
    unquoteAux (fuel + 1) (c :: rest) = c :: unquoteAux fuel rest := by
  rw [unquoteAux.eq_def]
  dsimp only
  rw [if_neg h]

theorem unquoteAux_pct_run (fuel : Nat) (rest : Str) (bs : List Nat) (t : Str)
    (hp : pctRun ('%' :: rest) = (bs, t)) (hne : bs ≠ []) :
    unquoteAux (fuel + 1) ('%' :: rest) =
      utf8DecodeReplace bs ++ unquoteAux fuel t := by
  rw [unquoteAux.eq_def]
  dsimp only
  rw [if_pos rfl, hp]
  dsimp only
  rw [if_neg hne]

theorem escChar_pct : escChar '%' = true := by decide

theorem rpsQuote_head_not_pct (v : Str)
    (hv : ∀ c, v.head? = some c → escChar c = false) :
    (rpsQuote v).head? ≠ some '%' := by
  cases v with
  | nil => simp [rpsQuote, quotePlus, replacePlusSpace]
  | cons c s =>
    have hc := hv c rfl
    rw [rpsQuote_cons]
    simp only [escChar, Bool.not_eq_false', Bool.or_eq_true,
      decide_eq_true_eq] at hc
    by_cases hsp : c = ' '
    · rw [pieceD, if_pos hsp]
      simp
    · rw [pieceD, if_neg hsp]
      by_cases hsafe : alwaysSafeByte c.toNat = true
      · rw [if_pos hsafe]
        simp only [List.cons_append, List.head?_cons, ne_eq, Option.some.injEq]
        intro he
        rw [he] at hsafe
        exact absurd hsafe (by decide)
      · rcases hc with h | h
        · exact absurd h hsp
        · exact absurd h hsafe

theorem unquote_rpsQuote_aux (n : Nat) : ∀ s : Str, s.length ≤ n →
    ∀ fuel, (rpsQuote s).length ≤ fuel → unquoteAux fuel (rpsQuote s) = s := by
  induction n with
  | zero =>
    intro s hs fuel _
    have : s = [] := List.length_eq_zero.mp (Nat.le_zero.mp hs)
    subst this
    exact unquoteAux_nil fuel
  | succ n ih =>
    intro s hs fuel hfuel
    match s with
    | [] => exact unquoteAux_nil fuel
    | c :: s' =>
      by_cases hesc : escChar c = true
      · obtain ⟨u, hu_def⟩ : ∃ u, u = (c :: s').takeWhile escChar := ⟨_, rfl⟩
        obtain ⟨v, hv_def⟩ : ∃ v, v = (c :: s').dropWhile escChar := ⟨_, rfl⟩
        have hu : u = c :: s'.takeWhile escChar := by
          rw [hu_def, List.takeWhile_cons_of_pos hesc]
        have hsplit : u ++ v = c :: s' := by
          rw [hu_def, hv_def]
          exact List.takeWhile_append_dropWhile ..
        have hune : u ≠ [] := by rw [hu]; simp
        have hmemu : ∀ x ∈ u, escChar x = true := by
          rw [hu_def]
          exact fun x hx => List.mem_takeWhile_imp hx
        have hEs : rpsQuote (c :: s') = escFlat (bytesOf u) ++ rpsQuote v := by
          rw [← hsplit, rpsQuote_append, rpsQuote_run u hmemu]
        have hvhead : ∀ d, v.head? = some d → escChar d = false := by
          rw [hv_def]
          exact fun d hd => head?_dropWhile_false escChar (c :: s') d hd
        have hrun : pctRun (rpsQuote (c :: s')) = (bytesOf u, rpsQuote v) := by
          rw [hEs, pctRun_escFlat (bytesOf u) (bytesOf_lt256 u) (rpsQuote v),
            pctRun_no_pct (rpsQuote v) (rpsQuote_head_not_pct v hvhead)]
          simp
        have hbne : bytesOf u ≠ [] := bytesOf_ne_nil u hune
        obtain ⟨b0, bs0, hb0⟩ : ∃ b0 bs0, bytesOf u = b0 :: bs0 := by
          match hbb : bytesOf u with
          | [] => exact absurd hbb hbne
          | b0 :: bs0 => exact ⟨b0, bs0, rfl⟩
        have hEcons : rpsQuote (c :: s') =
            '%' :: (hexDigitUpper (b0 / 16) :: hexDigitUpper (b0 % 16) ::
              (escFlat bs0 ++ rpsQuote v)) := by
          rw [hEs, hb0, escFlat_cons]
          rfl
        have hlen1 : 1 ≤ (escFlat (bytesOf u)).length := by
          rw [hb0, escFlat_cons, List.length_append]
          simp only [escSeq, List.length_cons, List.length_nil]
          omega
        have hfuel1 : 1 ≤ fuel := by
          rw [hEs] at hfuel
          rw [List.length_append] at hfuel
          omega
        obtain ⟨f, hf⟩ : ∃ f, fuel = f + 1 := ⟨fuel - 1, by omega⟩
        subst hf
        rw [hEcons, unquoteAux_pct_run f _ (bytesOf u) (rpsQuote v)
          (by rw [← hEcons]; exact hrun) hbne]
        have hvlen : v.length ≤ n := by
          have h1 : u.length + v.length = (c :: s').length := by
            rw [← List.length_append, hsplit]
          have h2 : 1 ≤ u.length := by
            rw [hu, List.length_cons]; omega
          simp only [List.length_cons] at h1 hs
          omega
        have hvfuel : (rpsQuote v).length ≤ f := by
          rw [hEs, List.length_append] at hfuel
          omega
        rw [ih v hvlen f hvfuel]
        have hdec : utf8DecodeReplace (bytesOf u) = u := utf8DecodeReplace_encodeAll u
        rw [hdec, hsplit]
      · have hc' : escChar c = false := by simpa using hesc
        simp only [escChar, Bool.not_eq_false', Bool.or_eq_true,
          decide_eq_true_eq] at hc'
        have hpiece : pieceD c = [c] := by
          rcases hc' with h | h
          · rw [pieceD, if_pos h, h]
          · rw [pieceD]
            by_cases hsp : c = ' '
            · rw [if_pos hsp, hsp]
            · rw [if_neg hsp, if_pos h]
        have hfuel1 : 1 ≤ fuel := by
          rw [rpsQuote_cons, hpiece, List.cons_append, List.length_cons] at hfuel
          omega
        obtain ⟨f, hf⟩ : ∃ f, fuel = f + 1 := ⟨fuel - 1, by omega⟩
        subst hf
        rw [rpsQuote_cons, hpiece, List.cons_append, List.nil_append]
        rw [unquoteAux_not_pct f c _ (by
          intro he
          rw [he] at hesc
          exact hesc escChar_pct)]
        have hlen : s'.length ≤ n := by
          simp only [List.length_cons] at hs
          omega
        have hfl : (rpsQuote s').length ≤ f := by
          rw [rpsQuote_cons, hpiece, List.cons_append, List.nil_append,
            List.length_cons] at hfuel
          omega
        rw [ih s' hlen f hfl]

/-- Decoding inverts the `quote_plus` encoding of any string:
`unquote(qs.replace('+', ' '))` applied to `quote_plus(s)` gives back `s`. -/
theorem quotePlus_roundtrip (s : Str) :
    unquote (replacePlusSpace (quotePlus s)) = s :=
  unquote_rpsQuote_aux s.length s le_rfl _ le_rfl


/-! ### Stability of the query pipeline -/

/-- `(Char.ofNat n).toNat = n` for valid scalar values. -/
theorem char_toNat_ofNat (n : Nat) (h : n.isValidChar) : (Char.ofNat n).toNat = n := by
  unfold Char.ofNat
  simp only [h, dite_true]
  rfl

theorem quoteByte_mem (b : Nat) (hb : b < 256) : ∀ c ∈ quoteByte b,
    alwaysSafeByte c.toNat = true ∨ c = '%' ∨ isHexDigitChar c = true := by
  intro c hc
  rw [quoteByte] at hc
  by_cases hs : alwaysSafeByte b = true
  · rw [if_pos hs, List.mem_singleton] at hc
    subst hc
    left
    rw [char_toNat_ofNat b (Or.inl (by have := alwaysSafeByte_lt b hs; omega))]
    exact hs
  · rw [if_neg hs] at hc
    simp only [List.mem_cons, List.mem_singleton, List.not_mem_nil, or_false] at hc
    rcases hc with hc | hc | hc
    · right; left; exact hc
    · right; right; subst hc; exact (hexDigitUpper_spec (b / 16) (by omega)).1
    · right; right; subst hc; exact (hexDigitUpper_spec (b % 16) (by omega)).1

theorem quotePlus_mem (s : Str) : ∀ c ∈ quotePlus s,
    alwaysSafeByte c.toNat = true ∨ c = '+' ∨ c = '%' ∨ isHexDigitChar c = true := by
  intro c hc
  rw [quotePlus, List.mem_flatMap] at hc
  rcases hc with ⟨a, _, hca⟩
  by_cases hsp : a = ' '
  · rw [if_pos hsp, List.mem_singleton] at hca
    right; left; exact hca
  · rw [if_neg hsp, List.mem_flatMap] at hca
    rcases hca with ⟨b, hb, hcb⟩
    have hb256 : b < 256 := utf8EncodeChar_lt256 a.toNat (char_toNat_lt a) b hb
    rcases quoteByte_mem b hb256 c hcb with h | h | h
    · left; exact h
    · right; right; left; exact h
    · right; right; right; exact h

theorem quotePlus_not_special (s : Str) (t : Char)
    (hsafe : alwaysSafeByte t.toNat = false) (hplus : t ≠ '+') (hpct : t ≠ '%')
    (hhex : isHexDigitChar t = false) : t ∉ quotePlus s := by
  intro hmem
  rcases quotePlus_mem s t hmem with h | h | h | h
  · rw [hsafe] at h; simp at h
  · exact hplus h
  · exact hpct h
  · rw [hhex] at h; simp at h

theorem splitOnce_not_mem (sep : Char) (a : Str) (h : sep ∉ a) :
    splitOnce sep a = none := by
  induction a with
  | nil => rfl
  | cons c t ih =>
    rw [splitOnce.eq_def]
    dsimp only
    rw [if_neg fun he => h (by rw [List.mem_cons]; left; exact he.symm),
      ih fun hm => h (List.mem_cons_of_mem c hm)]

theorem splitOnce_append (sep : Char) (a b : Str) (h : sep ∉ a) :
    splitOnce sep (a ++ sep :: b) = some (a, b) := by
  induction a with
  | nil =>
    show splitOnce sep (sep :: b) = _
    rw [splitOnce.eq_def]
    dsimp only
    rw [if_pos rfl]
  | cons c t ih =>
    rw [List.cons_append, splitOnce.eq_def]
    dsimp only
    rw [if_neg fun he => h (by rw [List.mem_cons]; left; exact he.symm),
      ih fun hm => h (List.mem_cons_of_mem c hm)]

theorem splitChar_no_sep (sep : Char) (a : Str) (h : sep ∉ a) :
    splitChar sep a = [a] := by
  induction a with
  | nil => rfl
  | cons c t ih =>
    rw [splitChar.eq_def]
    dsimp only
    rw [if_neg fun he => h (by rw [List.mem_cons]; left; exact he.symm),
      ih fun hm => h (List.mem_cons_of_mem c hm)]
    rfl

theorem splitChar_sep_append (sep : Char) (a b : Str) (h : sep ∉ a) :
    splitChar sep (a ++ sep :: b) = a :: splitChar sep b := by
  induction a with
  | nil =>
    show splitChar sep (sep :: b) = _
    rw [splitChar.eq_def]
    dsimp only
    rw [if_pos rfl]
  | cons c t ih =>
    rw [List.cons_append, splitChar.eq_def]
    dsimp only
    rw [if_neg fun he => h (by rw [List.mem_cons]; left; exact he.symm),
      ih fun hm => h (List.mem_cons_of_mem c hm)]
    rfl

theorem intercalate_one (s : Str) (x : Str) : List.intercalate s [x] = x := by
  simp [List.intercalate, List.intersperse]

theorem intercalate_two (s : Str) (x y : Str) (zs : List Str) :
    List.intercalate s (x :: y :: zs) = x ++ s ++ List.intercalate s (y :: zs) := by
  simp [List.intercalate, List.intersperse]

theorem splitChar_intercalate (sep : Char) (chunks : List Str)
    (h : ∀ ch ∈ chunks, sep ∉ ch) (hne : chunks ≠ []) :
    splitChar sep (List.intercalate [sep] chunks) = chunks := by
  induction chunks with
  | nil => exact absurd rfl hne
  | cons x rest ih =>
    cases rest with
    | nil =>
      rw [intercalate_one]
      exact splitChar_no_sep sep x (h x (List.mem_cons_self ..))
    | cons y zs =>
      rw [intercalate_two, List.append_assoc,
        show ([sep] ++ List.intercalate [sep] (y :: zs) : Str) =
          sep :: List.intercalate [sep] (y :: zs) from rfl,
        splitChar_sep_append sep x _ (h x (List.mem_cons_self ..)),
        ih (fun ch hch => h ch (List.mem_cons_of_mem x hch)) (by simp)]

theorem intercalate_ne_nil (s : Str) (chunks : List Str) (h : chunks ≠ [])
    (h1 : ∀ ch ∈ chunks, ch ≠ []) : List.intercalate s chunks ≠ [] := by
  match chunks, h with
  | [x], _ =>
    rw [intercalate_one]
    exact h1 x (List.mem_cons_self ..)
  | x :: y :: zs, _ =>
    rw [intercalate_two]
    intro he
    rcases List.append_eq_nil.mp he with ⟨he1, _⟩
    rcases List.append_eq_nil.mp he1 with ⟨he2, _⟩
    exact h1 x (List.mem_cons_self ..) he2

theorem quoteByte_ne_nil (b : Nat) : quoteByte b ≠ [] := by
  rw [quoteByte]
  split <;> simp

theorem quotePlus_ne_nil (s : Str) (h : s ≠ []) : quotePlus s ≠ [] := by
  match s, h with
  | c :: t, _ =>
    rw [quotePlus_cons]
    intro hv
    rcases List.append_eq_nil.mp hv with ⟨h1, _⟩
    by_cases hsp : c = ' '
    · rw [if_pos hsp] at h1; simp at h1
    · rw [if_neg hsp] at h1
      have hb := utf8EncodeChar_ne_nil c.toNat
      match he : utf8EncodeChar c.toNat with
      | [] => exact hb he
      | b :: bs =>
        rw [he, List.flatMap_cons] at h1
        rcases List.append_eq_nil.mp h1 with ⟨h2, _⟩
        exact quoteByte_ne_nil b h2

theorem replacePlusSpace_ne_nil (s : Str) (h : s ≠ []) :
    replacePlusSpace s ≠ [] := by
  rw [replacePlusSpace]
  simpa using h

/-- One `key=value` chunk produced by `urlencode`. -/
def encPair (p : Str × Str) : Str := quotePlus p.1 ++ '=' :: quotePlus p.2

/-- The keys of a `parse_qs`-style dict. -/
def keysOf (d : List (Str × List Str)) : List Str := d.map Prod.fst

/-- One pair per value, in dict order — the list `parse_qsl` returns for an
encoded dict. -/
def flatPairs (d : List (Str × List Str)) : List (Str × Str) :=
  d.flatMap fun kv => kv.2.map fun v => (kv.1, v)

/-- The well-formedness `parse_qs` guarantees: keys are distinct, every
key has at least one value, and every value is a non-empty string. -/
def dictOk (d : List (Str × List Str)) : Prop :=
  (keysOf d).Nodup ∧ ∀ kv ∈ d, kv.2 ≠ [] ∧ ∀ v ∈ kv.2, v ≠ []

theorem encPair_ne_nil (p : Str × Str) : encPair p ≠ [] := by
  rw [encPair]
  simp

theorem encPair_no_amp (p : Str × Str) : '&' ∉ encPair p := by
  rw [encPair]
  intro hm
  rw [List.mem_append] at hm
  rcases hm with hm | hm
  · exact quotePlus_not_special p.1 '&' (by decide) (by decide) (by decide)
      (by decide) hm
  · rw [List.mem_cons] at hm
    rcases hm with hm | hm
    · exact absurd hm (by decide)
    · exact quotePlus_not_special p.2 '&' (by decide) (by decide) (by decide)
        (by decide) hm

theorem parseQsChunk_encode (k v : Str) (hv : v ≠ []) :
    parseQsChunk (encPair (k, v)) = some (k, v) := by
  rw [parseQsChunk, encPair]
  rw [if_neg (by simp)]
  rw [splitOnce_append '=' _ _
    (quotePlus_not_special k '=' (by decide) (by decide) (by decide) (by decide))]
  dsimp only
  rw [if_neg (quotePlus_ne_nil v hv), quotePlus_roundtrip, quotePlus_roundtrip]

theorem urlencodeSeq_eq (d : List (Str × List Str)) :
    urlencodeSeq d = List.intercalate ['&'] ((flatPairs d).map encPair) := by
  rw [urlencodeSeq, flatPairs, List.map_flatMap]
  simp only [List.map_map]
  rfl

theorem flatPairs_cons (kv : Str × List Str) (d : List (Str × List Str)) :
    flatPairs (kv :: d) = (kv.2.map fun v => (kv.1, v)) ++ flatPairs d :=
  List.flatMap_cons ..

theorem mem_flatPairs (p : Str × Str) (d : List (Str × List Str))
    (hp : p ∈ flatPairs d) : ∃ kv ∈ d, p.1 = kv.1 ∧ p.2 ∈ kv.2 := by
  rw [flatPairs, List.mem_flatMap] at hp
  rcases hp with ⟨kv, hkv, hpk⟩
  rw [List.mem_map] at hpk
  rcases hpk with ⟨v, hv, he⟩
  exact ⟨kv, hkv, by rw [← he], by rw [← he]; exact hv⟩

theorem flatPairs_ne_nil (d : List (Str × List Str)) (hd : d ≠ [])
    (h2 : ∀ kv ∈ d, kv.2 ≠ []) : flatPairs d ≠ [] := by
  match d, hd with
  | kv :: d', _ =>
    rw [flatPairs_cons]
    intro he
    rcases List.append_eq_nil.mp he with ⟨ha, _⟩
    rw [List.map_eq_nil_iff] at ha
    exact h2 kv (List.mem_cons_self ..) ha

theorem parseQsl_urlencodeSeq (d : List (Str × List Str))
    (hne : flatPairs d ≠ []) (hval : ∀ p ∈ flatPairs d, p.2 ≠ []) :
    parseQsl (urlencodeSeq d) = flatPairs d := by
  rw [urlencodeSeq_eq, parseQsl]
  have hchne : (flatPairs d).map encPair ≠ [] := by
    simpa using hne
  rw [if_neg (intercalate_ne_nil ['&'] _ hchne (by
    intro ch hch
    rw [List.mem_map] at hch
    rcases hch with ⟨p, _, he⟩
    rw [← he]
    exact encPair_ne_nil p))]
  rw [splitChar_intercalate '&' _ (by
    intro ch hch
    rw [List.mem_map] at hch
    rcases hch with ⟨p, _, he⟩
    rw [← he]
    exact encPair_no_amp p) hchne]
  rw [List.filterMap_map]
  rw [List.filterMap_congr (g := some) (by
    intro p hp
    show parseQsChunk (encPair p) = some p
    exact parseQsChunk_encode p.1 p.2 (hval p hp))]
  exact List.filterMap_some _

theorem addPairToDict_new (d : List (Str × List Str)) (k : Str) (v : Str)
    (h : k ∉ keysOf d) : addPairToDict d k v = d ++ [(k, [v])] := by
  rw [addPairToDict, if_neg]
  intro hany
  rw [List.any_eq_true] at hany
  rcases hany with ⟨kv, hkv, he⟩
  rw [decide_eq_true_eq] at he
  exact h (List.mem_map.mpr ⟨kv, hkv, he⟩)

theorem addPairToDict_hit (front : List (Str × List Str)) (k : Str)
    (w : List Str) (v : Str) (h : k ∉ keysOf front) :
    addPairToDict (front ++ [(k, w)]) k v = front ++ [(k, w ++ [v])] := by
  rw [addPairToDict, if_pos]
  · rw [List.map_append]
    congr 1
    · rw [List.map_congr_left (g := id) (by
        intro kv hkv
        have hne : kv.1 ≠ k := fun he => h (List.mem_map.mpr ⟨kv, hkv, he⟩)
        simp [hne])]
      exact List.map_id front
    · simp
  · rw [List.any_eq_true]
    exact ⟨(k, w), List.mem_append_right _ (List.mem_singleton_self _), by simp⟩

theorem foldl_addPair_group (front : List (Str × List Str)) (k : Str)
    (h : k ∉ keysOf front) (vs : List Str) : ∀ w : List Str,
    List.foldl (fun d kv => addPairToDict d kv.1 kv.2) (front ++ [(k, w)])
      (vs.map fun v => (k, v)) = front ++ [(k, w ++ vs)] := by
  induction vs with
  | nil => intro w; simp
  | cons v vrest ih =>
    intro w
    rw [List.map_cons, List.foldl_cons]
    dsimp only
    rw [addPairToDict_hit front k w v h, ih (w ++ [v]), List.append_assoc]
    rfl

theorem foldl_addPair_flat (d : List (Str × List Str)) :
    ∀ acc : List (Str × List Str), (keysOf d).Nodup → (∀ kv ∈ d, kv.2 ≠ []) →
    (∀ k ∈ keysOf d, k ∉ keysOf acc) →
    List.foldl (fun dd kv => addPairToDict dd kv.1 kv.2) acc (flatPairs d) =
      acc ++ d := by
  induction d with
  | nil => intro acc _ _ _; simp [flatPairs]
  | cons kv d' ih =>
    intro acc hnd hval hdisj
    obtain ⟨k, vs⟩ := kv
    have hkmem : k ∈ keysOf ((k, vs) :: d') := by
      rw [keysOf, List.map_cons]
      exact List.mem_cons_self ..
    have hkeys : keysOf ((k, vs) :: d') = k :: keysOf d' := by
      rw [keysOf, List.map_cons]; rfl
    have hvs : vs ≠ [] := (hval (k, vs) (List.mem_cons_self ..))
    obtain ⟨v0, vrest, hv0⟩ : ∃ v0 vrest, vs = v0 :: vrest := by
      match vs, hvs with
      | v0 :: vrest, _ => exact ⟨_, _, rfl⟩
    subst hv0
    rw [flatPairs_cons, List.foldl_append]
    have hknot : k ∉ keysOf acc := hdisj k hkmem
    show List.foldl _ (List.foldl _ acc (((v0 :: vrest)).map fun v => (k, v)))
      (flatPairs d') = _
    rw [List.map_cons, List.foldl_cons]
    dsimp only
    rw [addPairToDict_new acc k v0 hknot,
      foldl_addPair_group acc k hknot vrest [v0]]
    have hnd' : (keysOf d').Nodup := by
      rw [hkeys] at hnd
      exact (List.nodup_cons.mp hnd).2
    have hknotd' : k ∉ keysOf d' := by
      rw [hkeys] at hnd
      exact (List.nodup_cons.mp hnd).1
    rw [ih (acc ++ [(k, [v0] ++ vrest)]) hnd'
      (fun x hx => hval x (List.mem_cons_of_mem _ hx))
      (by
        intro k' hk'
        rw [keysOf, List.map_append, List.mem_append]
        intro hmem
        rcases hmem with hmem | hmem
        · exact hdisj k' (by rw [hkeys]; exact List.mem_cons_of_mem _ hk') hmem
        · simp only [List.map_cons, List.map_nil, List.mem_singleton] at hmem
          exact hknotd' (hmem ▸ hk'))]
    rw [List.append_assoc]
    rfl

theorem parse_qs_group (d : List (Str × List Str)) (hnd : (keysOf d).Nodup)
    (hval : ∀ kv ∈ d, kv.2 ≠ []) :
    List.foldl (fun dd kv => addPairToDict dd kv.1 kv.2) [] (flatPairs d) = d := by
  have h := foldl_addPair_flat d [] hnd hval (by intro k _; simp [keysOf])
  simpa using h

theorem addPair_preserves (d : List (Str × List Str)) (k : Str) (v : Str)
    (hd : dictOk d) (hv : v ≠ []) : dictOk (addPairToDict d k v) := by
  rw [addPairToDict]
  split
  · constructor
    · have hk : keysOf (d.map fun kv =>
          if kv.1 = k then (kv.1, kv.2 ++ [v]) else kv) = keysOf d := by
        rw [keysOf, List.map_map]
        apply List.map_congr_left
        intro kv _
        by_cases hkk : kv.1 = k
        · simp [hkk]
        · simp [hkk]
      rw [hk]
      exact hd.1
    · intro kv hkv
      rw [List.mem_map] at hkv
      rcases hkv with ⟨kv0, hkv0, he⟩
      by_cases hkk : kv0.1 = k
      · rw [if_pos hkk] at he
        rw [← he]
        refine ⟨by simp, ?_⟩
        intro x hx
        rw [List.mem_append] at hx
        rcases hx with hx | hx
        · exact (hd.2 kv0 hkv0).2 x hx
        · rw [List.mem_singleton] at hx
          rw [hx]; exact hv
      · rw [if_neg hkk] at he
        rw [← he]
        exact hd.2 kv0 hkv0
  · constructor
    · rw [keysOf, List.map_append, List.nodup_append]
      refine ⟨hd.1, by simp, ?_⟩
      intro a ha hb
      simp only [List.map_cons, List.map_nil, List.mem_singleton] at hb
      subst hb
      rename_i hfalse
      rw [List.any_eq_true] at hfalse
      rw [List.mem_map] at ha
      rcases ha with ⟨kv, hkv, he⟩
      exact hfalse ⟨kv, hkv, by rw [decide_eq_true_eq]; exact he⟩
    · intro kv hkv
      rw [List.mem_append] at hkv
      rcases hkv with hkv | hkv
      · exact hd.2 kv hkv
      · rw [List.mem_singleton] at hkv
        subst hkv
        exact ⟨by simp, by intro x hx; rw [List.mem_singleton] at hx; rw [hx]; exact hv⟩

theorem utf8DecodeAux_cons_ne_nil (fuel : Nat) (b : Nat) (rest : List Nat) :
    utf8DecodeAux (fuel + 1) (b :: rest) ≠ [] := by
  rw [utf8DecodeAux.eq_def]
  dsimp only
  split
  · simp
  · split
    · match rest with
      | [] => simp
      | b1 :: rest' =>
        dsimp only
        split <;> simp
    · split
      · match rest with
        | [] => simp
        | [b1] => simp
        | b1 :: b2 :: rest' =>
          dsimp only
          split <;> simp
      · split
        · match rest with
          | [] => simp
          | [b1] => simp
          | [b1, b2] => simp
          | b1 :: b2 :: b3 :: rest' =>
            dsimp only
            split <;> simp
        · simp

theorem unquoteAux_pct_nil (fuel : Nat) (rest t : Str)
    (hp : pctRun ('%' :: rest) = ([], t)) :
    unquoteAux (fuel + 1) ('%' :: rest) = '%' :: unquoteAux fuel rest := by
  rw [unquoteAux.eq_def]
  dsimp only
  rw [if_pos rfl, hp]
  dsimp only
  rw [if_pos rfl]

theorem unquote_ne_nil (s : Str) (h : s ≠ []) : unquote s ≠ [] := by
  match s, h with
  | c :: t, _ =>
    show unquoteAux (c :: t).length (c :: t) ≠ []
    rw [List.length_cons]
    by_cases hc : c = '%'
    · subst hc
      rcases hp : pctRun ('%' :: t) with ⟨bs, rest⟩
      by_cases hbs : bs = []
      · subst hbs
        rw [unquoteAux_pct_nil t.length t rest hp]
        simp
      · rw [unquoteAux_pct_run t.length t bs rest hp hbs]
        intro he
        rcases List.append_eq_nil.mp he with ⟨h1, _⟩
        match hbb : bs, hbs with
        | b :: bs', _ =>
          rw [show utf8DecodeReplace (b :: bs') =
            utf8DecodeAux (bs'.length + 1) (b :: bs') from by
              rw [utf8DecodeReplace, List.length_cons]] at h1
          exact utf8DecodeAux_cons_ne_nil bs'.length b bs' h1
    · rw [unquoteAux_not_pct t.length c t hc]
      simp

theorem parseQsl_ok (qs : Str) : ∀ p ∈ parseQsl qs, p.2 ≠ [] := by
  intro p hp
  rw [parseQsl, List.mem_filterMap] at hp
  rcases hp with ⟨ch, _, hch⟩
  rw [parseQsChunk] at hch
  split at hch
  · cases hch
  · split at hch
    · cases hch
    · rename_i n v hsv
      split at hch
      · cases hch
      · rename_i hvne
        rw [Option.some.injEq] at hch
        rw [← hch]
        exact unquote_ne_nil _ (replacePlusSpace_ne_nil v hvne)

theorem parse_qs_ok (qs : Str) : dictOk (parse_qs qs) := by
  rw [parse_qs]
  have hvals := parseQsl_ok qs
  have main : ∀ (l : List (Str × Str)) (acc), (∀ p ∈ l, p.2 ≠ []) → dictOk acc →
      dictOk (List.foldl (fun d kv => addPairToDict d kv.1 kv.2) acc l) := by
    intro l
    induction l with
    | nil => intro acc _ hacc; exact hacc
    | cons p rest ih =>
      intro acc hl hacc
      rw [List.foldl_cons]
      exact ih _ (fun x hx => hl x (List.mem_cons_of_mem p hx))
        (addPair_preserves acc p.1 p.2 hacc (hl p (List.mem_cons_self ..)))
  exact main (parseQsl qs) [] hvals ⟨by simp [keysOf], by simp⟩

theorem filteredParams_idem (d : List (Str × List Str)) :
    filteredParams (filteredParams d) = filteredParams d := by
  rw [filteredParams, filteredParams, List.filter_filter]
  apply List.filter_congr
  intro x _
  rw [Bool.and_self]

theorem filteredParams_ok (d : List (Str × List Str)) (h : dictOk d) :
    dictOk (filteredParams d) := by
  constructor
  · exact List.Nodup.sublist (List.Sublist.map _ (List.filter_sublist d)) h.1
  · intro kv hkv
    exact h.2 kv (List.mem_filter.mp hkv).1

/-- The query rewriting of `normalize_url`: parse, drop tracking keys,
re-encode (or empty when nothing survives). -/
def newQuery (q : Str) : Str :=
  if filteredParams (parse_qs q) ≠ [] then urlencodeSeq (filteredParams (parse_qs q))
  else []

theorem newQuery_idem (q : Str) : newQuery (newQuery q) = newQuery q := by
  by_cases h : filteredParams (parse_qs q) = []
  · have hnq : newQuery q = [] := by
      rw [newQuery, if_neg (by simpa using h)]
    have hnil : newQuery ([] : Str) = [] := rfl
    rw [hnq, hnil]
  · have hok : dictOk (filteredParams (parse_qs q)) :=
      filteredParams_ok _ (parse_qs_ok q)
    have hfv : ∀ p ∈ flatPairs (filteredParams (parse_qs q)), p.2 ≠ [] := by
      intro p hp
      rcases mem_flatPairs p _ hp with ⟨kv, hkv, _, hv⟩
      exact (hok.2 kv hkv).2 p.2 hv
    have hq : parseQsl (urlencodeSeq (filteredParams (parse_qs q))) =
        flatPairs (filteredParams (parse_qs q)) :=
      parseQsl_urlencodeSeq _
        (flatPairs_ne_nil _ h (fun kv hkv => (hok.2 kv hkv).1)) hfv
    have hgroup : parse_qs (urlencodeSeq (filteredParams (parse_qs q))) =
        filteredParams (parse_qs q) := by
      rw [parse_qs, hq]
      exact parse_qs_group _ hok.1 (fun kv hkv => (hok.2 kv hkv).1)
    have hq' : newQuery q = urlencodeSeq (filteredParams (parse_qs q)) := by
      rw [newQuery, if_pos h]
    rw [hq', newQuery, hgroup, filteredParams_idem, if_pos h]


/-! ### Character-level facts for the reparse argument -/

theorem char_le_iff (a c : Char) : (a ≤ c) ↔ a.toNat ≤ c.toNat := by
  rw [Char.le_def]
  exact ⟨fun h => h, fun h => h⟩

theorem char_eq_iff (c d : Char) : c = d ↔ c.toNat = d.toNat :=
  ⟨fun h => by rw [h], fun h => Char.eq_of_val_eq (UInt32.ext h)⟩

theorem isAlpha_iff (c : Char) : c.isAlpha = true ↔
    (65 ≤ c.toNat ∧ c.toNat ≤ 90) ∨ (97 ≤ c.toNat ∧ c.toNat ≤ 122) := by
  simp only [Char.isAlpha, Char.isUpper, Char.isLower, Bool.or_eq_true,
    Bool.and_eq_true, decide_eq_true_eq, char_le_iff]
  exact ⟨fun h => h, fun h => h⟩

theorem char_isDigit_iff (c : Char) : c.isDigit = true ↔
    48 ≤ c.toNat ∧ c.toNat ≤ 57 := by
  simp only [Char.isDigit, Bool.and_eq_true, decide_eq_true_eq]
  exact ⟨fun h => ⟨h.1, h.2⟩, fun h => ⟨h.1, h.2⟩⟩

theorem isSchemeChar_iff (c : Char) : isSchemeChar c = true ↔
    (48 ≤ c.toNat ∧ c.toNat ≤ 57) ∨ (65 ≤ c.toNat ∧ c.toNat ≤ 90) ∨
    (97 ≤ c.toNat ∧ c.toNat ≤ 122) ∨ c.toNat = 43 ∨ c.toNat = 45 ∨ c.toNat = 46 := by
  simp only [isSchemeChar, Char.isAlphanum, Bool.or_eq_true, isAlpha_iff,
    char_isDigit_iff, decide_eq_true_eq, char_eq_iff,
    show ('+' : Char).toNat = 43 from rfl, show ('-' : Char).toNat = 45 from rfl,
    show ('.' : Char).toNat = 46 from rfl]
  omega

theorem pyLowerChar_toNat (c : Char) : (pyLowerChar c).toNat =
    if 65 ≤ c.toNat ∧ c.toNat ≤ 90 then c.toNat + 32 else c.toNat := by
  rw [pyLowerChar]
  by_cases h : 'A' ≤ c ∧ c ≤ 'Z'
  · have h1 : 65 ≤ c.toNat := (char_le_iff 'A' c).mp h.1
    have h2 : c.toNat ≤ 90 := (char_le_iff c 'Z').mp h.2
    rw [if_pos h, if_pos ⟨h1, h2⟩]
    exact char_toNat_ofNat _ (Or.inl (by omega))
  · rw [if_neg h, if_neg]
    intro hc
    exact h ⟨(char_le_iff 'A' c).mpr hc.1, (char_le_iff c 'Z').mpr hc.2⟩

theorem pyLowerChar_fix (c : Char) (h : ¬(65 ≤ c.toNat ∧ c.toNat ≤ 90)) :
    pyLowerChar c = c := by
  rw [pyLowerChar, if_neg]
  intro hc
  exact h ⟨(char_le_iff 'A' c).mp hc.1, (char_le_iff c 'Z').mp hc.2⟩

theorem pyLowerChar_eq_target (c t : Char)
    (h1 : ¬(97 ≤ t.toNat ∧ t.toNat ≤ 122)) (h2 : ¬(65 ≤ t.toNat ∧ t.toNat ≤ 90)) :
    pyLowerChar c = t ↔ c = t := by
  rw [char_eq_iff, char_eq_iff, pyLowerChar_toNat]
  by_cases h : 65 ≤ c.toNat ∧ c.toNat ≤ 90
  · rw [if_pos h]
    constructor
    · intro he; exact absurd ⟨by omega, by omega⟩ h1
    · intro he; exact absurd ⟨by omega, by omega⟩ h2
  · rw [if_neg h]

theorem pyLowerChar_decide_eq (c t : Char)
    (h1 : ¬(97 ≤ t.toNat ∧ t.toNat ≤ 122)) (h2 : ¬(65 ≤ t.toNat ∧ t.toNat ≤ 90)) :
    decide (pyLowerChar c = t) = decide (c = t) := by
  by_cases he : c = t
  · rw [decide_eq_true ((pyLowerChar_eq_target c t h1 h2).mpr he),
      decide_eq_true he]
  · rw [decide_eq_false he,
      decide_eq_false (fun hc => he ((pyLowerChar_eq_target c t h1 h2).mp hc))]

theorem mem_pyLower_iff (t : Char) (s : Str)
    (h1 : ¬(97 ≤ t.toNat ∧ t.toNat ≤ 122)) (h2 : ¬(65 ≤ t.toNat ∧ t.toNat ≤ 90)) :
    t ∈ pyLower s ↔ t ∈ s := by
  rw [pyLower, List.mem_map]
  constructor
  · rintro ⟨c, hc, he⟩
    have := (pyLowerChar_eq_target c t h1 h2).mp he
    rw [← this]
    exact hc
  · intro ht
    exact ⟨t, ht, (pyLowerChar_eq_target t t h1 h2).mpr rfl⟩

theorem pyLowerChar_idem (c : Char) : pyLowerChar (pyLowerChar c) = pyLowerChar c := by
  by_cases h : 65 ≤ c.toNat ∧ c.toNat ≤ 90
  · apply pyLowerChar_fix
    rw [pyLowerChar_toNat, if_pos h]
    omega
  · rw [pyLowerChar_fix c h]
    exact pyLowerChar_fix c h

theorem pyLower_idem (s : Str) : pyLower (pyLower s) = pyLower s := by
  simp only [pyLower, List.map_map]
  apply List.map_congr_left
  intro c _
  exact pyLowerChar_idem c

theorem pyLower_eq_nil_iff (s : Str) : pyLower s = [] ↔ s = [] := by
  simp [pyLower]

theorem isNetlocDelim_pyLowerChar (c : Char) :
    isNetlocDelim (pyLowerChar c) = isNetlocDelim c := by
  rw [isNetlocDelim, isNetlocDelim,
    pyLowerChar_decide_eq c '/' (by decide) (by decide),
    pyLowerChar_decide_eq c '?' (by decide) (by decide),
    pyLowerChar_decide_eq c '#' (by decide) (by decide)]

theorem isUnsafeUrlByte_pyLowerChar (c : Char) :
    isUnsafeUrlByte (pyLowerChar c) = isUnsafeUrlByte c := by
  rw [isUnsafeUrlByte, isUnsafeUrlByte,
    pyLowerChar_decide_eq c '\t' (by decide) (by decide),
    pyLowerChar_decide_eq c '\r' (by decide) (by decide),
    pyLowerChar_decide_eq c '\n' (by decide) (by decide)]

theorem isSchemeChar_pyLowerChar (c : Char) (h : isSchemeChar c = true) :
    isSchemeChar (pyLowerChar c) = true := by
  rw [isSchemeChar_iff] at h ⊢
  rw [pyLowerChar_toNat]
  by_cases hc : 65 ≤ c.toNat ∧ c.toNat ≤ 90
  · rw [if_pos hc]; omega
  · rw [if_neg hc]; omega

theorem isAlpha_pyLowerChar (c : Char) (h : c.isAlpha = true) :
    (pyLowerChar c).isAlpha = true := by
  rw [isAlpha_iff] at h ⊢
  rw [pyLowerChar_toNat]
  by_cases hc : 65 ≤ c.toNat ∧ c.toNat ≤ 90
  · rw [if_pos hc]; omega
  · rw [if_neg hc]; omega

theorem takeWhile_append_all (p : Char → Bool) (l1 l2 : Str)
    (h : ∀ c ∈ l1, p c = true) :
    (l1 ++ l2).takeWhile p = l1 ++ l2.takeWhile p := by
  induction l1 with
  | nil => rfl
  | cons c t ih =>
    rw [List.cons_append, List.takeWhile_cons, if_pos (h c (List.mem_cons_self ..)),
      ih fun x hx => h x (List.mem_cons_of_mem c hx), List.cons_append]

theorem dropWhile_append_all (p : Char → Bool) (l1 l2 : Str)
    (h : ∀ c ∈ l1, p c = true) :
    (l1 ++ l2).dropWhile p = l2.dropWhile p := by
  induction l1 with
  | nil => rfl
  | cons c t ih =>
    rw [List.cons_append, List.dropWhile_cons, if_pos (h c (List.mem_cons_self ..)),
      ih fun x hx => h x (List.mem_cons_of_mem c hx)]

theorem takeWhile_eq_nil_of_head (p : Char → Bool) (l : Str)
    (h : ∀ c, l.head? = some c → p c = false) : l.takeWhile p = [] := by
  cases l with
  | nil => rfl
  | cons c t => rw [List.takeWhile_cons, if_neg (by simp [h c rfl])]

theorem cleanUrlInput_noop (s : Str)
    (h1 : ∀ c, s.head? = some c → isC0ControlOrSpace c = false)
    (h2 : ∀ c ∈ s, isUnsafeUrlByte c = false) : cleanUrlInput s = s := by
  rw [cleanUrlInput, dropWhile_eq_self_of_head _ _ h1]
  apply List.filter_eq_self.mpr
  intro a ha
  simp [h2 a ha]

theorem mem_cleanUrlInput (s : Str) (c : Char) (h : c ∈ cleanUrlInput s) :
    isUnsafeUrlByte c = false := by
  rw [cleanUrlInput] at h
  have := (List.mem_filter.mp h).2
  simpa using this

theorem unsafe_of_c0 (c : Char) (h : isC0ControlOrSpace c = false) :
    isUnsafeUrlByte c = false := by
  rw [isC0ControlOrSpace, decide_eq_false_iff_not] at h
  rw [isUnsafeUrlByte]
  simp only [Bool.or_eq_false_iff, decide_eq_false_iff_not, char_eq_iff,
    show ('\t' : Char).toNat = 9 from rfl, show ('\r' : Char).toNat = 13 from rfl,
    show ('\n' : Char).toNat = 10 from rfl]
  omega

theorem cleanUrlInput_head (s : Str) (c : Char)
    (h : (cleanUrlInput s).head? = some c) : isC0ControlOrSpace c = false := by
  rw [cleanUrlInput] at h
  rcases hl : s.dropWhile isC0ControlOrSpace with _ | ⟨c0, t⟩
  · rw [hl] at h; simp at h
  · have hc0 : isC0ControlOrSpace c0 = false :=
      head?_dropWhile_false _ s c0 (by rw [hl]; rfl)
    rw [hl, List.filter_cons, if_pos (by simp [unsafe_of_c0 c0 hc0])] at h
    rw [List.head?_cons, Option.some.injEq] at h
    rw [← h]
    exact hc0


/-! ### `splitOnce` / `splitparams` characterizations -/

theorem splitOnce_none (sep : Char) (l : Str) (h : splitOnce sep l = none) :
    sep ∉ l := by
  induction l with
  | nil => simp
  | cons c t ih =>
    rw [splitOnce.eq_def] at h
    dsimp only at h
    by_cases hc : c = sep
    · rw [if_pos hc] at h; cases h
    · rw [if_neg hc] at h
      intro hm
      rw [List.mem_cons] at hm
      rcases hm with hm | hm
      · exact hc hm.symm
      · rcases hs : splitOnce sep t with _ | ⟨a, b⟩
        · exact ih hs hm
        · rw [hs] at h; cases h

theorem splitOnce_eq (sep : Char) (l : Str) : ∀ a b : Str,
    splitOnce sep l = some (a, b) → l = a ++ sep :: b ∧ sep ∉ a := by
  induction l with
  | nil => intro a b h; cases h
  | cons c t ih =>
    intro a b h
    rw [splitOnce.eq_def] at h
    dsimp only at h
    by_cases hc : c = sep
    · rw [if_pos hc] at h
      rw [Option.some.injEq, Prod.mk.injEq] at h
      obtain ⟨h1, h2⟩ := h
      subst h1
      subst h2
      subst hc
      exact ⟨rfl, by simp⟩
    · rw [if_neg hc] at h
      rcases hs : splitOnce sep t with _ | ⟨a', b'⟩
      · rw [hs] at h; cases h
      · rw [hs] at h
        dsimp only at h
        rw [Option.some.injEq, Prod.mk.injEq] at h
        obtain ⟨h1, h2⟩ := h
        obtain ⟨hl, hna⟩ := ih a' b' hs
        subst h2
        rw [← h1, hl]
        refine ⟨rfl, ?_⟩
        intro hm
        rw [List.mem_cons] at hm
        rcases hm with hm | hm
        · exact hc hm.symm
        · exact hna hm

/-- Rebuild a path and its params the way `urlunparse` does. -/
def ppJoin (path params : Str) : Str :=
  if params ≠ [] then path ++ ';' :: params else path

theorem splitparams_concat (D E params : Str)
    (hD : D = [] ∨ D.getLast? = some '/') (hE1 : '/' ∉ E) (hE2 : ';' ∉ E)
    (hp : '/' ∉ params) :
    splitparams (ppJoin (D ++ E) params) = (D ++ E, params) := by
  have hpredE : ∀ c ∈ E.reverse, (decide (c ≠ '/')) = true := by
    intro c hc
    rw [List.mem_reverse] at hc
    rw [decide_eq_true_eq]
    intro he
    rw [he] at hc
    exact hE1 hc
  have hpredP : ∀ c ∈ params.reverse, (decide (c ≠ '/')) = true := by
    intro c hc
    rw [List.mem_reverse] at hc
    rw [decide_eq_true_eq]
    intro he
    rw [he] at hc
    exact hp hc
  by_cases hpar : params = []
  · subst hpar
    rw [ppJoin, if_neg (by simp)]
    rcases hD with hD | hD
    · subst hD
      rw [List.nil_append]
      rw [splitparams, if_neg (by simpa using hE1)]
      rw [splitOnce_not_mem ';' _ (by simpa using hE2)]
    · have hslash : '/' ∈ D ++ E :=
        List.mem_append_left E (List.mem_of_mem_getLast? hD)
      rw [splitparams, if_pos hslash]
      dsimp only
      have htw : ((D ++ E).reverse.takeWhile fun c => c ≠ '/').reverse = E := by
        rw [List.reverse_append, takeWhile_append_all _ _ _ hpredE,
          takeWhile_eq_nil_of_head _ _ (by
            intro c hc
            rw [← List.getLast?_reverse, List.reverse_reverse, hD,
              Option.some.injEq] at hc
            rw [← hc]
            simp), List.append_nil, List.reverse_reverse]
      rw [htw, splitOnce_not_mem ';' _ hE2]
  · rw [ppJoin, if_pos hpar]
    rcases hD with hD | hD
    · subst hD
      rw [List.nil_append]
      have hnos : '/' ∉ E ++ ';' :: params := by
        intro hm
        rw [List.mem_append] at hm
        rcases hm with hm | hm
        · exact hE1 hm
        · rw [List.mem_cons] at hm
          rcases hm with hm | hm
          · cases hm
          · exact hp hm
      rw [splitparams, if_neg (by simpa using hnos)]
      rw [splitOnce_append ';' _ _ hE2]
    · have hslash : '/' ∈ (D ++ E) ++ ';' :: params :=
        List.mem_append_left _ (List.mem_append_left E (List.mem_of_mem_getLast? hD))
      rw [splitparams, if_pos hslash]
      dsimp only
      have htw : (((D ++ E) ++ ';' :: params).reverse.takeWhile
          fun c => c ≠ '/').reverse = E ++ ';' :: params := by
        rw [List.reverse_append, List.reverse_append,
          show (';' :: params : Str).reverse = params.reverse ++ [';'] from by simp,
          List.append_assoc, takeWhile_append_all _ _ _ hpredP,
          show ([';'] ++ (E.reverse ++ D.reverse) : Str) =
            ';' :: (E.reverse ++ D.reverse) from rfl,
          List.takeWhile_cons, if_pos (by decide),
          takeWhile_append_all _ _ _ hpredE,
          takeWhile_eq_nil_of_head _ _ (by
            intro c hc
            rw [← List.getLast?_reverse, List.reverse_reverse, hD,
              Option.some.injEq] at hc
            rw [← hc]
            simp), List.append_nil]
        rw [show (params.reverse ++ ';' :: E.reverse : Str).reverse =
          (';' :: E.reverse : Str).reverse ++ params.reverse.reverse from
          List.reverse_append ..]
        rw [show (';' :: E.reverse : Str).reverse = E ++ [';'] from by simp,
          List.reverse_reverse, List.append_assoc]
        rfl
      rw [htw, splitOnce_append ';' _ _ hE2]
      dsimp only
      have hlen : ((D ++ E) ++ ';' :: params).length -
          (E ++ ';' :: params).length = D.length := by
        rw [List.append_assoc, List.length_append, List.length_append]
        omega
      rw [hlen, List.append_assoc, List.take_left]

theorem splitparams_shape (url : Str) :
    (∃ D E, (splitparams url).1 = D ++ E ∧ (D = [] ∨ D.getLast? = some '/') ∧
      '/' ∉ E ∧ ';' ∉ E) ∧
    '/' ∉ (splitparams url).2 ∧
    (∃ y, url = (splitparams url).1 ++ y ∧ (y = [] ∨ ∃ b, y = ';' :: b)) ∧
    (∀ c ∈ (splitparams url).2, c ∈ url) := by
  by_cases hs : '/' ∈ url
  · obtain ⟨A, hA⟩ : ∃ A, (url.reverse.takeWhile fun c => c ≠ '/').reverse = A :=
      ⟨_, rfl⟩
    obtain ⟨D0, hD0e⟩ : ∃ D0, (url.reverse.dropWhile fun c => c ≠ '/').reverse = D0 :=
      ⟨_, rfl⟩
    have hurl : url = D0 ++ A := by
      rw [← hA, ← hD0e, ← List.reverse_append, List.takeWhile_append_dropWhile,
        List.reverse_reverse]
    have hD0 : D0 = [] ∨ D0.getLast? = some '/' := by
      rcases hd : url.reverse.dropWhile fun c => c ≠ '/' with _ | ⟨c0, t0⟩
      · left; rw [← hD0e, hd]; rfl
      · right
        rw [← hD0e, hd, List.getLast?_reverse, List.head?_cons]
        have h0 := head?_dropWhile_false _ url.reverse c0 (by rw [hd]; rfl)
        rw [decide_eq_false_iff_not, not_not] at h0
        rw [h0]
    have hA1 : '/' ∉ A := by
      intro hm
      rw [← hA, List.mem_reverse] at hm
      have := List.mem_takeWhile_imp hm
      rw [decide_eq_true_eq] at this
      exact this rfl
    have hAsub : ∀ c ∈ A, c ∈ url := by
      intro c hc
      rw [hurl]
      exact List.mem_append_right _ hc
    rw [splitparams, if_pos hs]
    dsimp only
    rw [hA]
    rcases hso : splitOnce ';' A with _ | ⟨a, b⟩
    · exact ⟨⟨D0, A, hurl, hD0, hA1, splitOnce_none ';' _ hso⟩, by simp,
        ⟨[], by simp, Or.inl rfl⟩, by simp⟩
    · obtain ⟨hAeq, hna⟩ := splitOnce_eq ';' _ a b hso
      have hlen : url.length - A.length = D0.length := by
        have hl2 := congrArg List.length hurl
        rw [List.length_append] at hl2
        omega
      have hbefore : url.take (url.length - A.length) = D0 := by
        rw [hlen, hurl, List.take_left]
      constructor
      · refine ⟨D0, a, ?_, hD0, ?_, hna⟩
        · show url.take (url.length - A.length) ++ a = D0 ++ a
          rw [hbefore]
        · intro hm
          exact hA1 (by rw [hAeq]; exact List.mem_append_left _ hm)
      constructor
      · intro hm
        exact hA1 (by rw [hAeq]; exact List.mem_append_right _ (List.mem_cons_of_mem _ hm))
      constructor
      · refine ⟨';' :: b, ?_, Or.inr ⟨b, rfl⟩⟩
        show url = url.take (url.length - A.length) ++ a ++ ';' :: b
        rw [hbefore, List.append_assoc, ← hAeq, ← hurl]
      · intro c hc
        apply hAsub
        rw [hAeq]
        exact List.mem_append_right _ (List.mem_cons_of_mem _ hc)
  · rw [splitparams, if_neg hs]
    rcases hso : splitOnce ';' url with _ | ⟨a, b⟩
    · exact ⟨⟨[], url, by simp, Or.inl rfl, hs, splitOnce_none ';' _ hso⟩, by simp,
        ⟨[], by simp, Or.inl rfl⟩, by simp⟩
    · obtain ⟨hAeq, hna⟩ := splitOnce_eq ';' _ a b hso
      refine ⟨⟨[], a, by simp, Or.inl rfl, ?_, hna⟩, ?_,
        ⟨';' :: b, by rw [← hAeq], Or.inr ⟨b, rfl⟩⟩, ?_⟩
      · intro hm
        exact hs (by rw [hAeq]; exact List.mem_append_left _ hm)
      · intro hm
        exact hs (by rw [hAeq]; exact List.mem_append_right _ (List.mem_cons_of_mem _ hm))
      · intro c hc
        rw [hAeq]
        exact List.mem_append_right _ (List.mem_cons_of_mem _ hc)

/-! ### `splitSchemeOff` on reassembled URLs -/

theorem takeWhile_append_stop (p : Char → Bool) (l1 l2 : Str)
    (h : l1.dropWhile p ≠ []) :
    (l1 ++ l2).takeWhile p = l1.takeWhile p := by
  induction l1 with
  | nil => exact absurd rfl h
  | cons c t ih =>
    by_cases hc : p c = true
    · rw [List.dropWhile_cons, if_pos hc] at h
      rw [List.cons_append, List.takeWhile_cons, if_pos hc, ih h,
        List.takeWhile_cons, if_pos hc]
    · rw [List.cons_append, List.takeWhile_cons,
        if_neg (by simpa using hc), List.takeWhile_cons, if_neg (by simpa using hc)]

theorem dropWhile_append_stop (p : Char → Bool) (l1 l2 : Str)
    (h : l1.dropWhile p ≠ []) :
    (l1 ++ l2).dropWhile p = l1.dropWhile p ++ l2 := by
  induction l1 with
  | nil => exact absurd rfl h
  | cons c t ih =>
    by_cases hc : p c = true
    · rw [List.dropWhile_cons, if_pos hc] at h
      rw [List.cons_append, List.dropWhile_cons, if_pos hc, ih h,
        List.dropWhile_cons, if_pos hc]
    · rw [List.cons_append, List.dropWhile_cons, if_neg (by simpa using hc),
        List.dropWhile_cons, if_neg (by simpa using hc), List.cons_append]

theorem splitSchemeOff_some (s0 rest : Str) (h0 : s0 ≠ [])
    (hsc : ∀ c ∈ s0, isSchemeChar c = true)
    (hhead : (s0.headD ' ').isAlpha = true) :
    splitSchemeOff (s0 ++ ':' :: rest) = some (pyLower s0, rest) := by
  have hcol : ∀ c : Char, (':' :: rest : Str).head? = some c → isSchemeChar c = false := by
    intro c hc
    rw [List.head?_cons, Option.some.injEq] at hc
    rw [← hc]
    decide
  rw [splitSchemeOff, List.span_eq_take_drop,
    takeWhile_append_all _ _ _ hsc, dropWhile_append_all _ _ _ hsc,
    takeWhile_eq_nil_of_head _ _ hcol, dropWhile_eq_self_of_head _ _ hcol,
    List.append_nil]
  dsimp only
  rw [if_pos ⟨rfl, h0, hhead⟩]

theorem splitSchemeOff_none_head (s : Str)
    (h : ∀ c, s.head? = some c → isSchemeChar c = false) :
    splitSchemeOff s = none := by
  rw [splitSchemeOff, List.span_eq_take_drop, takeWhile_eq_nil_of_head _ _ h,
    dropWhile_eq_self_of_head _ _ h]
  dsimp only
  rcases s with _ | ⟨d, tl⟩
  · rfl
  · dsimp only
    rw [if_neg]
    intro hcond
    exact hcond.2.1 rfl

theorem splitSchemeOff_all_scheme_none (p x : Str)
    (hp : ∀ c ∈ p, isSchemeChar c = true)
    (hx : ∀ c, x.head? = some c → isSchemeChar c = false ∧ c ≠ ':') :
    splitSchemeOff (p ++ x) = none := by
  rw [splitSchemeOff, List.span_eq_take_drop,
    takeWhile_append_all _ _ _ hp, dropWhile_append_all _ _ _ hp,
    takeWhile_eq_nil_of_head _ _ (fun c hc => (hx c hc).1),
    dropWhile_eq_self_of_head _ _ (fun c hc => (hx c hc).1), List.append_nil]
  dsimp only
  rcases hx0 : x with _ | ⟨d, tl⟩
  · rfl
  · dsimp only
    rw [if_neg]
    intro hcond
    exact (hx d (by rw [hx0]; rfl)).2 hcond.1

theorem splitSchemeOff_transfer (p x y : Str)
    (hx : ∀ c, x.head? = some c → isSchemeChar c = false ∧ c ≠ ':')
    (h : splitSchemeOff (p ++ y) = none) :
    splitSchemeOff (p ++ x) = none := by
  by_cases hall : ∀ c ∈ p, isSchemeChar c = true
  · exact splitSchemeOff_all_scheme_none p x hall hx
  · have hdp : p.dropWhile isSchemeChar ≠ [] := by
      intro hnil
      apply hall
      intro c hc
      have hself : p.takeWhile isSchemeChar = p := by
        have hh := List.takeWhile_append_dropWhile (p := isSchemeChar) (l := p)
        rw [hnil, List.append_nil] at hh
        exact hh
      rw [← hself] at hc
      exact List.mem_takeWhile_imp hc
    obtain ⟨d, tl, hdtl⟩ : ∃ d tl, p.dropWhile isSchemeChar = d :: tl := by
      rcases hdd : p.dropWhile isSchemeChar with _ | ⟨d, tl⟩
      · exact absurd hdd hdp
      · exact ⟨d, tl, rfl⟩
    rw [splitSchemeOff, List.span_eq_take_drop, dropWhile_append_stop _ _ _ hdp,
      hdtl, List.cons_append] at h
    rw [splitSchemeOff, List.span_eq_take_drop, dropWhile_append_stop _ _ _ hdp,
      hdtl, List.cons_append]
    rw [takeWhile_append_stop _ _ _ hdp] at h
    rw [takeWhile_append_stop _ _ _ hdp]
    dsimp only at h ⊢
    by_cases hcond : d = ':' ∧ p.takeWhile isSchemeChar ≠ [] ∧
        ((p.takeWhile isSchemeChar).headD ' ').isAlpha
    · rw [if_pos hcond] at h
      cases h
    · rw [if_neg hcond]


/-! ### `urlsplit` on reassembled URLs -/

/-- The part of `urlsplit` that runs after input cleaning and scheme
splitting. -/
def urlsplitBody (scheme url2 : Str) : Option SplitResult :=
  let hasNetloc := url2.take 2 = ['/', '/']
  let netloc := if hasNetloc then (url2.drop 2).takeWhile (fun c => !isNetlocDelim c) else []
  let url3 := if hasNetloc then (url2.drop 2).dropWhile (fun c => !isNetlocDelim c) else url2
  if ('[' ∈ netloc ∧ ']' ∉ netloc) ∨ (']' ∈ netloc ∧ '[' ∉ netloc) then none
  else
    let fr := match splitOnce '#' url3 with
      | some (a, b) => (a, b)
      | none => (url3, ([] : Str))
    let qr := match splitOnce '?' fr.1 with
      | some (a, b) => (a, b)
      | none => (fr.1, ([] : Str))
    some ⟨scheme, netloc, qr.1, qr.2, fr.2⟩

theorem urlsplit_eq_body (url0 : Str) (hclean : cleanUrlInput url0 = url0) :
    urlsplit url0 = match splitSchemeOff url0 with
      | some (sc, rest) => urlsplitBody sc rest
      | none => urlsplitBody [] url0 := by
  rcases hso : splitSchemeOff url0 with _ | ⟨sc, rest⟩
  · rw [urlsplit, hclean, hso]
    rfl
  · rw [urlsplit, hclean, hso]
    rfl

theorem urlsplit_scheme (s0 u2 : Str) (h0 : s0 ≠ [])
    (hsc : ∀ c ∈ s0, isSchemeChar c = true)
    (hhead : (s0.headD ' ').isAlpha = true)
    (hclean : cleanUrlInput (s0 ++ ':' :: u2) = s0 ++ ':' :: u2) :
    urlsplit (s0 ++ ':' :: u2) = urlsplitBody (pyLower s0) u2 := by
  rw [urlsplit_eq_body _ hclean, splitSchemeOff_some s0 u2 h0 hsc hhead]

theorem urlsplit_noscheme (u2 : Str) (hclean : cleanUrlInput u2 = u2)
    (hnone : splitSchemeOff u2 = none) :
    urlsplit u2 = urlsplitBody [] u2 := by
  rw [urlsplit_eq_body _ hclean, hnone]

theorem urlsplitBody_netloc (s0 L PP q' : Str)
    (hL : ∀ c ∈ L, isNetlocDelim c = false)
    (hbr : ¬(('[' ∈ L ∧ ']' ∉ L) ∨ (']' ∈ L ∧ '[' ∉ L)))
    (hPP : PP = [] ∨ PP.take 1 = ['/'])
    (hPPq : '?' ∉ PP) (hPPh : '#' ∉ PP) (hqh : '#' ∉ q') :
    urlsplitBody s0
      ('/' :: '/' :: (L ++ (PP ++ (if q' = [] then [] else '?' :: q')))) =
      some ⟨s0, L, PP, q', []⟩ := by
  have hLpred : ∀ c ∈ L, (!isNetlocDelim c) = true := by
    intro c hc
    rw [hL c hc]
    rfl
  have hXhead : ∀ c, (PP ++ (if q' = [] then [] else '?' :: q')).head? = some c →
      (!isNetlocDelim c) = false := by
    intro c hc
    rcases hPP with hPP | hPP
    · subst hPP
      rw [List.nil_append] at hc
      by_cases hq : q' = []
      · rw [if_pos hq] at hc
        cases hc
      · rw [if_neg hq, List.head?_cons, Option.some.injEq] at hc
        rw [← hc]
        rfl
    · rcases PP with _ | ⟨p0, pt⟩
      · cases hPP
      · rw [List.cons_append, List.head?_cons, Option.some.injEq] at hc
        have hp0 : p0 = '/' := by simpa using hPP
        rw [← hc, hp0]
        rfl
  have hnot : '#' ∉ PP ++ (if q' = [] then [] else '?' :: q') := by
    intro hm
    rw [List.mem_append] at hm
    rcases hm with hm | hm
    · exact hPPh hm
    · by_cases hq : q' = []
      · rw [if_pos hq] at hm
        cases hm
      · rw [if_neg hq, List.mem_cons] at hm
        rcases hm with hm | hm
        · cases hm
        · exact hqh hm
  rw [urlsplitBody]
  dsimp only
  rw [if_pos (show (('/' :: '/' :: (L ++ (PP ++ (if q' = [] then [] else '?' :: q')))).take 2 : Str) = ['/', '/'] from rfl)]
  rw [if_pos (show (('/' :: '/' :: (L ++ (PP ++ (if q' = [] then [] else '?' :: q')))).take 2 : Str) = ['/', '/'] from rfl)]
  rw [show (('/' :: '/' :: (L ++ (PP ++ (if q' = [] then [] else '?' :: q')))).drop 2 : Str) = L ++ (PP ++ (if q' = [] then [] else '?' :: q')) from rfl]
  rw [takeWhile_append_all _ _ _ hLpred, takeWhile_eq_nil_of_head _ _ hXhead,
    List.append_nil]
  rw [dropWhile_append_all _ _ _ hLpred, dropWhile_eq_self_of_head _ _ hXhead]
  rw [if_neg hbr]
  rw [splitOnce_not_mem '#' _ hnot]
  dsimp only
  by_cases hq : q' = []
  · rw [if_pos hq] at *
    rw [List.append_nil, splitOnce_not_mem '?' _ hPPq]
    rw [hq]
  · rw [if_neg hq, splitOnce_append '?' _ _ hPPq]

theorem urlsplitBody_plain (s0 PP q' : Str)
    (h2 : (PP ++ (if q' = [] then [] else '?' :: q')).take 2 ≠ ['/', '/'])
    (hPPq : '?' ∉ PP) (hPPh : '#' ∉ PP) (hqh : '#' ∉ q') :
    urlsplitBody s0 (PP ++ (if q' = [] then [] else '?' :: q')) =
      some ⟨s0, [], PP, q', []⟩ := by
  have hnot : '#' ∉ PP ++ (if q' = [] then [] else '?' :: q') := by
    intro hm
    rw [List.mem_append] at hm
    rcases hm with hm | hm
    · exact hPPh hm
    · by_cases hq : q' = []
      · rw [if_pos hq] at hm
        cases hm
      · rw [if_neg hq, List.mem_cons] at hm
        rcases hm with hm | hm
        · cases hm
        · exact hqh hm
  rw [urlsplitBody]
  dsimp only
  rw [if_neg h2, if_neg h2, if_neg (by simp)]
  rw [splitOnce_not_mem '#' _ hnot]
  dsimp only
  by_cases hq : q' = []
  · rw [if_pos hq] at *
    rw [List.append_nil, splitOnce_not_mem '?' _ hPPq]
    rw [hq]
  · rw [if_neg hq, splitOnce_append '?' _ _ hPPq]


/-! ### What a successful `urlsplit` guarantees -/

theorem good_tail_of_qf (t : Str)
    (hthead : ∀ c, t.head? = some c → c = '?' ∨ c = '#') :
    ∀ c, t.head? = some c → isSchemeChar c = false ∧ c ≠ ':' := by
  intro c hc
  rcases hthead c hc with h | h <;> (rw [h]; exact ⟨by decide, by decide⟩)

theorem s_url_slash (U3 u t : Str) (hdecomp : U3 = u ++ t)
    (hx : '#' ∉ u) (hq : '?' ∉ u)
    (hU3head : ∀ c, U3.head? = some c → isNetlocDelim c = true) :
    u = [] ∨ u.take 1 = ['/'] := by
  cases u with
  | nil => left; rfl
  | cons c0 r =>
    right
    have hc0 : U3.head? = some c0 := by rw [hdecomp]; rfl
    have hdel := hU3head c0 hc0
    rw [isNetlocDelim, Bool.or_eq_true, Bool.or_eq_true, decide_eq_true_eq,
      decide_eq_true_eq, decide_eq_true_eq] at hdel
    rcases hdel with (h | h) | h
    · rw [h]; rfl
    · exact absurd (h ▸ List.mem_cons_self c0 r) hq
    · exact absurd (h ▸ List.mem_cons_self c0 r) hx

theorem urlsplitBody_inv (scheme url2 : Str) (s : SplitResult)
    (h : urlsplitBody scheme url2 = some s)
    (hallclean : ∀ c ∈ url2, isUnsafeUrlByte c = false) :
    s.scheme = scheme ∧
    (∀ c ∈ s.netloc, isNetlocDelim c = false) ∧
    ¬(('[' ∈ s.netloc ∧ ']' ∉ s.netloc) ∨ (']' ∈ s.netloc ∧ '[' ∉ s.netloc)) ∧
    '#' ∉ s.url ∧ '?' ∉ s.url ∧
    (∀ c ∈ s.url, isUnsafeUrlByte c = false) ∧
    (∀ c ∈ s.netloc, isUnsafeUrlByte c = false) ∧
    (s.netloc ≠ [] → (s.url = [] ∨ s.url.take 1 = ['/'])) ∧
    (url2.take 2 = ['/', '/'] → (s.url = [] ∨ s.url.take 1 = ['/'])) ∧
    (url2.take 2 ≠ ['/', '/'] → s.netloc = [] ∧ ∃ t, url2 = s.url ++ t ∧
      (∀ c, t.head? = some c → isSchemeChar c = false ∧ c ≠ ':')) ∧
    ((∀ c, url2.head? = some c → isC0ControlOrSpace c = false) →
      ∀ c, s.url.head? = some c → isC0ControlOrSpace c = false) := by
  rw [urlsplitBody] at h
  dsimp only at h
  by_cases hnet : url2.take 2 = ['/', '/']
  · rw [if_pos hnet, if_pos hnet] at h
    obtain ⟨U3, hU3⟩ : ∃ v, (url2.drop 2).dropWhile (fun c => !isNetlocDelim c) = v :=
      ⟨_, rfl⟩
    obtain ⟨NL, hNL⟩ : ∃ v, (url2.drop 2).takeWhile (fun c => !isNetlocDelim c) = v :=
      ⟨_, rfl⟩
    rw [hU3, hNL] at h
    have hNLd : ∀ c ∈ NL, isNetlocDelim c = false := by
      intro c hc
      rw [← hNL] at hc
      have := List.mem_takeWhile_imp hc
      rw [Bool.not_eq_true'] at this
      exact this
    have hNLu : ∀ c ∈ NL, isUnsafeUrlByte c = false := by
      intro c hc
      rw [← hNL] at hc
      exact hallclean c (List.drop_subset 2 url2
        ((List.takeWhile_prefix _).sublist.subset hc))
    have hU3u : ∀ c ∈ U3, isUnsafeUrlByte c = false := by
      intro c hc
      rw [← hU3] at hc
      exact hallclean c (List.drop_subset 2 url2
        ((List.dropWhile_sublist _).subset hc))
    have hU3h : ∀ c, U3.head? = some c → isNetlocDelim c = true := by
      intro c hc
      rw [← hU3] at hc
      have := head?_dropWhile_false _ _ c hc
      rw [Bool.not_eq_false'] at this
      exact this
    split at h
    · cases h
    · rename_i hbr
      rcases hfr : splitOnce '#' U3 with _ | ⟨fa, fb⟩ <;> rw [hfr] at h <;>
        dsimp only at h
      · rcases hqr : splitOnce '?' U3 with _ | ⟨qa, qb⟩ <;> rw [hqr] at h <;>
          dsimp only at h
        · rw [Option.some.injEq] at h
          subst h
          have hx : '#' ∉ U3 := splitOnce_none '#' _ hfr
          have hq : '?' ∉ U3 := splitOnce_none '?' _ hqr
          have hsl := s_url_slash U3 U3 [] (by simp) hx hq hU3h
          exact ⟨rfl, hNLd, hbr, hx, hq, hU3u, hNLu, fun _ => hsl, fun _ => hsl,
            fun hcon => absurd hnet hcon,
            fun _ c hc => by
              rcases hsl with hsl | hsl
              · rw [hsl] at hc; cases hc
              · rcases hU3e : U3 with _ | ⟨c0, r⟩
                · rw [hU3e] at hc; cases hc
                · rw [hU3e] at hsl hc
                  rw [List.head?_cons, Option.some.injEq] at hc
                  simp only [List.take_succ_cons, List.take_zero] at hsl
                  rw [List.cons.injEq] at hsl
                  rw [← hc, hsl.1]
                  rfl⟩
        · rw [Option.some.injEq] at h
          subst h
          obtain ⟨hU3eq, hq⟩ := splitOnce_eq '?' U3 qa qb hqr
          have hx : '#' ∉ U3 := splitOnce_none '#' _ hfr
          have hxa : '#' ∉ qa := fun hm => hx (by rw [hU3eq]; exact List.mem_append_left _ hm)
          have hsl := s_url_slash U3 qa ('?' :: qb) hU3eq hxa hq hU3h
          exact ⟨rfl, hNLd, hbr, hxa, hq, fun c hc => hU3u c (by
              rw [hU3eq]; exact List.mem_append_left _ hc), hNLu,
            fun _ => hsl, fun _ => hsl, fun hcon => absurd hnet hcon,
            fun _ c hc => by
              rcases hsl with hsl | hsl
              · rw [hsl] at hc; cases hc
              · rcases hqa : qa with _ | ⟨c0, r⟩
                · rw [hqa] at hc; cases hc
                · rw [hqa] at hsl hc
                  rw [List.head?_cons, Option.some.injEq] at hc
                  simp only [List.take_succ_cons, List.take_zero] at hsl
                  rw [List.cons.injEq] at hsl
                  rw [← hc, hsl.1]
                  rfl⟩
      · obtain ⟨hU3eq, hxfa⟩ := splitOnce_eq '#' U3 fa fb hfr
        rcases hqr : splitOnce '?' fa with _ | ⟨qa, qb⟩ <;> rw [hqr] at h <;>
          dsimp only at h
        · rw [Option.some.injEq] at h
          subst h
          have hq : '?' ∉ fa := splitOnce_none '?' _ hqr
          have hsl := s_url_slash U3 fa ('#' :: fb) hU3eq hxfa hq hU3h
          exact ⟨rfl, hNLd, hbr, hxfa, hq, fun c hc => hU3u c (by
              rw [hU3eq]; exact List.mem_append_left _ hc), hNLu,
            fun _ => hsl, fun _ => hsl, fun hcon => absurd hnet hcon,
            fun _ c hc => by
              rcases hsl with hsl | hsl
              · rw [hsl] at hc; cases hc
              · rcases hfa : fa with _ | ⟨c0, r⟩
                · rw [hfa] at hc; cases hc
                · rw [hfa] at hsl hc
                  rw [List.head?_cons, Option.some.injEq] at hc
                  simp only [List.take_succ_cons, List.take_zero] at hsl
                  rw [List.cons.injEq] at hsl
                  rw [← hc, hsl.1]
                  rfl⟩
        · rw [Option.some.injEq] at h
          subst h
          obtain ⟨hfaeq, hqqa⟩ := splitOnce_eq '?' fa qa qb hqr
          have hxa : '#' ∉ qa := fun hm => hxfa (by rw [hfaeq]; exact List.mem_append_left _ hm)
          have hdec : U3 = qa ++ ('?' :: qb ++ '#' :: fb) := by
            rw [hU3eq, hfaeq, List.append_assoc]
          have hsl := s_url_slash U3 qa _ hdec hxa hqqa hU3h
          exact ⟨rfl, hNLd, hbr, hxa, hqqa, fun c hc => hU3u c (by
              rw [hdec]; exact List.mem_append_left _ hc), hNLu,
            fun _ => hsl, fun _ => hsl, fun hcon => absurd hnet hcon,
            fun _ c hc => by
              rcases hsl with hsl | hsl
              · rw [hsl] at hc; cases hc
              · rcases hqa : qa with _ | ⟨c0, r⟩
                · rw [hqa] at hc; cases hc
                · rw [hqa] at hsl hc
                  rw [List.head?_cons, Option.some.injEq] at hc
                  simp only [List.take_succ_cons, List.take_zero] at hsl
                  rw [List.cons.injEq] at hsl
                  rw [← hc, hsl.1]
                  rfl⟩
  · rw [if_neg hnet, if_neg hnet, if_neg (by simp)] at h
    have hu2head : (∀ c, url2.head? = some c → isC0ControlOrSpace c = false) →
        ∀ (u t : Str), url2 = u ++ t → ∀ c, u.head? = some c →
        isC0ControlOrSpace c = false := by
      intro hhead u t hdec c hc
      rcases hu : u with _ | ⟨c0, r⟩
      · rw [hu] at hc; cases hc
      · rw [hu] at hc
        rw [List.head?_cons, Option.some.injEq] at hc
        apply hhead
        rw [hdec, hu, List.cons_append, List.head?_cons, hc]
    rcases hfr : splitOnce '#' url2 with _ | ⟨fa, fb⟩ <;> rw [hfr] at h <;>
      dsimp only at h
    · rcases hqr : splitOnce '?' url2 with _ | ⟨qa, qb⟩ <;> rw [hqr] at h <;>
        dsimp only at h
      · rw [Option.some.injEq] at h
        subst h
        have hx : '#' ∉ url2 := splitOnce_none '#' _ hfr
        have hq : '?' ∉ url2 := splitOnce_none '?' _ hqr
        exact ⟨rfl, by simp, by simp, hx, hq, hallclean, by simp,
          fun hcon => absurd rfl hcon, fun hcon => absurd hcon hnet,
          fun _ => ⟨rfl, [], by simp, by simp⟩,
          fun hh => hu2head hh url2 [] (by simp)⟩
      · rw [Option.some.injEq] at h
        subst h
        obtain ⟨hu2eq, hq⟩ := splitOnce_eq '?' url2 qa qb hqr
        have hx : '#' ∉ url2 := splitOnce_none '#' _ hfr
        have hxa : '#' ∉ qa := fun hm => hx (by rw [hu2eq]; exact List.mem_append_left _ hm)
        exact ⟨rfl, by simp, by simp, hxa, hq, fun c hc => hallclean c (by
            rw [hu2eq]; exact List.mem_append_left _ hc), by simp,
          fun hcon => absurd rfl hcon, fun hcon => absurd hcon hnet,
          fun _ => ⟨rfl, '?' :: qb, hu2eq,
            good_tail_of_qf _ (fun c hc => by
              rw [List.head?_cons, Option.some.injEq] at hc
              left; exact hc.symm)⟩,
          fun hh => hu2head hh qa ('?' :: qb) hu2eq⟩
    · obtain ⟨hu2eq, hxfa⟩ := splitOnce_eq '#' url2 fa fb hfr
      rcases hqr : splitOnce '?' fa with _ | ⟨qa, qb⟩ <;> rw [hqr] at h <;>
        dsimp only at h
      · rw [Option.some.injEq] at h
        subst h
        have hq : '?' ∉ fa := splitOnce_none '?' _ hqr
        exact ⟨rfl, by simp, by simp, hxfa, hq, fun c hc => hallclean c (by
            rw [hu2eq]; exact List.mem_append_left _ hc), by simp,
          fun hcon => absurd rfl hcon, fun hcon => absurd hcon hnet,
          fun _ => ⟨rfl, '#' :: fb, hu2eq,
            good_tail_of_qf _ (fun c hc => by
              rw [List.head?_cons, Option.some.injEq] at hc
              right; exact hc.symm)⟩,
          fun hh => hu2head hh fa ('#' :: fb) hu2eq⟩
      · rw [Option.some.injEq] at h
        subst h
        obtain ⟨hfaeq, hqqa⟩ := splitOnce_eq '?' fa qa qb hqr
        have hxa : '#' ∉ qa := fun hm => hxfa (by rw [hfaeq]; exact List.mem_append_left _ hm)
        have hdec : url2 = qa ++ ('?' :: qb ++ '#' :: fb) := by
          rw [hu2eq, hfaeq, List.append_assoc]
        exact ⟨rfl, by simp, by simp, hxa, hqqa, fun c hc => hallclean c (by
            rw [hdec]; exact List.mem_append_left _ hc), by simp,
          fun hcon => absurd rfl hcon, fun hcon => absurd hcon hnet,
          fun _ => ⟨rfl, '?' :: (qb ++ '#' :: fb), hdec,
            good_tail_of_qf _ (fun c hc => by
              rw [List.head?_cons, Option.some.injEq] at hc
              left; exact hc.symm)⟩,
          fun hh => hu2head hh qa _ hdec⟩


theorem splitSchemeOff_some_inv (z sc rest : Str)
    (h : splitSchemeOff z = some (sc, rest)) :
    sc ≠ [] ∧ (∀ c ∈ sc, isSchemeChar c = true) ∧ (sc.headD ' ').isAlpha = true ∧
    pyLower sc = sc ∧
    ∃ pre, z = pre ++ ':' :: rest ∧ sc = pyLower pre ∧
      (∀ c ∈ pre, isSchemeChar c = true) := by
  rw [splitSchemeOff, List.span_eq_take_drop] at h
  dsimp only at h
  rcases hdw : z.dropWhile isSchemeChar with _ | ⟨d, tl⟩ <;> rw [hdw] at h
  · cases h
  · dsimp only at h
    by_cases hcond : d = ':' ∧ z.takeWhile isSchemeChar ≠ [] ∧
        ((z.takeWhile isSchemeChar).headD ' ').isAlpha
    · rw [if_pos hcond] at h
      rw [Option.some.injEq, Prod.mk.injEq] at h
      obtain ⟨hsc, hrest⟩ := h
      obtain ⟨hd, hpre, halpha⟩ := hcond
      have hpresc : ∀ c ∈ z.takeWhile isSchemeChar, isSchemeChar c = true :=
        fun c hc => List.mem_takeWhile_imp hc
      refine ⟨?_, ?_, ?_, ?_, z.takeWhile isSchemeChar, ?_, hsc.symm, hpresc⟩
      · rw [← hsc]
        intro hn
        rw [pyLower, List.map_eq_nil_iff] at hn
        exact hpre hn
      · intro c hc
        rw [← hsc, pyLower, List.mem_map] at hc
        rcases hc with ⟨c0, hc0, he⟩
        rw [← he]
        exact isSchemeChar_pyLowerChar c0 (hpresc c0 hc0)
      · rw [← hsc]
        rcases htw : z.takeWhile isSchemeChar with _ | ⟨p0, pt⟩
        · exact absurd htw hpre
        · have halpha' : p0.isAlpha = true := by
            first
              | (rw [htw, List.headD_cons] at halpha; exact halpha)
              | simpa using halpha
          rw [show (pyLower (p0 :: pt) : Str) = pyLowerChar p0 :: pyLower pt from rfl,
            List.headD_cons]
          exact isAlpha_pyLowerChar p0 halpha'
      · rw [← hsc, pyLower_idem]
      · rw [← hrest, ← hd]
        rw [← hdw, List.takeWhile_append_dropWhile]
    · rw [if_neg hcond] at h
      cases h

theorem urlsplit_inv (u : Str) (s : SplitResult) (h : urlsplit u = some s) :
    (s.scheme = [] ∨ (s.scheme ≠ [] ∧ (∀ c ∈ s.scheme, isSchemeChar c = true) ∧
      (s.scheme.headD ' ').isAlpha = true ∧ pyLower s.scheme = s.scheme)) ∧
    (∀ c ∈ s.netloc, isNetlocDelim c = false) ∧
    ¬(('[' ∈ s.netloc ∧ ']' ∉ s.netloc) ∨ (']' ∈ s.netloc ∧ '[' ∉ s.netloc)) ∧
    '#' ∉ s.url ∧ '?' ∉ s.url ∧
    (∀ c ∈ s.url, isUnsafeUrlByte c = false) ∧
    (∀ c ∈ s.netloc, isUnsafeUrlByte c = false) ∧
    (∀ c ∈ s.scheme, isUnsafeUrlByte c = false) ∧
    (s.netloc ≠ [] → (s.url = [] ∨ s.url.take 1 = ['/'])) ∧
    (s.scheme = [] → ∀ x : Str,
      (∀ c, x.head? = some c → isSchemeChar c = false ∧ c ≠ ':') →
      splitSchemeOff (s.url ++ x) = none) ∧
    (s.scheme = [] → ∀ c, s.url.head? = some c → isC0ControlOrSpace c = false) := by
  have hbody : urlsplit u = match splitSchemeOff (cleanUrlInput u) with
      | some (sc, rest) => urlsplitBody sc rest
      | none => urlsplitBody [] (cleanUrlInput u) := by
    rcases hso : splitSchemeOff (cleanUrlInput u) with _ | ⟨sc, rest⟩
    · rw [urlsplit, hso]
      rfl
    · rw [urlsplit, hso]
      rfl
  have hu1clean : ∀ c ∈ cleanUrlInput u, isUnsafeUrlByte c = false :=
    fun c hc => mem_cleanUrlInput u c hc
  have hu1head : ∀ c, (cleanUrlInput u).head? = some c → isC0ControlOrSpace c = false :=
    fun c hc => cleanUrlInput_head u c hc
  rw [hbody] at h
  rcases hso : splitSchemeOff (cleanUrlInput u) with _ | ⟨sc, rest⟩ <;> rw [hso] at h
  · dsimp only at h
    obtain ⟨hscheme, hnd, hbr, hnox, hnoq, huns, hnlu, hsl, hnet2, hnonet, hhd⟩ :=
      urlsplitBody_inv [] (cleanUrlInput u) s h hu1clean
    refine ⟨Or.inl hscheme, hnd, hbr, hnox, hnoq, huns, hnlu, ?_, hsl, ?_, ?_⟩
    · intro c hc
      rw [hscheme] at hc
      cases hc
    · intro _ x hgood
      by_cases hnetc : (cleanUrlInput u).take 2 = ['/', '/']
      · rcases hnet2 hnetc with hu | hu
        · rw [hu, List.nil_append]
          exact splitSchemeOff_none_head x (fun c hc => (hgood c hc).1)
        · rcases hurl : s.url with _ | ⟨c0, r⟩
          · rw [List.nil_append]
            exact splitSchemeOff_none_head x (fun c hc => (hgood c hc).1)
          · have hc0 : c0 = '/' := by
              first
                | (rw [hurl] at hu; simpa using hu)
                | simpa using hu
            rw [List.cons_append, hc0]
            exact splitSchemeOff_none_head _ (fun c hc => by
              rw [List.head?_cons, Option.some.injEq] at hc
              rw [← hc]
              decide)
      · obtain ⟨_, t, hdec, hgt⟩ := hnonet hnetc
        rw [hdec] at hso
        exact splitSchemeOff_transfer s.url x t hgood hso
    · intro _
      exact hhd hu1head
  · dsimp only at h
    obtain ⟨hne, hmem, halpha, hlow, pre, hzeq, hscpre, hpresc⟩ :=
      splitSchemeOff_some_inv _ sc rest hso
    have hrestuns : ∀ c ∈ rest, isUnsafeUrlByte c = false := by
      intro c hc
      apply hu1clean
      rw [hzeq]
      exact List.mem_append_right _ (List.mem_cons_of_mem _ hc)
    obtain ⟨hscheme, hnd, hbr, hnox, hnoq, huns, hnlu, hsl, _, _, _⟩ :=
      urlsplitBody_inv sc rest s h hrestuns
    refine ⟨Or.inr ⟨?_, ?_, ?_, ?_⟩, hnd, hbr, hnox, hnoq, huns, hnlu, ?_, hsl, ?_, ?_⟩
    · rw [hscheme]; exact hne
    · rw [hscheme]; exact hmem
    · rw [hscheme]; exact halpha
    · rw [hscheme]; exact hlow
    · intro c hc
      rw [hscheme, hscpre, pyLower, List.mem_map] at hc
      rcases hc with ⟨c0, hc0, he⟩
      rw [← he, isUnsafeUrlByte_pyLowerChar]
      exact mem_cleanUrlInput u c0
        (by rw [hzeq]; exact List.mem_append_left _ hc0)
    · intro hcon
      rw [hscheme] at hcon
      exact absurd hcon hne
    · intro hcon
      rw [hscheme] at hcon
      exact absurd hcon hne


/-! ### Invariants of a successful `urlparse` -/

/-- Everything a successful `urlparse` guarantees about its result that the
idempotence argument needs. -/
structure ParseInv (p : ParseResult) : Prop where
  scheme_ok : p.scheme = [] ∨ (p.scheme ≠ [] ∧ (∀ c ∈ p.scheme, isSchemeChar c = true) ∧
    (p.scheme.headD ' ').isAlpha = true ∧ pyLower p.scheme = p.scheme)
  netloc_delim : ∀ c ∈ p.netloc, isNetlocDelim c = false
  brackets : ¬(('[' ∈ p.netloc ∧ ']' ∉ p.netloc) ∨ (']' ∈ p.netloc ∧ '[' ∉ p.netloc))
  path_decomp : ∃ D E, p.path = D ++ E ∧ (D = [] ∨ D.getLast? = some '/') ∧
    '/' ∉ E ∧ ';' ∉ E
  params_slash : '/' ∉ p.params
  path_hash : '#' ∉ p.path
  path_qmark : '?' ∉ p.path
  params_hash : '#' ∉ p.params
  params_qmark : '?' ∉ p.params
  netloc_path : p.netloc ≠ [] → ((p.path = [] ∧ p.params = []) ∨ p.path.take 1 = ['/'])
  no_scheme : p.scheme = [] → ∀ x : Str,
    (∀ c, x.head? = some c → isSchemeChar c = false ∧ c ≠ ':') →
    splitSchemeOff (ppJoin p.path p.params ++ x) = none
  path_clean : ∀ c ∈ p.path, isUnsafeUrlByte c = false
  params_clean : ∀ c ∈ p.params, isUnsafeUrlByte c = false
  netloc_clean : ∀ c ∈ p.netloc, isUnsafeUrlByte c = false
  scheme_clean : ∀ c ∈ p.scheme, isUnsafeUrlByte c = false
  head_c0 : p.scheme = [] → ∀ c, (ppJoin p.path p.params).head? = some c →
    isC0ControlOrSpace c = false

theorem urlparse_inv (u : Str) (p : ParseResult) (h : urlparse u = some p) :
    ParseInv p := by
  rw [urlparse] at h
  rcases hus : urlsplit u with _ | s <;> rw [hus] at h
  · cases h
  · dsimp only at h
    rw [Option.some.injEq] at h
    obtain ⟨hsch, hnd, hbr, hnox, hnoq, huns, hnlu, hscu, hsl, htr, hhd⟩ :=
      urlsplit_inv u s hus
    obtain ⟨⟨D, E, hDE, hD, hE1, hE2⟩, hps, ⟨y, hydec, hysemi⟩, hpmem⟩ :=
      splitparams_shape s.url
    have hpathmem : ∀ c ∈ (splitparams s.url).1, c ∈ s.url := by
      intro c hc
      rw [hydec]
      exact List.mem_append_left _ hc
    subst h
    refine ⟨hsch, hnd, hbr, ⟨D, E, hDE, hD, hE1, hE2⟩, hps, ?_, ?_, ?_, ?_, ?_, ?_,
      ?_, ?_, hnlu, hscu, ?_⟩
    · exact fun hm => hnox (hpathmem _ hm)
    · exact fun hm => hnoq (hpathmem _ hm)
    · exact fun hm => hnox (hpmem _ hm)
    · exact fun hm => hnoq (hpmem _ hm)
    · intro hnl
      rcases hsl hnl with hu | hu
      · left
        rw [hu] at hydec hpmem ⊢
        constructor
        · rcases List.append_eq_nil.mp hydec.symm with ⟨h1, _⟩
          exact h1
        · rcases hpp : (splitparams ([] : Str)).2 with _ | ⟨c0, r⟩
          · rfl
          · have : c0 ∈ ([] : Str) := hpmem c0 (by rw [hpp]; exact List.mem_cons_self ..)
            cases this
      · right
        rcases hpath : (splitparams s.url).1 with _ | ⟨c0, r⟩
        · exfalso
          rw [hpath, List.nil_append] at hydec
          rcases hysemi with hy | ⟨b, hy⟩
          · rw [hy] at hydec
            rw [hydec] at hu
            simp at hu
          · rw [hy] at hydec
            rw [hydec] at hu
            simp only [List.take_succ_cons, List.take_zero] at hu
            rw [List.cons.injEq] at hu
            exact absurd hu.1 (by decide)
        · rw [hpath] at hydec
          rcases hsu : s.url with _ | ⟨c1, r1⟩
          · rw [hsu] at hu
            cases hu
          · rw [hsu] at hydec hu
            rw [List.cons_append] at hydec
            rw [List.cons.injEq] at hydec
            simp only [List.take_succ_cons, List.take_zero] at hu ⊢
            rw [List.cons.injEq] at hu
            rw [List.cons.injEq]
            exact ⟨hydec.1.symm.trans hu.1, rfl⟩
    · intro hs0 x hgood
      have hinst : splitSchemeOff ((splitparams s.url).1 ++ y) = none := by
        rw [← hydec]
        have := htr hs0 [] (by intro c hc; cases hc)
        rw [List.append_nil] at this
        exact this
      by_cases hpar : (splitparams s.url).2 = []
      · rw [ppJoin, if_neg (by simpa using hpar)]
        exact splitSchemeOff_transfer _ x y hgood hinst
      · rw [ppJoin, if_pos hpar, List.append_assoc]
        apply splitSchemeOff_transfer _ _ y _ hinst
        intro c hc
        rw [List.cons_append, List.head?_cons, Option.some.injEq] at hc
        rw [← hc]
        exact ⟨by decide, by decide⟩
    · exact fun c hc => huns c (hpathmem c hc)
    · exact fun c hc => huns c (hpmem c hc)
    · intro hs0 c hc
      rcases hpath : (splitparams s.url).1 with _ | ⟨c0, r⟩
      · rw [ppJoin, hpath] at hc
        by_cases hpar : (splitparams s.url).2 = []
        · rw [if_neg (by simpa using hpar)] at hc
          cases hc
        · rw [if_pos hpar, List.nil_append, List.head?_cons,
            Option.some.injEq] at hc
          rw [← hc]
          rfl
      · have hc0 : c = c0 := by
          rw [ppJoin, hpath] at hc
          by_cases hpar : (splitparams s.url).2 = []
          · rw [if_neg (by simpa using hpar)] at hc
            rw [List.head?_cons, Option.some.injEq] at hc
            exact hc.symm
          · rw [if_pos hpar, List.cons_append, List.head?_cons,
              Option.some.injEq] at hc
            exact hc.symm
        apply hhd hs0
        rw [hydec, hpath, List.cons_append, List.head?_cons, hc0]


/-! ### Character classes of the rebuilt query -/

theorem intercalate_mem (sep : Char) (chunks : List Str) :
    ∀ c ∈ List.intercalate [sep] chunks, c = sep ∨ ∃ ch ∈ chunks, c ∈ ch := by
  induction chunks with
  | nil =>
    intro c hc
    rw [show List.intercalate [sep] ([] : List Str) = [] from rfl] at hc
    cases hc
  | cons x rest ih =>
    cases rest with
    | nil =>
      intro c hc
      rw [intercalate_one] at hc
      exact Or.inr ⟨x, List.mem_cons_self .., hc⟩
    | cons y zs =>
      intro c hc
      rw [intercalate_two, List.append_assoc, List.mem_append] at hc
      rcases hc with hc | hc
      · exact Or.inr ⟨x, List.mem_cons_self .., hc⟩
      · rw [List.mem_append] at hc
        rcases hc with hc | hc
        · rw [List.mem_singleton] at hc
          exact Or.inl hc
        · rcases ih c hc with h | ⟨ch, hch, hcc⟩
          · exact Or.inl h
          · exact Or.inr ⟨ch, List.mem_cons_of_mem x hch, hcc⟩

theorem urlencodeSeq_mem (d : List (Str × List Str)) : ∀ c ∈ urlencodeSeq d,
    alwaysSafeByte c.toNat = true ∨ c = '+' ∨ c = '%' ∨ isHexDigitChar c = true ∨
    c = '=' ∨ c = '&' := by
  intro c hc
  rw [urlencodeSeq_eq] at hc
  rcases intercalate_mem '&' _ c hc with h | ⟨ch, hch, hcc⟩
  · right; right; right; right; right; exact h
  · rw [List.mem_map] at hch
    rcases hch with ⟨pr, _, he⟩
    rw [← he, encPair, List.mem_append] at hcc
    rcases hcc with hm | hm
    · rcases quotePlus_mem _ c hm with h | h | h | h
      · left; exact h
      · right; left; exact h
      · right; right; left; exact h
      · right; right; right; left; exact h
    · rw [List.mem_cons] at hm
      rcases hm with hm | hm
      · right; right; right; right; left; exact hm
      · rcases quotePlus_mem _ c hm with h | h | h | h
        · left; exact h
        · right; left; exact h
        · right; right; left; exact h
        · right; right; right; left; exact h

theorem newQuery_mem (q : Str) : ∀ c ∈ newQuery q,
    alwaysSafeByte c.toNat = true ∨ c = '+' ∨ c = '%' ∨ isHexDigitChar c = true ∨
    c = '=' ∨ c = '&' := by
  intro c hc
  rw [newQuery] at hc
  split at hc
  · exact urlencodeSeq_mem _ c hc
  · cases hc

theorem newQuery_no_hash (q : Str) : '#' ∉ newQuery q := by
  intro hm
  rcases newQuery_mem q '#' hm with h | h | h | h | h | h <;>
    exact absurd h (by decide)

theorem newQuery_clean (q : Str) : ∀ c ∈ newQuery q, isUnsafeUrlByte c = false := by
  intro c hc
  have hmem := newQuery_mem q c hc
  rw [isUnsafeUrlByte]
  simp only [Bool.or_eq_false_iff, decide_eq_false_iff_not]
  refine ⟨⟨?_, ?_⟩, ?_⟩ <;>
    (intro he; rw [he] at hmem;
     rcases hmem with h | h | h | h | h | h <;> exact absurd h (by decide))


/-! ### Small facts about `ppJoin` and list prefixes -/

theorem ppJoin_take2 (path params : Str) (h : path.take 2 ≠ ['/', '/']) :
    (ppJoin path params).take 2 ≠ ['/', '/'] := by
  rw [ppJoin]
  by_cases hp : params = []
  · rw [if_neg (by simpa using hp)]
    exact h
  · rw [if_pos hp]
    rcases path with _ | ⟨c, t⟩
    · rw [List.nil_append]
      intro he
      simp only [List.take_succ_cons, List.take_zero] at he
      rw [List.cons.injEq] at he
      exact absurd he.1 (by decide)
    · rcases t with _ | ⟨c2, t2⟩
      · intro he
        rw [show (([c] : Str) ++ ';' :: params) = c :: ';' :: params from rfl] at he
        simp only [List.take_succ_cons, List.take_zero] at he
        rw [List.cons.injEq] at he
        rw [List.cons.injEq] at he
        exact absurd he.2.1 (by decide)
      · intro he
        apply h
        rw [show ((c :: c2 :: t2 : Str) ++ ';' :: params) =
          c :: c2 :: (t2 ++ ';' :: params) from rfl] at he
        simp only [List.take_succ_cons, List.take_zero] at he ⊢
        rw [List.cons.injEq] at he ⊢
        rw [List.cons.injEq] at he ⊢
        exact ⟨he.1, he.2.1, rfl⟩

theorem take2_append_q (PP q' : Str) (h : PP.take 2 ≠ ['/', '/']) :
    (PP ++ (if q' = [] then [] else '?' :: q')).take 2 ≠ ['/', '/'] := by
  by_cases hq : q' = []
  · rw [if_pos hq, List.append_nil]
    exact h
  · rw [if_neg hq]
    rcases PP with _ | ⟨c, t⟩
    · rw [List.nil_append]
      intro he
      simp only [List.take_succ_cons, List.take_zero] at he
      rw [List.cons.injEq] at he
      exact absurd he.1 (by decide)
    · rcases t with _ | ⟨c2, t2⟩
      · intro he
        rw [show (([c] : Str) ++ '?' :: q') = c :: '?' :: q' from rfl] at he
        simp only [List.take_succ_cons, List.take_zero] at he
        rw [List.cons.injEq] at he
        rw [List.cons.injEq] at he
        exact absurd he.2.1 (by decide)
      · intro he
        apply h
        rw [show ((c :: c2 :: t2 : Str) ++ '?' :: q') =
          c :: c2 :: (t2 ++ '?' :: q') from rfl] at he
        simp only [List.take_succ_cons, List.take_zero] at he ⊢
        rw [List.cons.injEq] at he ⊢
        rw [List.cons.injEq] at he ⊢
        exact ⟨he.1, he.2.1, rfl⟩

theorem ppJoin_eq_nil_iff (path params : Str) :
    ppJoin path params = [] ↔ path = [] ∧ params = [] := by
  rw [ppJoin]
  by_cases hp : params = []
  · rw [if_neg (by simpa using hp)]
    constructor
    · exact fun h => ⟨h, hp⟩
    · exact fun h => h.1
  · rw [if_pos hp]
    constructor
    · intro h
      rcases List.append_eq_nil.mp h with ⟨_, h2⟩
      cases h2
    · intro h
      exact absurd h.2 hp

theorem ppJoin_take1 (path params : Str) (h : path.take 1 = ['/']) :
    (ppJoin path params).take 1 = ['/'] := by
  rcases path with _ | ⟨c, t⟩
  · cases h
  · simp only [List.take_succ_cons, List.take_zero] at h
    rw [List.cons.injEq] at h
    rw [ppJoin]
    by_cases hp : params = []
    · rw [if_neg (by simpa using hp)]
      simp [h.1]
    · rw [if_pos hp, List.cons_append]
      simp [h.1]

theorem ppJoin_head_semi (path params : Str) (hpath : path = [])
    (hpar : params ≠ []) : ppJoin path params = ';' :: params := by
  rw [ppJoin, if_pos hpar, hpath, List.nil_append]

theorem getLast?_cons_slash (D : Str) (h : D = [] ∨ D.getLast? = some '/') :
    ('/' :: D : Str).getLast? = some '/' := by
  rcases h with h | h
  · rw [h]
    rfl
  · rw [← List.head?_reverse] at h
    rw [← List.head?_reverse]
    rw [show (('/' :: D : Str)).reverse = D.reverse ++ ['/'] from by simp]
    rcases hr : D.reverse with _ | ⟨c, t⟩
    · rw [hr] at h
      cases h
    · rw [hr] at h
      rw [List.cons_append, List.head?_cons]
      rw [List.head?_cons] at h
      exact h

theorem unsafe_append (a b : Str) (ha : ∀ c ∈ a, isUnsafeUrlByte c = false)
    (hb : ∀ c ∈ b, isUnsafeUrlByte c = false) :
    ∀ c ∈ a ++ b, isUnsafeUrlByte c = false := by
  intro c hc
  rw [List.mem_append] at hc
  rcases hc with hc | hc
  · exact ha c hc
  · exact hb c hc

theorem unsafe_cons (x : Char) (a : Str) (hx : isUnsafeUrlByte x = false)
    (ha : ∀ c ∈ a, isUnsafeUrlByte c = false) :
    ∀ c ∈ x :: a, isUnsafeUrlByte c = false := by
  intro c hc
  rw [List.mem_cons] at hc
  rcases hc with hc | hc
  · rw [hc]; exact hx
  · exact ha c hc

theorem ppJoin_clean (path params : Str)
    (hp : ∀ c ∈ path, isUnsafeUrlByte c = false)
    (hq : ∀ c ∈ params, isUnsafeUrlByte c = false) :
    ∀ c ∈ ppJoin path params, isUnsafeUrlByte c = false := by
  rw [ppJoin]
  by_cases hpar : params = []
  · rw [if_neg (by simpa using hpar)]
    exact hp
  · rw [if_pos hpar]
    exact unsafe_append _ _ hp (unsafe_cons ';' _ (by decide) hq)

theorem alpha_not_c0 (c : Char) (h : c.isAlpha = true) :
    isC0ControlOrSpace c = false := by
  rw [isAlpha_iff] at h
  rw [isC0ControlOrSpace, decide_eq_false_iff_not]
  omega

theorem qpart_good_head (q' : Str) :
    ∀ c, (if q' = [] then ([] : Str) else '?' :: q').head? = some c →
      isSchemeChar c = false ∧ c ≠ ':' := by
  intro c hc
  by_cases hq : q' = []
  · rw [if_pos hq] at hc
    cases hc
  · rw [if_neg hq, List.head?_cons, Option.some.injEq] at hc
    rw [← hc]
    exact ⟨by decide, by decide⟩


/-! ### Evaluating `urlunparse` on the normalizer's output record -/

theorem urlunparse_fields (s0 nl path params q f : Str) :
    urlunparse ⟨s0, nl, path, params, q, f⟩ =
      urlunsplit s0 nl (ppJoin path params) q f := rfl

theorem urlunsplit_no_frag (s0 nl url q : Str) :
    urlunsplit s0 nl url q [] =
      (if s0 ≠ [] then s0 ++ ':' ::
        (if nl ≠ [] ∨ (s0 ≠ [] ∧ s0 ∈ usesNetloc ∧ url.take 2 ≠ ['/', '/']) then
          '/' :: '/' :: (nl ++ (if url ≠ [] ∧ url.take 1 ≠ ['/'] then '/' :: url else url))
         else url)
       else
        (if nl ≠ [] ∨ (s0 ≠ [] ∧ s0 ∈ usesNetloc ∧ url.take 2 ≠ ['/', '/']) then
          '/' :: '/' :: (nl ++ (if url ≠ [] ∧ url.take 1 ≠ ['/'] then '/' :: url else url))
         else url)) ++
      (if q = [] then [] else '?' :: q) := by
  rw [urlunsplit]
  rw [if_neg (show ¬(([] : Str) ≠ []) from by simp)]
  by_cases hq : q = []
  · rw [if_neg (by simpa using hq), if_pos hq, List.append_nil]
  · rw [if_pos hq, if_neg hq]

theorem u1_eval_netloc (s0 nl PPv : Str) (hnl : nl ≠ [])
    (hPP : PPv = [] ∨ PPv.take 1 = ['/']) :
    (if nl ≠ [] ∨ (s0 ≠ [] ∧ s0 ∈ usesNetloc ∧ PPv.take 2 ≠ ['/', '/']) then
      '/' :: '/' :: (nl ++ (if PPv ≠ [] ∧ PPv.take 1 ≠ ['/'] then '/' :: PPv else PPv))
     else PPv) = '/' :: '/' :: (nl ++ PPv) := by
  rw [if_pos (Or.inl hnl)]
  rcases hPP with h | h
  · rw [if_neg (fun hcond => hcond.1 h)]
  · rw [if_neg (fun hcond => hcond.2 h)]

theorem u1_eval_C (s0 PPv : Str)
    (hnot : ¬(s0 ≠ [] ∧ s0 ∈ usesNetloc ∧ PPv.take 2 ≠ ['/', '/'])) :
    (if ([] : Str) ≠ [] ∨ (s0 ≠ [] ∧ s0 ∈ usesNetloc ∧ PPv.take 2 ≠ ['/', '/']) then
      '/' :: '/' :: (([] : Str) ++ (if PPv ≠ [] ∧ PPv.take 1 ≠ ['/'] then '/' :: PPv else PPv))
     else PPv) = PPv := by
  rw [if_neg]
  intro hcond
  rcases hcond with h | h
  · simp at h
  · exact hnot h

theorem qpart_clean (q' : Str) (h : ∀ c ∈ q', isUnsafeUrlByte c = false) :
    ∀ c ∈ (if q' = [] then ([] : Str) else '?' :: q'), isUnsafeUrlByte c = false := by
  by_cases hq : q' = []
  · rw [if_pos hq]
    intro c hc
    cases hc
  · rw [if_neg hq]
    exact unsafe_cons '?' q' (by decide) h

theorem unsafe_of_schemeChar (c : Char) (h : isSchemeChar c = true) :
    isUnsafeUrlByte c = false := by
  rw [isSchemeChar_iff] at h
  rw [isUnsafeUrlByte]
  simp only [Bool.or_eq_false_iff, decide_eq_false_iff_not, char_eq_iff,
    show ('\t' : Char).toNat = 9 from rfl, show ('\r' : Char).toNat = 13 from rfl,
    show ('\n' : Char).toNat = 10 from rfl]
  omega

theorem scheme_head_not_c0 (s0 rest : Str) (h0 : s0 ≠ [])
    (hal : (s0.headD ' ').isAlpha = true) :
    ∀ c, (s0 ++ ':' :: rest).head? = some c → isC0ControlOrSpace c = false := by
  intro c hc
  rcases hs : s0 with _ | ⟨c0, t⟩
  · exact absurd hs h0
  · rw [hs, List.cons_append, List.head?_cons, Option.some.injEq] at hc
    rw [hs, List.headD_cons] at hal
    rw [← hc]
    exact alpha_not_c0 c0 hal

theorem normalize_fixed_point (r : Str) (p' : ParseResult)
    (hrne : r ≠ []) (hparse : urlparse r = some p')
    (hrebuild : urlunparse ⟨p'.scheme, pyLower p'.netloc, p'.path, p'.params,
      newQuery p'.query, []⟩ = r) :
    normalize_url r = r := by
  have h1 : normalize_url r = urlunparse ⟨p'.scheme, pyLower p'.netloc, p'.path,
      p'.params, newQuery p'.query, []⟩ := by
    rw [normalize_url, if_neg hrne, hparse]
    rfl
  rw [h1, hrebuild]

theorem urlparse_of_split (r : Str) (s : SplitResult) (h : urlsplit r = some s) :
    urlparse r = some ⟨s.scheme, s.netloc, (splitparams s.url).1,
      (splitparams s.url).2, s.query, s.fragment⟩ := by
  rw [urlparse, h]


/-! ### The rebuilt URL is a fixed point of `normalize_url` -/

theorem normalize_rebuild (p : ParseResult) (hinv : ParseInv p)
    (H : p.netloc ≠ [] ∨ p.path.take 2 ≠ ['/', '/']) :
    normalize_url (urlunparse ⟨p.scheme, pyLower p.netloc, p.path, p.params,
      newQuery p.query, []⟩) =
    urlunparse ⟨p.scheme, pyLower p.netloc, p.path, p.params,
      newQuery p.query, []⟩ := by
  obtain ⟨L, hL⟩ : ∃ L, pyLower p.netloc = L := ⟨_, rfl⟩
  obtain ⟨q', hq'⟩ : ∃ v, newQuery p.query = v := ⟨_, rfl⟩
  obtain ⟨PP, hPP⟩ : ∃ v, ppJoin p.path p.params = v := ⟨_, rfl⟩
  obtain ⟨D, E, hDE, hD, hE1, hE2⟩ := hinv.path_decomp
  have hsplitPP : splitparams PP = (p.path, p.params) := by
    rw [← hPP, hDE]
    exact splitparams_concat D E p.params hD hE1 hE2 hinv.params_slash
  have hppm : ∀ t : Char, t ∉ p.path → t ∉ p.params → t ≠ ';' → t ∉ PP := by
    intro t h1 h2 h3 hm
    rw [← hPP, ppJoin] at hm
    by_cases hpar : p.params = []
    · rw [if_neg (by simpa using hpar)] at hm
      exact h1 hm
    · rw [if_pos hpar, List.mem_append] at hm
      rcases hm with hm | hm
      · exact h1 hm
      · rw [List.mem_cons] at hm
        rcases hm with hm | hm
        · exact h3 hm
        · exact h2 hm
  have hPPq : '?' ∉ PP := hppm '?' hinv.path_qmark hinv.params_qmark (by decide)
  have hPPh : '#' ∉ PP := hppm '#' hinv.path_hash hinv.params_hash (by decide)
  have hPPu : ∀ c ∈ PP, isUnsafeUrlByte c = false := by
    rw [← hPP]
    exact ppJoin_clean _ _ hinv.path_clean hinv.params_clean
  have hq'h : '#' ∉ q' := by
    rw [← hq']
    exact newQuery_no_hash _
  have hq'u : ∀ c ∈ q', isUnsafeUrlByte c = false := by
    rw [← hq']
    exact newQuery_clean _
  have hq'idem : newQuery q' = q' := by
    rw [← hq']
    exact newQuery_idem _
  have hLidem : pyLower L = L := by
    rw [← hL]
    exact pyLower_idem _
  have hLd : ∀ c ∈ L, isNetlocDelim c = false := by
    intro c hc
    rw [← hL, pyLower, List.mem_map] at hc
    rcases hc with ⟨c0, hc0, he⟩
    rw [← he, isNetlocDelim_pyLowerChar]
    exact hinv.netloc_delim c0 hc0
  have hLu : ∀ c ∈ L, isUnsafeUrlByte c = false := by
    intro c hc
    rw [← hL, pyLower, List.mem_map] at hc
    rcases hc with ⟨c0, hc0, he⟩
    rw [← he, isUnsafeUrlByte_pyLowerChar]
    exact hinv.netloc_clean c0 hc0
  have hLbr : ¬(('[' ∈ L ∧ ']' ∉ L) ∨ (']' ∈ L ∧ '[' ∉ L)) := by
    rw [← hL]
    intro habs
    apply hinv.brackets
    rcases habs with ⟨h1, h2⟩ | ⟨h1, h2⟩
    · exact Or.inl ⟨(mem_pyLower_iff '[' _ (by decide) (by decide)).mp h1,
        fun hm => h2 ((mem_pyLower_iff ']' _ (by decide) (by decide)).mpr hm)⟩
    · exact Or.inr ⟨(mem_pyLower_iff ']' _ (by decide) (by decide)).mp h1,
        fun hm => h2 ((mem_pyLower_iff '[' _ (by decide) (by decide)).mpr hm)⟩
  have hqpu : ∀ c ∈ (if q' = [] then ([] : Str) else '?' :: q'),
      isUnsafeUrlByte c = false := qpart_clean q' hq'u
  rw [hL, hq', urlunparse_fields, hPP, urlunsplit_no_frag]
  by_cases hnl : p.netloc = []
  · -- no netloc: the `//`-insert or plain cases
    have hLnil : L = [] := by
      rw [← hL, hnl]
      rfl
    have hP2 : p.path.take 2 ≠ ['/', '/'] := by
      rcases H with H | H
      · exact absurd hnl H
      · exact H
    have hPP2 : PP.take 2 ≠ ['/', '/'] := by
      rw [← hPP]
      exact ppJoin_take2 _ _ hP2
    subst hLnil
    by_cases hins : p.scheme ≠ [] ∧ p.scheme ∈ usesNetloc
    · -- case B: `//` inserted due to the scheme
      obtain ⟨hs0ne, hs0uses⟩ := hins
      rcases hinv.scheme_ok with hs0 | ⟨_, hs0sc, hs0al, hs0low⟩
      · exact absurd hs0 hs0ne
      rw [if_pos hs0ne, if_pos (Or.inr ⟨hs0ne, hs0uses, hPP2⟩)]
      have hclean : ∀ PPv : Str, (∀ c ∈ PPv, isUnsafeUrlByte c = false) →
          cleanUrlInput (p.scheme ++ ':' ::
            ('/' :: '/' :: (([] : Str) ++ (PPv ++ (if q' = [] then [] else '?' :: q'))))) =
          p.scheme ++ ':' ::
            ('/' :: '/' :: (([] : Str) ++ (PPv ++ (if q' = [] then [] else '?' :: q')))) := by
        intro PPv hPPvu
        apply cleanUrlInput_noop
        · exact scheme_head_not_c0 _ _ hs0ne hs0al
        · exact unsafe_append _ _ hinv.scheme_clean (unsafe_cons ':' _ (by decide)
            (unsafe_cons '/' _ (by decide) (unsafe_cons '/' _ (by decide)
              (unsafe_append _ _ (by intro c hc; cases hc)
                (unsafe_append _ _ hPPvu hqpu)))))
      by_cases hPPnil : PP = []
      · -- B1: empty path part
        subst hPPnil
        rw [if_neg (fun hcond => hcond.1 rfl)]
        rw [show ((p.scheme ++ ':' :: ('/' :: '/' :: (([] : Str) ++ ([] : Str))) : Str) ++
            (if q' = [] then [] else '?' :: q')) =
          p.scheme ++ ':' ::
            ('/' :: '/' :: (([] : Str) ++ (([] : Str) ++ (if q' = [] then [] else '?' :: q'))))
          from by simp]
        obtain ⟨hpnil, hparnil⟩ := (ppJoin_eq_nil_iff p.path p.params).mp hPP
        apply normalize_fixed_point _ ⟨p.scheme, [], p.path, p.params, q', []⟩
        · simp [hs0ne]
        · have hsplit : urlsplit (p.scheme ++ ':' ::
              ('/' :: '/' :: (([] : Str) ++ (([] : Str) ++ (if q' = [] then [] else '?' :: q'))))) =
              some ⟨p.scheme, [], [], q', []⟩ := by
            rw [urlsplit_scheme _ _ hs0ne hs0sc hs0al (hclean [] (by intro c hc; cases hc)),
              hs0low]
            exact urlsplitBody_netloc p.scheme [] [] q' (by intro c hc; cases hc)
              (by simp) (Or.inl rfl) (by simp) (by simp) hq'h
          rw [urlparse_of_split _ _ hsplit]
          rw [show splitparams ([] : Str) = ([], []) from rfl]
          rw [hpnil, hparnil]
        · dsimp only
          rw [show pyLower ([] : Str) = [] from rfl, hq'idem, urlunparse_fields, hPP,
            urlunsplit_no_frag, if_pos hs0ne, if_pos (Or.inr ⟨hs0ne, hs0uses, hPP2⟩),
            if_neg (fun hcond => hcond.1 rfl)]
          simp
      · by_cases hPPsl : PP.take 1 = ['/']
        · -- B2: path part already starts with a slash
          rw [if_neg (fun hcond => hcond.2 hPPsl)]
          rw [show ((p.scheme ++ ':' :: ('/' :: '/' :: (([] : Str) ++ PP)) : Str) ++
              (if q' = [] then [] else '?' :: q')) =
            p.scheme ++ ':' ::
              ('/' :: '/' :: (([] : Str) ++ (PP ++ (if q' = [] then [] else '?' :: q'))))
            from by simp]
          apply normalize_fixed_point _ ⟨p.scheme, [], p.path, p.params, q', []⟩
          · simp [hs0ne]
          · have hsplit : urlsplit (p.scheme ++ ':' ::
                ('/' :: '/' :: (([] : Str) ++ (PP ++ (if q' = [] then [] else '?' :: q'))))) =
                some ⟨p.scheme, [], PP, q', []⟩ := by
              rw [urlsplit_scheme _ _ hs0ne hs0sc hs0al (hclean PP hPPu), hs0low]
              exact urlsplitBody_netloc p.scheme [] PP q' (by intro c hc; cases hc)
                (by simp) (Or.inr hPPsl) hPPq hPPh hq'h
            rw [urlparse_of_split _ _ hsplit, hsplitPP]
          · dsimp only
            rw [show pyLower ([] : Str) = [] from rfl, hq'idem, urlunparse_fields, hPP,
              urlunsplit_no_frag, if_pos hs0ne, if_pos (Or.inr ⟨hs0ne, hs0uses, hPP2⟩),
              if_neg (fun hcond => hcond.2 hPPsl)]
            simp
        · -- B3: a slash is inserted in front of the path part
          rw [if_pos ⟨hPPnil, hPPsl⟩]
          rw [show ((p.scheme ++ ':' :: ('/' :: '/' :: (([] : Str) ++ '/' :: PP)) : Str) ++
              (if q' = [] then [] else '?' :: q')) =
            p.scheme ++ ':' ::
              ('/' :: '/' :: (([] : Str) ++ (('/' :: PP) ++ (if q' = [] then [] else '?' :: q'))))
            from by simp]
          have hczs : ('/' :: PP : Str) = ppJoin ('/' :: p.path) p.params := by
            rw [← hPP, ppJoin, ppJoin]
            by_cases hpar : p.params = []
            · rw [if_neg (by simpa using hpar), if_neg (by simpa using hpar)]
            · rw [if_pos hpar, if_pos hpar, List.cons_append]
          have hsplitPP2 : splitparams ('/' :: PP) = ('/' :: p.path, p.params) := by
            rw [hczs, show ('/' :: p.path : Str) = ('/' :: D) ++ E from by
              rw [hDE, List.cons_append]]
            exact splitparams_concat ('/' :: D) E p.params
              (Or.inr (getLast?_cons_slash D hD)) hE1 hE2 hinv.params_slash
          have h2cons : ('/' :: PP : Str).take 2 ≠ ['/', '/'] := by
            rcases hPPe : PP with _ | ⟨c, t⟩
            · exact absurd hPPe hPPnil
            · intro he
              simp only [List.take_succ_cons, List.take_zero] at he
              rw [List.cons.injEq, List.cons.injEq] at he
              apply hPPsl
              rw [hPPe]
              simp [he.2.1]
          apply normalize_fixed_point _ ⟨p.scheme, [], '/' :: p.path, p.params, q', []⟩
          · simp [hs0ne]
          · have hsplit : urlsplit (p.scheme ++ ':' ::
                ('/' :: '/' :: (([] : Str) ++ (('/' :: PP) ++ (if q' = [] then [] else '?' :: q'))))) =
                some ⟨p.scheme, [], '/' :: PP, q', []⟩ := by
              rw [urlsplit_scheme _ _ hs0ne hs0sc hs0al
                (hclean ('/' :: PP) (unsafe_cons '/' _ (by decide) hPPu)), hs0low]
              exact urlsplitBody_netloc p.scheme [] ('/' :: PP) q'
                (by intro c hc; cases hc) (by simp) (Or.inr rfl)
                (by
                  intro hm
                  rw [List.mem_cons] at hm
                  rcases hm with hm | hm
                  · exact absurd hm (by decide)
                  · exact hPPq hm)
                (by
                  intro hm
                  rw [List.mem_cons] at hm
                  rcases hm with hm | hm
                  · exact absurd hm (by decide)
                  · exact hPPh hm) hq'h
            rw [urlparse_of_split _ _ hsplit, hsplitPP2]
          · dsimp only
            rw [show pyLower ([] : Str) = [] from rfl, hq'idem, urlunparse_fields,
              ← hczs, urlunsplit_no_frag, if_pos hs0ne,
              if_pos (Or.inr ⟨hs0ne, hs0uses, h2cons⟩),
              if_neg (fun hcond => hcond.2 rfl)]
            simp
    · -- case C: no `//` is inserted
      rw [u1_eval_C p.scheme PP (fun hcond => hins ⟨hcond.1, hcond.2.1⟩)]
      by_cases hs0 : p.scheme = []
      · -- C2: no scheme either
        rw [if_neg (by simpa using hs0)]
        by_cases hrnil : (PP ++ (if q' = [] then [] else '?' :: q') : Str) = []
        · rw [hrnil]
          rfl
        · apply normalize_fixed_point _ ⟨[], [], p.path, p.params, q', []⟩
          · exact hrnil
          · have hclean : cleanUrlInput (PP ++ (if q' = [] then [] else '?' :: q')) =
                PP ++ (if q' = [] then [] else '?' :: q') := by
              apply cleanUrlInput_noop
              · intro c hc
                rcases hPPe : PP with _ | ⟨c0, t⟩
                · rw [hPPe, List.nil_append] at hc
                  by_cases hqn : q' = []
                  · rw [if_pos hqn] at hc
                    cases hc
                  · rw [if_neg hqn, List.head?_cons, Option.some.injEq] at hc
                    rw [← hc]
                    rfl
                · rw [hPPe, List.cons_append, List.head?_cons, Option.some.injEq] at hc
                  rw [← hc]
                  exact hinv.head_c0 hs0 c0 (by rw [hPP, hPPe]; rfl)
              · exact unsafe_append _ _ hPPu hqpu
            have hnone : splitSchemeOff (PP ++ (if q' = [] then [] else '?' :: q')) =
                none := by
              rw [← hPP]
              exact hinv.no_scheme hs0 _ (qpart_good_head q')
            have hsplit : urlsplit (PP ++ (if q' = [] then [] else '?' :: q')) =
                some ⟨[], [], PP, q', []⟩ := by
              rw [urlsplit_noscheme _ hclean hnone]
              exact urlsplitBody_plain [] PP q' (take2_append_q PP q' hPP2)
                hPPq hPPh hq'h
            rw [urlparse_of_split _ _ hsplit, hsplitPP]
          · dsimp only
            rw [show pyLower ([] : Str) = [] from rfl, hq'idem, urlunparse_fields, hPP,
              urlunsplit_no_frag,
              u1_eval_C ([] : Str) PP (fun hcond => absurd rfl hcond.1),
              if_neg (by simp)]
      · -- C1: scheme present but not a netloc scheme
        rw [if_pos hs0]
        rcases hinv.scheme_ok with hs0' | ⟨_, hs0sc, hs0al, hs0low⟩
        · exact absurd hs0' hs0
        rw [show ((p.scheme ++ ':' :: PP : Str) ++ (if q' = [] then [] else '?' :: q')) =
          p.scheme ++ ':' :: (PP ++ (if q' = [] then [] else '?' :: q')) from by simp]
        apply normalize_fixed_point _ ⟨p.scheme, [], p.path, p.params, q', []⟩
        · simp [hs0]
        · have hclean : cleanUrlInput (p.scheme ++ ':' ::
              (PP ++ (if q' = [] then [] else '?' :: q'))) =
              p.scheme ++ ':' :: (PP ++ (if q' = [] then [] else '?' :: q')) := by
            apply cleanUrlInput_noop
            · exact scheme_head_not_c0 _ _ hs0 hs0al
            · exact unsafe_append _ _ hinv.scheme_clean (unsafe_cons ':' _ (by decide)
                (unsafe_append _ _ hPPu hqpu))
          have hsplit : urlsplit (p.scheme ++ ':' ::
              (PP ++ (if q' = [] then [] else '?' :: q'))) =
              some ⟨p.scheme, [], PP, q', []⟩ := by
            rw [urlsplit_scheme _ _ hs0 hs0sc hs0al hclean, hs0low]
            exact urlsplitBody_plain p.scheme PP q' (take2_append_q PP q' hPP2)
              hPPq hPPh hq'h
          rw [urlparse_of_split _ _ hsplit, hsplitPP]
        · dsimp only
          rw [show pyLower ([] : Str) = [] from rfl, hq'idem, urlunparse_fields, hPP,
            urlunsplit_no_frag,
            u1_eval_C p.scheme PP (fun hcond => hins ⟨hcond.1, hcond.2.1⟩),
            if_pos hs0]
          simp
  · -- case A: non-empty netloc
    have hLne : L ≠ [] := by
      rw [← hL]
      intro hh
      exact hnl ((pyLower_eq_nil_iff _).mp hh)
    have hPPsl : PP = [] ∨ PP.take 1 = ['/'] := by
      rcases hinv.netloc_path hnl with ⟨h1, h2⟩ | h1
      · left
        rw [← hPP]
        exact (ppJoin_eq_nil_iff _ _).mpr ⟨h1, h2⟩
      · right
        rw [← hPP]
        exact ppJoin_take1 _ _ h1
    rw [u1_eval_netloc p.scheme L PP hLne hPPsl]
    have hcleanbody : cleanUrlInput
        ('/' :: '/' :: (L ++ (PP ++ (if q' = [] then [] else '?' :: q')))) =
        '/' :: '/' :: (L ++ (PP ++ (if q' = [] then [] else '?' :: q'))) := by
      apply cleanUrlInput_noop
      · intro c hc
        rw [List.head?_cons, Option.some.injEq] at hc
        rw [← hc]
        rfl
      · exact unsafe_cons '/' _ (by decide) (unsafe_cons '/' _ (by decide)
          (unsafe_append _ _ hLu (unsafe_append _ _ hPPu hqpu)))
    have hbody : urlsplitBody p.scheme
        ('/' :: '/' :: (L ++ (PP ++ (if q' = [] then [] else '?' :: q')))) =
        some ⟨p.scheme, L, PP, q', []⟩ :=
      urlsplitBody_netloc p.scheme L PP q' hLd hLbr hPPsl hPPq hPPh hq'h
    rcases hinv.scheme_ok with hs0 | ⟨hs0ne, hs0sc, hs0al, hs0low⟩
    · -- A, no scheme
      rw [if_neg (by simpa using hs0)]
      rw [show (('/' :: '/' :: (L ++ PP) : Str) ++ (if q' = [] then [] else '?' :: q')) =
        '/' :: '/' :: (L ++ (PP ++ (if q' = [] then [] else '?' :: q'))) from by simp]
      apply normalize_fixed_point _ ⟨[], L, p.path, p.params, q', []⟩
      · simp
      · have hsplit : urlsplit
            ('/' :: '/' :: (L ++ (PP ++ (if q' = [] then [] else '?' :: q')))) =
            some ⟨[], L, PP, q', []⟩ := by
          rw [urlsplit_noscheme _ hcleanbody (splitSchemeOff_none_head _ (by
            intro c hc
            rw [List.head?_cons, Option.some.injEq] at hc
            rw [← hc]
            decide))]
          exact urlsplitBody_netloc [] L PP q' hLd hLbr hPPsl hPPq hPPh hq'h
        rw [urlparse_of_split _ _ hsplit, hsplitPP]
      · dsimp only
        rw [hLidem, hq'idem, urlunparse_fields, hPP, urlunsplit_no_frag,
          u1_eval_netloc ([] : Str) L PP hLne hPPsl, if_neg (by simp)]
        simp
    · -- A, scheme present
      rw [if_pos hs0ne]
      rw [show ((p.scheme ++ ':' :: ('/' :: '/' :: (L ++ PP)) : Str) ++
          (if q' = [] then [] else '?' :: q')) =
        p.scheme ++ ':' :: ('/' :: '/' :: (L ++ (PP ++ (if q' = [] then [] else '?' :: q'))))
        from by simp]
      apply normalize_fixed_point _ ⟨p.scheme, L, p.path, p.params, q', []⟩
      · simp [hs0ne]
      · have hclean : cleanUrlInput (p.scheme ++ ':' ::
            ('/' :: '/' :: (L ++ (PP ++ (if q' = [] then [] else '?' :: q'))))) =
            p.scheme ++ ':' ::
              ('/' :: '/' :: (L ++ (PP ++ (if q' = [] then [] else '?' :: q')))) := by
          apply cleanUrlInput_noop
          · exact scheme_head_not_c0 _ _ hs0ne hs0al
          · exact unsafe_append _ _ hinv.scheme_clean (unsafe_cons ':' _ (by decide)
              (unsafe_cons '/' _ (by decide) (unsafe_cons '/' _ (by decide)
                (unsafe_append _ _ hLu (unsafe_append _ _ hPPu hqpu)))))
        have hsplit : urlsplit (p.scheme ++ ':' ::
            ('/' :: '/' :: (L ++ (PP ++ (if q' = [] then [] else '?' :: q'))))) =
            some ⟨p.scheme, L, PP, q', []⟩ := by
          rw [urlsplit_scheme _ _ hs0ne hs0sc hs0al hclean, hs0low]
          exact hbody
        rw [urlparse_of_split _ _ hsplit, hsplitPP]
      · dsimp only
        rw [hLidem, hq'idem, urlunparse_fields, hPP, urlunsplit_no_frag,
          u1_eval_netloc p.scheme L PP hLne hPPsl, if_pos hs0ne]
        simp


/-- **C6 (amended).** URL normalization is idempotent on every URL whose
parse succeeds with a non-empty netloc or with a path that does not begin
with `//` (and trivially on the empty string and on every string whose parse
fails, which normalization returns unchanged):
`normalize_url (normalize_url u) = normalize_url u`. The excluded corner —
empty netloc together with a `//`-prefixed path — is exactly the CPython
3.11 `urlunsplit` behaviour exhibited by the counterexample. -/
theorem C6_amended (u : Str)
    (h : ∀ p, urlparse u = some p → p.netloc ≠ [] ∨ p.path.take 2 ≠ ['/', '/']) :
    normalize_url (normalize_url u) = normalize_url u := by
  by_cases hu : u = []
  · subst hu
    rfl
  · rcases hp : urlparse u with _ | p
    · have hfix : normalize_url u = u := by
        rw [normalize_url, if_neg hu, hp]
      rw [hfix]
      exact hfix
    · have heq : normalize_url u = urlunparse ⟨p.scheme, pyLower p.netloc, p.path,
          p.params, newQuery p.query, []⟩ := by
        rw [normalize_url, if_neg hu, hp]
        rfl
      rw [heq]
      exact normalize_rebuild p (urlparse_inv u p hp) (h p hp)

theorem C6_amended_witness :
    normalize_url (normalize_url "https://Example.COM/news?utm_source=x&id=2".data) =
      normalize_url "https://Example.COM/news?utm_source=x&id=2".data :=
  C6_amended "https://Example.COM/news?utm_source=x&id=2".data (fun p hp => by
    rw [show urlparse "https://Example.COM/news?utm_source=x&id=2".data =
      some ⟨"https".data, "Example.COM".data, "/news".data, [],
        "utm_source=x&id=2".data, []⟩ from by decide] at hp
    rw [Option.some.injEq] at hp
    rw [← hp]
    left
    decide)


end Tldr
